import Mathlib


/- Shallow embedding of the control-flow structuring engine of the
   move-decompiler: the directed graph and Tarjan SCC pass (scc.rs), the
   loop-reconstruction pass (loop_reconstruction.rs), and the constrained
   stable topological sort (topo.rs).

   Machine integers (usize) are modelled as Nat, with the explicit sentinel
   USIZE_MAX for usize::MAX; the one arithmetic expression that can wrap
   (the synthetic-block priority formula in topo.rs) is computed in Int and
   reduced mod 2^64, matching release-mode wrapping semantics.

   Rust HashSet<usize> / HashMap<usize, _> values are modelled as strictly
   sorted lists and sorted association lists, so every operation is
   deterministic; Rust hash iteration order is unspecified, and where an
   algorithm iterates a hash container this file iterates in ascending key
   order.  BTreeSet (used for the BFS visited set and the topo-sort queues)
   is order-faithful.  A Rust panic (out-of-bounds index, unwrap on None)
   is modelled by RRes.panicked, distinct from RRes.error which models the
   anyhow error returns.  Loops whose termination is not structural carry a
   fuel argument large enough that it can never be exhausted for the given
   input sizes. -/

def USIZE_MAX : Nat := 2 ^ 64 - 1

/-- Result of running a fallible piece of Rust code: `panicked` models a
Rust panic (index out of bounds or unwrap of None), `error` models an
`anyhow::Error` return, `ok` a normal result. -/
inductive RRes (α : Type) where
  | panicked (msg : String)
  | error (msg : String)
  | ok (val : α)
deriving DecidableEq, Repr

/-- Insert into a strictly sorted list of naturals (models HashSet insert,
with ascending iteration order). -/
def sinsert (x : Nat) : List Nat → List Nat
  | [] => [x]
  | y :: ys => if x < y then x :: y :: ys else if x = y then y :: ys else y :: sinsert x ys

/-- Remove from a set represented as a list of naturals. -/
def sremove (x : Nat) : List Nat → List Nat
  | [] => []
  | y :: ys => if y = x then ys else y :: sremove x ys

/-- Build a sorted set from a list. -/
def sfromList (l : List Nat) : List Nat := l.foldl (fun s x => sinsert x s) []

/-- Lookup in an association list keyed by naturals (models HashMap get). -/
def alookup {α : Type} : List (Nat × α) → Nat → Option α
  | [], _ => none
  | (k2, v) :: rest, k => if k = k2 then some v else alookup rest k

/-- Insert-or-replace in a key-sorted association list (models HashMap insert). -/
def ainsert {α : Type} : List (Nat × α) → Nat → α → List (Nat × α)
  | [], k, v => [(k, v)]
  | (k2, w) :: rest, k, v =>
    if k = k2 then (k, v) :: rest
    else if k < k2 then (k, v) :: (k2, w) :: rest
    else (k2, w) :: ainsert rest k v

/-- Add `x` to the set stored under key `k` (models `map.entry(k).or_insert(HashSet::new()).insert(x)`). -/
def mupdate (m : List (Nat × List Nat)) (k x : Nat) : List (Nat × List Nat) :=
  ainsert m k (sinsert x ((alookup m k).getD []))

/-- Lookup with default 0 (models the never-failing `map[&k]` accesses of scc.rs). -/
def lookupD (m : List (Nat × Nat)) (k : Nat) : Nat := (alookup m k).getD 0

/- ------------------------------------------------------------------ -/
/- scc.rs: Graph                                                      -/
/- ------------------------------------------------------------------ -/

/-- The minimal directed graph of scc.rs: a node set plus an adjacency map
whose values are successor sets. -/
structure Graph where
  nodes : List Nat
  graph : List (Nat × List Nat)
deriving DecidableEq, Repr

def Graph.new : Graph := ⟨[], []⟩

def Graph.add_edge (g : Graph) (u v : Nat) : Graph :=
  { nodes := sinsert v (sinsert u g.nodes), graph := mupdate g.graph u v }

def Graph.ensure_node (g : Graph) (n : Nat) : Graph :=
  { g with nodes := sinsert n g.nodes }

def Graph.edges (g : Graph) (n : Nat) : List Nat := (alookup g.graph n).getD []

/- ------------------------------------------------------------------ -/
/- scc.rs: TarjanScc                                                  -/
/- ------------------------------------------------------------------ -/

/-- State of the Tarjan strongly-connected-components pass, mirroring the
fields of the Rust struct TarjanScc. -/
structure TarjanScc where
  index : Nat
  stack : List Nat
  scc : List (Nat × Nat)
  sccs : List (List Nat)
  indices : List (Nat × Nat)
  lowlinks : List (Nat × Nat)
  in_stack : List Nat
deriving DecidableEq, Repr

def TarjanScc.empty : TarjanScc := ⟨0, [], [], [], [], [], []⟩

/-- Pop the explicit stack (head is the top) down to and including `u`,
returning the popped nodes in pop order and the remaining stack. -/
def sccPop (u : Nat) : List Nat → List Nat × List Nat
  | [] => ([], [])
  | n :: rest =>
    if n = u then ([n], rest)
    else
      let p := sccPop u rest
      (n :: p.1, p.2)

/-- Close the component rooted at `u`: pop every node above and including
`u`, record its component id, and append the member list. -/
def TarjanScc.close (u : Nat) (st : TarjanScc) : TarjanScc :=
  let p := sccPop u st.stack
  let idx := st.sccs.length
  { st with
    stack := p.2
    in_stack := p.1.foldl (fun s n => sremove n s) st.in_stack
    scc := p.1.foldl (fun m n => ainsert m n idx) st.scc
    sccs := st.sccs ++ [p.1] }

/-- The recursive strong_connect of scc.rs.  The fuel bounds the depth of
nested recursive calls; each nested call is on a node without a discovery
index and immediately assigns it one, so fuel exceeding the node count is
never exhausted. -/
def TarjanScc.strong_connect (g : Graph) : Nat → Nat → TarjanScc → TarjanScc
  | 0, _, st => st
  | fuel + 1, u, st =>
    let st := { st with
      indices := ainsert st.indices u st.index
      lowlinks := ainsert st.lowlinks u st.index
      index := st.index + 1
      stack := u :: st.stack
      in_stack := sinsert u st.in_stack }
    let st := (g.edges u).foldl (fun st v =>
      if (alookup st.indices v).isNone then
        let st := TarjanScc.strong_connect g fuel v st
        { st with lowlinks := ainsert st.lowlinks u (min (lookupD st.lowlinks u) (lookupD st.lowlinks v)) }
      else if st.in_stack.contains v then
        { st with lowlinks := ainsert st.lowlinks u (min (lookupD st.lowlinks u) (lookupD st.indices v)) }
      else st) st
    if lookupD st.lowlinks u = lookupD st.indices u then TarjanScc.close u st else st

/-- TarjanScc::new — run strong_connect from every not-yet-visited node. -/
def TarjanScc.new (g : Graph) : TarjanScc :=
  g.nodes.foldl (fun st u =>
    if (alookup st.indices u).isNone then TarjanScc.strong_connect g (g.nodes.length + 1) u st
    else st) TarjanScc.empty

/-- scc_for_node — the component id of a node, if it was analyzed. -/
def TarjanScc.scc_for_node (t : TarjanScc) (node : Nat) : Option (Nat × List Nat) :=
  match alookup t.scc node with
  | some scc_idx => some (scc_idx, (t.sccs.getD scc_idx []))
  | none => none

/- ------------------------------------------------------------------ -/
/- datastructs (modelled): Terminator and BasicBlock                  -/
/- ------------------------------------------------------------------ -/

/-- Terminator of a basic block, as described by the spec data model; the
datastructs module defining it is not among the given sources. -/
inductive Terminator where
  | Normal
  | Ret
  | Abort
  | Branch (target : Nat)
  | IfElse (if_block else_block : Nat)
  | While (inner_block outer_block : Nat)
  | Break (target : Nat)
  | Continue (target : Nat)
deriving DecidableEq, Repr

/-- Modelled from the spec: the datastructs module (absent from the given
sources) provides next_blocks(), the list of successor indices of a
terminator; Ret, Abort and Normal have none, Branch, Break and Continue
have their single target, IfElse has its two arms and While has its inner
and outer block. -/
def Terminator.next_blocks : Terminator → List Nat
  | .Normal => []
  | .Ret => []
  | .Abort => []
  | .Branch t => [t]
  | .IfElse a b => [a, b]
  | .While a b => [a, b]
  | .Break t => [t]
  | .Continue t => [t]

/-- Modelled from the spec: a basic block of the datastructs module (absent
from the given sources), with the fields the three algorithm files read and
write.  The opaque BlockContent payload is omitted: the structuring core
never inspects it.  Default values follow Rust Default (zero, None, empty
set); the sets are kept as sorted lists. -/
structure BasicBlock where
  idx : Nat := 0
  offset : Nat := 0
  next : Terminator := .Normal
  topo_priority : Option Nat := none
  topo_before : List Nat := []
  topo_after : List Nat := []
  unconditional_loop_entry : Option Nat := none
deriving DecidableEq, Repr

/- ------------------------------------------------------------------ -/
/- loop_reconstruction.rs: build_graph and find_possible_root         -/
/- ------------------------------------------------------------------ -/

/-- BFS worklist loop of build_graph.  The queue is FIFO (VecDeque).  Fuel
never runs out: each iteration pops one element and every push is of a
freshly visited member of the view, so the iteration count is at most the
view size plus one.  `none` models the Rust index panic on an out-of-range
block access. -/
def build_graph_loop (blocks : List BasicBlock) (current_view : List Nat) :
    Nat → List Nat → List Nat → Graph → Option Graph
  | 0, _, _, _ => none
  | fuel + 1, queue, visited, g =>
    match queue with
    | [] => some g
    | idx :: rest =>
      match blocks.get? idx with
      | none => none
      | some b =>
        let s := b.next.next_blocks.foldl
          (fun (s : List Nat × List Nat × Graph) nxt =>
            if current_view.contains nxt then
              let g2 := if current_view.contains idx then s.2.2.add_edge idx nxt else s.2.2
              if s.2.1.contains nxt then (s.1, s.2.1, g2)
              else (s.1 ++ [nxt], sinsert nxt s.2.1, g2)
            else s)
          (rest, visited, g)
        build_graph_loop blocks current_view fuel s.1 s.2.1 s.2.2

/-- build_graph of loop_reconstruction.rs: the view-restricted graph
reachable from starting_idx. -/
def build_graph (blocks : List BasicBlock) (current_view : List Nat) (starting_idx : Nat) :
    Option Graph :=
  let g := if current_view.contains starting_idx then Graph.new.ensure_node starting_idx else Graph.new
  build_graph_loop blocks current_view (current_view.length + 2) [starting_idx] [starting_idx] g

/-- find_possible_root of loop_reconstruction.rs: the successors of the
(out-of-view) start node that lie inside the view.  `none` models the index
panic when start_idx is out of range. -/
def find_possible_root (bbs : List BasicBlock) (start_idx : Nat) (current_view : List Nat) :
    Option (List Nat) :=
  match bbs.get? start_idx with
  | none => none
  | some b => some (sfromList (b.next.next_blocks.filter (fun v => current_view.contains v)))

/- ------------------------------------------------------------------ -/
/- loop_reconstruction.rs: SCC super-graph entries/exits and validation -/
/- ------------------------------------------------------------------ -/

/-- The super-graph accumulation state: the component super-graph itself
(built but never read by the algorithm), the per-component entry-node sets
and the per-component exit-node sets. -/
structure SuperGraph where
  sg : Graph
  entries : List (Nat × List Nat)
  exits : List (Nat × List Nat)
deriving DecidableEq, Repr

/-- The loop of loop_reconstruction_recursive that records, for every
in-view node u with component scc_id and every successor v in a different
component v_scc_id (or the fake exit component usize::MAX when v is not in
the analyzed graph), a super-graph edge, v as an entry of v_scc_id and v as
an exit of scc_id. -/
def super_graph_scan (bbs : List BasicBlock) (current_view : List Nat) (t : TarjanScc) :
    SuperGraph :=
  (bbs.enum).foldl
    (fun (acc : SuperGraph) (ub : Nat × BasicBlock) =>
      let u := ub.1
      if current_view.contains u then
        match t.scc_for_node u with
        | none => acc
        | some (scc_id, _) =>
          ub.2.next.next_blocks.foldl
            (fun (acc : SuperGraph) v =>
              let v_scc_id := match t.scc_for_node v with
                | some (i, _) => i
                | none => USIZE_MAX
              if scc_id ≠ v_scc_id then
                { sg := acc.sg.add_edge scc_id v_scc_id
                  entries := mupdate acc.entries v_scc_id v
                  exits := mupdate acc.exits scc_id v }
              else acc)
            acc
      else acc)
    ⟨Graph.new, [], []⟩

/-- Root seeding of loop_reconstruction_recursive: if the start index lies
in the view its own component gets it as an entry, otherwise every in-view
successor of the start block is seeded as an entry of its component.
`panicked` models the unwrap of scc_for_node on an unanalyzed node and the
index panic of find_possible_root. -/
def seed_root_entries (bbs : List BasicBlock) (current_view : List Nat) (t : TarjanScc)
    (start_idx : Nat) (entries : List (Nat × List Nat)) :
    RRes (List (Nat × List Nat)) :=
  if current_view.contains start_idx then
    match t.scc_for_node start_idx with
    | none => .panicked "scc_for_node unwrap"
    | some (root_scc_id, _) => .ok (mupdate entries root_scc_id start_idx)
  else
    match find_possible_root bbs start_idx current_view with
    | none => .panicked "index out of bounds"
    | some roots =>
      roots.foldl
        (fun (acc : RRes (List (Nat × List Nat))) possible_root =>
          match acc with
          | .ok m =>
            match t.scc_for_node possible_root with
            | none => .panicked "scc_for_node unwrap"
            | some (root_scc_id, _) => .ok (mupdate m root_scc_id possible_root)
          | other => other)
        (.ok entries)

/-- Does this component represent a real loop: more than one member, or a
single member with a self-edge?  `none` models the index panic when the
single member is out of range. -/
def is_real_loop (bbs : List BasicBlock) (scc_nodes : List Nat) : Option Bool :=
  match scc_nodes with
  | [node] =>
    match bbs.get? node with
    | none => none
    | some b => some (b.next.next_blocks.contains node)
  | _ => some true

/-- Number of recorded entry nodes of a component. -/
def entries_count (entries : List (Nat × List Nat)) (scc_idx : Nat) : Nat :=
  ((alookup entries scc_idx).getD []).length

/-- The validation loop of loop_reconstruction_recursive: every component
that represents a real loop must have exactly one entry; more than one
yields the multiple-entries error, zero yields the dead-block error. -/
def validate_sccs (bbs : List BasicBlock) (entries : List (Nat × List Nat)) :
    List (Nat × List Nat) → RRes Unit
  | [] => .ok ()
  | (scc_idx, scc_nodes) :: rest =>
    match is_real_loop bbs scc_nodes with
    | none => .panicked "index out of bounds"
    | some false => validate_sccs bbs entries rest
    | some true =>
      let c := entries_count entries scc_idx
      if c > 1 then .error "Found SCC with multiple entries"
      else if c = 0 then .error "Found non-entry SCC without entry (dead block)"
      else validate_sccs bbs entries rest

/- ------------------------------------------------------------------ -/
/- loop_reconstruction.rs: exit disambiguation and dummy blocks       -/
/- ------------------------------------------------------------------ -/

/-- One step of the largest-offset fold of loop_reconstruction_recursive:
replace the accumulated (offset, idx) pair by that of the candidate when
its offset is strictly greater.  `none` models the index panic on an
out-of-range candidate. -/
def exit_fold_step (bbs : List BasicBlock) (acc : Option (Nat × Nat)) (i : Nat) :
    Option (Nat × Nat) :=
  match acc with
  | none => none
  | some mc =>
    match bbs.get? i with
    | none => none
    | some b => if b.offset > mc.1 then some (b.offset, b.idx) else some mc

/-- The largest-offset fold of loop_reconstruction_recursive, over the exit
candidates in ascending order, starting from the accumulator (0, 0) and
finally yielding the accumulated idx. -/
def exit_offset_fold (bbs : List BasicBlock) (scc_exits : List Nat) : Option Nat :=
  (scc_exits.foldl (exit_fold_step bbs) (some (0, 0))).map (fun mc => mc.2)

/-- Exit disambiguation of loop_reconstruction_recursive (the scc_exit
computation): usize::MAX when there is no candidate; the single candidate
when there is one; with several candidates, the else_block of the entry
terminator if that is an IfElse whose else arm is a candidate, and
otherwise the result of the largest-offset fold. -/
def choose_exit (bbs : List BasicBlock) (entry_next : Terminator) (scc_exits : List Nat) :
    Option Nat :=
  if scc_exits.length > 1 then
    let pref := match entry_next with
      | .IfElse _ else_block => if scc_exits.contains else_block then else_block else USIZE_MAX
      | _ => USIZE_MAX
    if pref = USIZE_MAX then exit_offset_fold bbs scc_exits else some pref
  else
    match scc_exits with
    | [e] => some e
    | _ => some USIZE_MAX

/-- State captured by the add_dummy_block_if_required closure: the new
blocks accumulated so far, the next free block index, and the per-origin
memo tables for Break and Continue dummies. -/
structure DummyState where
  new_blocks : List BasicBlock
  next_block_idx : Nat
  dummy_break : List (Nat × Nat)
  dummy_continue : List (Nat × Nat)
deriving DecidableEq, Repr

/-- add_dummy_block_if_required of loop_reconstruction.rs: a branch target
equal to scc_entry is replaced by a (memoized per originating block)
synthetic Continue block, and a target equal to scc_exit by a synthetic
Break block; the synthetic block has offset usize::MAX, topo_priority 0,
is constrained after its origin and before scc_exit. -/
def add_dummy_block_if_required (scc_entry scc_exit : Nat) (base x : Nat) (ds : DummyState) :
    Nat × DummyState :=
  let step1 : Nat × DummyState :=
    if x = scc_entry then
      match alookup ds.dummy_continue base with
      | some id => (id, ds)
      | none =>
        let id := ds.next_block_idx
        let nb : BasicBlock :=
          { idx := id, offset := USIZE_MAX, next := .Continue scc_entry,
            topo_priority := some 0, topo_after := [base], topo_before := [scc_exit] }
        (id, { ds with new_blocks := ds.new_blocks ++ [nb], next_block_idx := id + 1,
                       dummy_continue := ainsert ds.dummy_continue base id })
    else (x, ds)
  let x := step1.1
  let ds := step1.2
  if x = scc_exit then
    match alookup ds.dummy_break base with
    | some id => (id, ds)
    | none =>
      let id := ds.next_block_idx
      let nb : BasicBlock :=
        { idx := id, offset := USIZE_MAX, next := .Break scc_exit,
          topo_priority := some 0, topo_after := [base], topo_before := [scc_exit] }
      (id, { ds with new_blocks := ds.new_blocks ++ [nb], next_block_idx := id + 1,
                     dummy_break := ainsert ds.dummy_break base id })
  else (x, ds)

/-- The member-rewrite loop of loop_reconstruction_recursive: inside the
component, a Branch to the entry becomes Continue and a Branch to the exit
becomes Break, and every IfElse other than the entry has both arms passed
through the dummy-block synthesizer.  `none` models the index panic on an
out-of-range member. -/
def rewrite_members (scc_entry scc_exit : Nat) :
    List Nat → List BasicBlock → DummyState → Option (List BasicBlock × DummyState)
  | [], bbs, ds => some (bbs, ds)
  | i :: rest, bbs, ds =>
    match bbs.get? i with
    | none => none
    | some b =>
      match b.next with
      | .Branch target =>
        let b := if target = scc_entry then { b with next := .Continue target } else b
        let b := if target = scc_exit then { b with next := .Break target } else b
        rewrite_members scc_entry scc_exit rest (bbs.set i b) ds
      | .IfElse if_block else_block =>
        if b.idx ≠ scc_entry then
          let r1 := add_dummy_block_if_required scc_entry scc_exit i if_block ds
          let r2 := add_dummy_block_if_required scc_entry scc_exit i else_block r1.2
          rewrite_members scc_entry scc_exit rest
            (bbs.set i { b with next := .IfElse r1.1 r2.1 }) r2.2
        else rewrite_members scc_entry scc_exit rest bbs ds
      | _ => rewrite_members scc_entry scc_exit rest bbs ds

/-- The entry handling of loop_reconstruction_recursive: an IfElse entry
whose if arm is neither in the component nor the exit is an error; an
IfElse entry whose else arm is the exit becomes While{if_block,
else_block}; any other entry keeps its terminator and records the exit in
unconditional_loop_entry.  `panicked` models the index panic on an
out-of-range entry. -/
def reclassify_entry (bbs : List BasicBlock) (scc_nodes : List Nat) (scc_entry scc_exit : Nat) :
    RRes (List BasicBlock) :=
  match bbs.get? scc_entry with
  | none => .panicked "index out of bounds"
  | some b =>
    match b.next with
    | .IfElse if_block else_block =>
      if ¬ scc_nodes.contains if_block ∧ if_block ≠ scc_exit then
        .error "Failed to reconstruct loop, entry node is not in SCC"
      else if else_block = scc_exit then
        .ok (bbs.set scc_entry { b with next := .While if_block else_block })
      else
        .ok (bbs.set scc_entry { b with unconditional_loop_entry := some scc_exit })
    | _ => .ok (bbs.set scc_entry { b with unconditional_loop_entry := some scc_exit })

/- ------------------------------------------------------------------ -/
/- loop_reconstruction.rs: the recursive driver                       -/
/- ------------------------------------------------------------------ -/

/-- The per-component reconstruction loop of loop_reconstruction_recursive.
Components that are not real loops are skipped; for each real loop the
single entry and the disambiguated exit are determined, the members are
rewritten, the entry is reclassified, the synthesized blocks are appended
and the loop body (members except the entry) is recursed into through
`recur`.  `recur` is the recursive reentry into
loop_reconstruction_recursive with one unit of fuel consumed. -/
def process_sccs (recur : List BasicBlock → List Nat → Nat → RRes (List BasicBlock)) :
    List (Nat × List Nat) → List BasicBlock → List (Nat × List Nat) → List (Nat × List Nat) →
    RRes (List BasicBlock)
  | [], bbs, _, _ => .ok bbs
  | (scc_idx, scc_nodes) :: rest, bbs, entries, exits =>
    match is_real_loop bbs scc_nodes with
    | none => .panicked "index out of bounds"
    | some false => process_sccs recur rest bbs entries exits
    | some true =>
      match alookup entries scc_idx with
      | none => .panicked "entries unwrap"
      | some scc_entries =>
        let scc_exits := (alookup exits scc_idx).getD []
        match scc_entries.head? with
        | none => .panicked "entries iter next unwrap"
        | some scc_entry =>
          match bbs.get? scc_entry with
          | none => .panicked "index out of bounds"
          | some entry_block =>
            match choose_exit bbs entry_block.next scc_exits with
            | none => .panicked "index out of bounds"
            | some scc_exit =>
              match rewrite_members scc_entry scc_exit scc_nodes bbs
                  ⟨[], bbs.length, [], []⟩ with
              | none => .panicked "index out of bounds"
              | some bd =>
                let body_view := sfromList (scc_nodes.filter (fun i => i ≠ scc_entry))
                match reclassify_entry bd.1 scc_nodes scc_entry scc_exit with
                | .panicked m => .panicked m
                | .error m => .error m
                | .ok bbs2 =>
                  let bbs3 := bbs2 ++ bd.2.new_blocks
                  if body_view.length > 0 then
                    match recur bbs3 body_view scc_entry with
                    | .panicked m => .panicked m
                    | .error m => .error m
                    | .ok bbs4 => process_sccs recur rest bbs4 entries exits
                  else process_sccs recur rest bbs3 entries exits

/-- loop_reconstruction_recursive of loop_reconstruction.rs.  The fuel
bounds the recursion depth; every recursive call is on a strictly smaller
view (the loop body without its entry), so the top-level fuel of the block
count plus two is never exhausted.  original_len is threaded but, as in the
source, never used. -/
def loop_reconstruction_recursive :
    Nat → List BasicBlock → Nat → List Nat → Nat → RRes (List BasicBlock)
  | 0, _, _, _, _ => .panicked "recursion fuel"
  | fuel + 1, bbs, original_len, current_view, start_idx =>
    match build_graph bbs current_view start_idx with
    | none => .panicked "index out of bounds"
    | some graph =>
      if graph.nodes.length = 0 then .ok bbs
      else
        let scc := TarjanScc.new graph
        let sgs := super_graph_scan bbs current_view scc
        match seed_root_entries bbs current_view scc start_idx sgs.entries with
        | .panicked m => .panicked m
        | .error m => .error m
        | .ok entries =>
          match validate_sccs bbs entries scc.sccs.enum with
          | .panicked m => .panicked m
          | .error m => .error m
          | .ok _ =>
            process_sccs
              (fun b v s => loop_reconstruction_recursive fuel b original_len v s)
              scc.sccs.enum bbs entries sgs.exits

/-- loop_reconstruction of loop_reconstruction.rs: run the recursive
structuring over the full block set with start index 0. -/
def loop_reconstruction (bbs : List BasicBlock) : RRes (List BasicBlock) :=
  loop_reconstruction_recursive (bbs.length + 2) bbs bbs.length (List.range bbs.length) 0

/- ------------------------------------------------------------------ -/
/- topo.rs: constrained stable topological sort                       -/
/- ------------------------------------------------------------------ -/

/-- usize arithmetic with release-mode wrapping: reduce an Int mod 2^64. -/
def wrapUsize (x : Int) : Nat := (x % (2 ^ 64 : Int)).toNat

/-- Edge-list normalization of topo_sort_stable_usize: per source index,
sort, deduplicate and drop self-edges. -/
def normalize_edges (edges : List (List Nat)) : List (List Nat) :=
  edges.enum.map (fun (p : Nat × List Nat) => (sfromList p.2).filter (fun x => x ≠ p.1))

/-- One successor step of the reachability scan: an already-visited target
is skipped, a fresh one is marked and pushed; `none` models the panic of
`visited[next_idx]` on a target not below the vector length. -/
def reach_step (sv : Option (List Nat × List Bool)) (nxt : Nat) :
    Option (List Nat × List Bool) :=
  match sv with
  | none => none
  | some sv =>
    match sv.2.get? nxt with
    | none => none
    | some b => if b then some sv else some (nxt :: sv.1, sv.2.set nxt true)

/-- The DFS reachability loop of topo_sort_stable_usize (explicit stack,
last pushed popped first).  `none` models the index panics on an
out-of-range edge source or target. -/
def reach_loop (edges : List (List Nat)) :
    Nat → List Nat → List Bool → Option (List Bool)
  | 0, _, _ => none
  | fuel + 1, stack, visited =>
    match stack with
    | [] => some visited
    | idx :: rest =>
      match edges.get? idx with
      | none => none
      | some es =>
        match es.foldl reach_step (some (rest, visited)) with
        | none => none
        | some sv => reach_loop edges fuel sv.1 sv.2

/-- The reachable-vertex computation of topo_sort_stable_usize: mark
everything reachable from vertex 0 and list the marked indices in
ascending order.  `none` models the panic of `visited[0] = true` on an
empty vector. -/
def reachable_vertices (edges : List (List Nat)) (n : Nat) : Option (List Nat) :=
  if n = 0 then none
  else
    match reach_loop edges (n + 2) [0] ((List.replicate n false).set 0 true) with
    | none => none
    | some visited => some ((visited.enum.filter (fun p => p.2)).map (fun p => p.1))

/-- Build the reverse-edge table: for every source index and every target
in its list, record the source in the target's predecessor set.  `none`
models the index panic on a target not below n. -/
def build_redge (edges : List (List Nat)) (n : Nat) : Option (List (List Nat)) :=
  edges.enum.foldl
    (fun (acc : Option (List (List Nat))) p =>
      match acc with
      | none => none
      | some r =>
        p.2.foldl
          (fun (acc2 : Option (List (List Nat))) nxt =>
            match acc2 with
            | none => none
            | some r2 =>
              if nxt < n then some (r2.set nxt (sinsert p.1 (r2.getD nxt []))) else none)
          (some r))
    (some (List.replicate n []))

/-- Insert into a sorted list of (priority, id) pairs, ordered
lexicographically (models BTreeSet<(usize, usize)> insert). -/
def pinsert (x : Nat × Nat) : List (Nat × Nat) → List (Nat × Nat)
  | [] => [x]
  | y :: ys =>
    if x.1 < y.1 ∨ (x.1 = y.1 ∧ x.2 < y.2) then x :: y :: ys
    else if x = y then y :: ys
    else y :: pinsert x ys

/-- Remove from a list of (priority, id) pairs (models BTreeSet remove). -/
def premove (x : Nat × Nat) : List (Nat × Nat) → List (Nat × Nat)
  | [] => []
  | y :: ys => if y = x then ys else y :: premove x ys

/-- State of the main loop of topo_sort_stable_usize: the ready queue and
the remaining-vertex set (both ordered by (priority, id)), the queued
flags, the reverse ordinary and constraint edge tables, and the emitted
order so far. -/
structure TopoState where
  queue : List (Nat × Nat)
  queued : List Bool
  remain : List (Nat × Nat)
  redge : List (List Nat)
  credge : List (List Nat)
  result : List Nat
deriving DecidableEq, Repr

/-- The check closure of topo_sort_stable_usize: a vertex with all ordinary
and constraint predecessors satisfied, not yet queued, becomes ready. -/
def topo_check (priority : List Nat) (st : TopoState) (v : Nat) : TopoState :=
  if st.queued.getD v false = false ∧ st.redge.getD v [] = [] ∧ st.credge.getD v [] = [] then
    { st with queue := pinsert (priority.getD v 0, v) st.queue, queued := st.queued.set v true }
  else st

/-- Relax one ordinary edge out of the just-emitted vertex v: remove v
from the target's predecessor set and check the target for readiness. -/
def relax_redge_step (priority : List Nat) (v : Nat) (s : TopoState) (nxt : Nat) : TopoState :=
  let s := { s with redge := s.redge.set nxt (sremove v (s.redge.getD nxt [])) }
  topo_check priority s nxt

/-- Relax one constraint edge out of the just-emitted vertex v. -/
def relax_credge_step (priority : List Nat) (v : Nat) (s : TopoState) (nxt : Nat) : TopoState :=
  let s := { s with credge := s.credge.set nxt (sremove v (s.credge.getD nxt [])) }
  topo_check priority s nxt

/-- The inner while-let loop of topo_sort_stable_usize: repeatedly pop the
least (priority, id) ready vertex, emit it, and relax its outgoing
ordinary and constraint edges.  `none` models fuel exhaustion, which
cannot happen: every pop is of a previously queued vertex and each vertex
is queued at most once. -/
def topo_pop_loop (edges cedges : List (List Nat)) (priority : List Nat) :
    Nat → TopoState → Option TopoState
  | 0, _ => none
  | fuel + 1, st =>
    match st.queue with
    | [] => some st
    | (_, v) :: _ =>
      let pv := priority.getD v 0
      let st0 := { st with
        queue := premove (pv, v) st.queue
        remain := premove (pv, v) st.remain
        result := st.result ++ [v] }
      let st1 := (edges.getD v []).foldl (relax_redge_step priority v) st0
      let st2 := (cedges.getD v []).foldl (relax_credge_step priority v) st1
      topo_pop_loop edges cedges priority fuel st2

/-- The deadlock-breaking scan of topo_sort_stable_usize: the first vertex,
in ascending (priority, id) order over the remaining set, that has no
unsatisfied constraint predecessor. -/
def deadlock_pick (credge : List (List Nat)) : List (Nat × Nat) → Option Nat
  | [] => none
  | (_, v) :: rest => if credge.getD v [] = [] then some v else deadlock_pick credge rest

/-- The outer loop of topo_sort_stable_usize: drain the ready queue; if
vertices remain, force-ready the deadlock pick or fail with the
constraint-cycle error. -/
def topo_outer (edges cedges : List (List Nat)) (priority : List Nat) :
    Nat → TopoState → RRes (List Nat)
  | 0, _ => .panicked "fuel"
  | fuel + 1, st =>
    match topo_pop_loop edges cedges priority (edges.length + 2) st with
    | none => .panicked "fuel"
    | some st =>
      if st.remain = [] then .ok st.result
      else
        match deadlock_pick st.credge st.remain with
        | some v =>
          topo_outer edges cedges priority fuel
            { st with queue := pinsert (priority.getD v 0, v) st.queue,
                      queued := st.queued.set v true }
        | none => .error "cycle detected in constraint graph"

/-- topo_sort_stable_usize of topo.rs. -/
def topo_sort_stable_usize (edges constraint_edges : List (List Nat)) (priority : List Nat) :
    RRes (List Nat) :=
  let n := edges.length
  let cedges := normalize_edges constraint_edges
  let edges2 := normalize_edges edges
  match reachable_vertices edges2 n with
  | none => .panicked "index out of bounds"
  | some rverts =>
    match build_redge edges2 n, build_redge cedges n with
    | some redge, some credge =>
      let st0 : TopoState :=
        { queue := [], queued := List.replicate n false, remain := [],
          redge := redge, credge := credge, result := [] }
      let st1 := rverts.foldl
        (fun (st : TopoState) v =>
          if st.redge.getD v [] = [] then
            { st with queue := pinsert (priority.getD v 0, v) st.queue,
                      queued := st.queued.set v true }
          else st) st0
      let st2 := { st1 with
        remain := rverts.foldl (fun r v => pinsert (priority.getD v 0, v) r) [] }
      topo_outer edges2 cedges priority (n + 2) st2
    | _, _ => .panicked "index out of bounds"

/-- The priority assignment of topo_sort: an explicit topo_priority wins;
a real block (offset below the sentinel) gets idx * 100000 + 1; a
synthetic block gets the large sentinel-based value usize::MAX -
max_block_offset - 1 + offset, computed with release-mode wrapping. -/
def block_priority (max_block_offset : Nat) (b : BasicBlock) : Nat :=
  match b.topo_priority with
  | some p => p
  | none =>
    if b.offset ≠ USIZE_MAX then b.idx * 100000 + 1
    else wrapUsize ((USIZE_MAX : Int) - (max_block_offset : Int) - 1 + (b.offset : Int))

/-- The ordinary edges contributed by one terminator: IfElse both arms,
Branch, Break and Continue their target, While its inner and outer block
plus the synthetic inner-to-outer edge (an unchecked index into the edge
table), Ret and Abort nothing, and Normal the unsupported-terminator
error. -/
def terminator_edges (idx : Nat) (t : Terminator) (edges : List (List Nat)) :
    RRes (List (List Nat)) :=
  match t with
  | .IfElse if_block else_block =>
    .ok (edges.set idx (edges.getD idx [] ++ [if_block, else_block]))
  | .Break target => .ok (edges.set idx (edges.getD idx [] ++ [target]))
  | .Continue target => .ok (edges.set idx (edges.getD idx [] ++ [target]))
  | .Branch target => .ok (edges.set idx (edges.getD idx [] ++ [target]))
  | .While inner_block outer_block =>
    let edges := edges.set idx (edges.getD idx [] ++ [inner_block, outer_block])
    match edges.get? inner_block with
    | none => .panicked "index out of bounds"
    | some l => .ok (edges.set inner_block (l ++ [outer_block]))
  | .Ret => .ok edges
  | .Abort => .ok edges
  | .Normal => .error "unsupported terminator in block"

/-- The edge-building loop of topo_sort: ordinary edges from each
terminator (with the synthetic inner-to-outer edge for While), constraint
edges from topo_before and topo_after members below the block count; a
Normal terminator is the unsupported-terminator error.  `panicked` models
the index panic when a While inner_block is not below the block count. -/
def build_topo_edges (n : Nat) :
    List (Nat × BasicBlock) → List (List Nat) × List (List Nat) →
    RRes (List (List Nat) × List (List Nat))
  | [], acc => .ok acc
  | (idx, b) :: rest, acc =>
    match terminator_edges idx b.next acc.1 with
    | .panicked m => .panicked m
    | .error m => .error m
    | .ok edges =>
      let cedges := acc.2
      let cedges := cedges.set idx (cedges.getD idx [] ++ b.topo_before.filter (fun x => x < n))
      let cedges := (b.topo_after.filter (fun x => x < n)).foldl
        (fun (c : List (List Nat)) x => c.set x (c.getD x [] ++ [idx])) cedges
      build_topo_edges n rest (edges, cedges)

/-- Remap one index through the final-order permutation table; `none`
models the unchecked `rorder[x]` panic on an index not below n. -/
def remap_idx (rorder : List Nat) (n x : Nat) : Option Nat :=
  if x < n then some (rorder.getD x 0) else none

/-- Remap every index of a terminator through the permutation table. -/
def remap_terminator (rorder : List Nat) (n : Nat) : Terminator → Option Terminator
  | .Normal => some .Normal
  | .Ret => some .Ret
  | .Abort => some .Abort
  | .Branch t => (remap_idx rorder n t).map .Branch
  | .IfElse a b =>
    match remap_idx rorder n a, remap_idx rorder n b with
    | some a2, some b2 => some (.IfElse a2 b2)
    | _, _ => none
  | .While a b =>
    match remap_idx rorder n a, remap_idx rorder n b with
    | some a2, some b2 => some (.While a2 b2)
    | _, _ => none
  | .Break t => (remap_idx rorder n t).map .Break
  | .Continue t => (remap_idx rorder n t).map .Continue

/-- Remap a list of indices one by one; `none` as soon as one is out of
range. -/
def remap_list (rorder : List Nat) (n : Nat) : List Nat → Option (List Nat)
  | [] => some []
  | x :: xs =>
    match remap_idx rorder n x, remap_list rorder n xs with
    | some y, some ys => some (y :: ys)
    | _, _ => none

/-- Remap a topo_before / topo_after set (collected back into a set). -/
def remap_set (rorder : List Nat) (n : Nat) (l : List Nat) : Option (List Nat) :=
  (remap_list rorder n l).map sfromList

/-- Remap a whole block placed at final position i. -/
def remap_block (rorder : List Nat) (n i : Nat) (b : BasicBlock) : Option BasicBlock :=
  match remap_terminator rorder n b.next, remap_set rorder n b.topo_after,
      remap_set rorder n b.topo_before with
  | some t, some ta, some tb =>
    match b.unconditional_loop_entry with
    | none => some { b with idx := i, next := t, topo_after := ta, topo_before := tb }
    | some u =>
      (remap_idx rorder n u).map (fun u2 =>
        { b with idx := i, next := t, topo_after := ta, topo_before := tb,
                 unconditional_loop_entry := some u2 })
  | _, _, _ => none

/-- The output-building loop of topo_sort: clone the blocks in emission
order, renumber idx to the position and remap every index reference. -/
def remap_loop (blocks : List BasicBlock) (rorder : List Nat) (n : Nat) :
    List (Nat × Nat) → List BasicBlock → RRes (List BasicBlock)
  | [], acc => .ok acc
  | (i, order_idx) :: rest, acc =>
    match blocks.get? order_idx with
    | none => .panicked "index out of bounds"
    | some b =>
      match remap_block rorder n i b with
      | none => .panicked "index out of bounds"
      | some b2 => remap_loop blocks rorder n rest (acc ++ [b2])

/-- topo_sort of topo.rs. -/
def topo_sort (blocks : List BasicBlock) : RRes (List BasicBlock) :=
  let n := blocks.length
  let max_block_offset := blocks.foldl (fun a b => if a > b.offset then a else b.offset) 0
  let priority := blocks.map (block_priority max_block_offset)
  match build_topo_edges n blocks.enum (List.replicate n [], List.replicate n []) with
  | .panicked m => .panicked m
  | .error m => .error m
  | .ok ec =>
    match topo_sort_stable_usize ec.1 ec.2 priority with
    | .panicked m => .panicked m
    | .error m => .error m
    | .ok order =>
      let rorder := order.enum.foldl (fun (r : List Nat) p => r.set p.2 p.1)
        (List.replicate n 0)
      remap_loop blocks rorder n order.enum []

/-- Block array for the C6 witness: two exit candidates with offsets 5 and 7. -/
def c6wBlocks : List BasicBlock :=
  [ { idx := 0, offset := 1, next := .IfElse 1 2 },
    { idx := 1, offset := 5, next := .Ret },
    { idx := 2, offset := 7, next := .Ret } ]

/-- Deadlocked sort state for the C8 witness: vertex 0 already emitted,
vertices 1 and 2 remaining in a cycle, no constraint edges. -/
def c8st : TopoState :=
  { queue := [], queued := [true, false, false], remain := [(5, 2), (10, 1)],
    redge := [[], [2], [1]], credge := [[], [], []], result := [0] }

/-- Block array for the C4 witness: the component {1, 2} is reachable from
block 0 through the two distinct external edges 0 → 1 and 0 → 2. -/
def c4bbs : List BasicBlock :=
  [ { idx := 0, offset := 0, next := .IfElse 1 2 },
    { idx := 1, offset := 1, next := .Branch 2 },
    { idx := 2, offset := 2, next := .Branch 1 } ]

/-- The view graph of the C4 witness. -/
def c4g : Graph := (build_graph c4bbs (List.range 3) 0).getD Graph.new

/-- The recorded entries of the C4 witness after root seeding. -/
def c4entries : List (Nat × List Nat) :=
  match seed_root_entries c4bbs (List.range 3) (TarjanScc.new c4g) 0
      (super_graph_scan c4bbs (List.range 3) (TarjanScc.new c4g)).entries with
  | .ok m => m
  | _ => []

/-- Block array for the C9 witness: branching but loop-free. -/
def c9bbs : List BasicBlock :=
  [ { idx := 0, offset := 0, next := .IfElse 1 2 },
    { idx := 1, offset := 1, next := .Ret },
    { idx := 2, offset := 2, next := .Ret } ]

/-- The view graph of the C9 witness. -/
def c9g : Graph := (build_graph c9bbs (List.range 3) 0).getD Graph.new

/-- The recorded entries of the C9 witness after root seeding. -/
def c9entries : List (Nat × List Nat) :=
  match seed_root_entries c9bbs (List.range 3) (TarjanScc.new c9g) 0
      (super_graph_scan c9bbs (List.range 3) (TarjanScc.new c9g)).entries with
  | .ok m => m
  | _ => []

/-- Block array for the C7 witness. -/
def c7bbs : List BasicBlock :=
  [ { idx := 0, offset := 0, next := .IfElse 1 2 },
    { idx := 1, offset := 1, next := .Ret },
    { idx := 2, offset := 2, next := .Ret } ]

/-- Reachability in a Graph: the reflexive-transitive closure of the edge
relation. -/
def Reach (g : Graph) : Nat → Nat → Prop :=
  Relation.ReflTransGen (fun a b => b ∈ g.edges a)

/-- Well-formed Graph: every adjacency entry's key and successors are
registered nodes.  Every Graph built through add_edge and ensure_node
satisfies this. -/
def Graph.WF (g : Graph) : Prop :=
  ∀ p, p ∈ g.graph → p.1 ∈ g.nodes ∧ ∀ v, v ∈ p.2 → v ∈ g.nodes

/-- The discovery index of a node (0 when absent). -/
def idxOf (st : TarjanScc) (v : Nat) : Nat := lookupD st.indices v

/-- The current lowlink of a node (0 when absent). -/
def lowOf (st : TarjanScc) (v : Nat) : Nat := lookupD st.lowlinks v

/-- Has the node been discovered (given an index)? -/
def seen (st : TarjanScc) (v : Nat) : Prop := (alookup st.indices v).isSome

/-- The state invariant of the Tarjan pass. -/
structure TInv (g : Graph) (st : TarjanScc) : Prop where
  dom_nodes : ∀ v, seen st v → v ∈ g.nodes
  dom_low : ∀ v, seen st v ↔ (alookup st.lowlinks v).isSome
  idx_lt : ∀ v, seen st v → idxOf st v < st.index
  idx_inj : ∀ v w, seen st v → seen st w → idxOf st v = idxOf st w → v = w
  stack_nodup : st.stack.Nodup
  stack_in : ∀ v, v ∈ st.stack ↔ v ∈ st.in_stack
  stack_seen : ∀ v, v ∈ st.stack → seen st v
  stack_sorted : st.stack.Pairwise (fun a b => idxOf st b < idxOf st a)
  done_iff : ∀ v, (alookup st.scc v).isSome ↔ (seen st v ∧ v ∉ st.stack)
  scc_lt : ∀ v k, alookup st.scc v = some k → k < st.sccs.length
  sccs_mem : ∀ k v, v ∈ st.sccs.getD k [] ↔ alookup st.scc v = some k
  closure : ∀ v k, alookup st.scc v = some k → ∀ t, t ∈ g.edges v →
    ∃ k2, alookup st.scc t = some k2 ∧ k2 ≤ k
  comp_reach : ∀ k v w, v ∈ st.sccs.getD k [] → w ∈ st.sccs.getD k [] → Reach g v w
  stack_reach : ∀ v w, v ∈ st.stack → w ∈ st.stack → idxOf st v ≤ idxOf st w → Reach g v w
  low_le : ∀ v, v ∈ st.stack → lowOf st v ≤ idxOf st v
  low_wit : ∀ v, v ∈ st.stack → ∃ w, w ∈ st.stack ∧ idxOf st w = lowOf st v ∧ Reach g v w
  in_sorted : st.in_stack.Pairwise (fun a b => a < b)

/-- Closure property of a node whose edges have all been explored: every
target is discovered, and is either completed or still stacked with the
node's lowlink not above the target's index. -/
def CP (g : Graph) (st : TarjanScc) (v : Nat) : Prop :=
  ∀ t, t ∈ g.edges v → seen st t ∧
    ((alookup st.scc t).isSome ∨ (t ∈ st.stack ∧ lowOf st v ≤ idxOf st t))

/-- Number of registered nodes not yet discovered. -/
def unvisited (g : Graph) (st : TarjanScc) : Nat :=
  (g.nodes.filter (fun v => (alookup st.indices v).isNone)).length

def pushState (st : TarjanScc) (u : Nat) : TarjanScc :=
  { st with indices := ainsert st.indices u st.index,
            lowlinks := ainsert st.lowlinks u st.index,
            index := st.index + 1,
            stack := u :: st.stack,
            in_stack := sinsert u st.in_stack }

/-- One iteration of the successor fold inside strong_connect. -/
def scFold (g : Graph) (fuel u : Nat) (st : TarjanScc) (v : Nat) : TarjanScc :=
  if (alookup st.indices v).isNone then
    let st := TarjanScc.strong_connect g fuel v st
    { st with lowlinks := ainsert st.lowlinks u (min (lookupD st.lowlinks u) (lookupD st.lowlinks v)) }
  else if st.in_stack.contains v then
    { st with lowlinks := ainsert st.lowlinks u (min (lookupD st.lowlinks u) (lookupD st.indices v)) }
  else st

/-- Per-target closure property: the target is discovered and is either
completed or stacked above the lowlink of `w`. -/
def CPe (g : Graph) (st : TarjanScc) (w t : Nat) : Prop :=
  seen st t ∧ ((alookup st.scc t).isSome ∨ (t ∈ st.stack ∧ lowOf st w ≤ idxOf st t))

/-- Mid-fold invariant of strong_connect at root `u`, relating the current
state `s` to the state `st0` in which the call started. -/
structure MF (g : Graph) (u : Nat) (st0 s : TarjanScc) : Prop where
  inv : TInv g s
  u_stack : u ∈ s.stack
  u_idx : alookup s.indices u = some st0.index
  seen_mono : ∀ w, seen st0 w → seen s w
  pres_idx : ∀ w, seen st0 w → alookup s.indices w = alookup st0.indices w
  pres_low : ∀ w, seen st0 w → alookup s.lowlinks w = alookup st0.lowlinks w
  pres_scc : ∀ w k, alookup st0.scc w = some k → alookup s.scc w = some k
  idx_gt : st0.index < s.index
  new_reach : ∀ w, seen s w → ¬ seen st0 w → Reach g u w
  new_idx_ge : ∀ w, seen s w → ¬ seen st0 w → st0.index ≤ idxOf s w
  stack_shape : ∃ A, s.stack = A ++ u :: st0.stack ∧ ∀ w, w ∈ A → ¬ seen st0 w
  above_low : ∀ w, w ∈ s.stack → ¬ seen st0 w → w ≠ u → lowOf s w < idxOf s w
  news_cp : ∀ w, w ∈ s.stack → ¬ seen st0 w → w ≠ u → CP g s w
  news_low_ge : ∀ w, w ∈ s.stack → ¬ seen st0 w → w ≠ u → lowOf s u ≤ lowOf s w

/-- Postcondition of a completed strong_connect call at root `u`. -/
structure SCPost (g : Graph) (u : Nat) (st0 st' : TarjanScc) : Prop where
  inv : TInv g st'
  seen_mono : ∀ w, seen st0 w → seen st' w
  pres_idx : ∀ w, seen st0 w → alookup st'.indices w = alookup st0.indices w
  pres_low : ∀ w, seen st0 w → alookup st'.lowlinks w = alookup st0.lowlinks w
  pres_scc : ∀ w k, alookup st0.scc w = some k → alookup st'.scc w = some k
  idx_gt : st0.index < st'.index
  u_idx : alookup st'.indices u = some st0.index
  new_reach : ∀ w, seen st' w → ¬ seen st0 w → Reach g u w
  new_idx_ge : ∀ w, seen st' w → ¬ seen st0 w → st0.index ≤ idxOf st' w
  stack_tail : ∃ news, st'.stack = news ++ st0.stack ∧ ∀ w, w ∈ news → ¬ seen st0 w
  u_cases : ((alookup st'.scc u).isSome ∧ u ∉ st'.stack ∧ lowOf st' u = st0.index) ∨
    (u ∈ st'.stack ∧ lowOf st' u < st0.index)
  news_active : ∀ w, w ∈ st'.stack → ¬ seen st0 w → w ≠ u → lowOf st' w < idxOf st' w
  news_cp : ∀ w, w ∈ st'.stack → ¬ seen st0 w → CP g st' w ∧ lowOf st' u ≤ lowOf st' w
  closed_stack : u ∉ st'.stack → st'.stack = st0.stack

def c2g : Graph := ((Graph.new.add_edge 0 1).add_edge 1 0).add_edge 1 2


/- Theorems -/

/- ------------------------------------------------------------------ -/
/- Claim theorems                                                     -/
/- ------------------------------------------------------------------ -/

/-- C1: running loop reconstruction on the block array
[0: IfElse 1 2, 1: Branch 0, 2: Ret] with start index 0 succeeds and
yields an array in which block 0 ends in While 1 2, block 1 ends in
Continue 0, block 2 is unchanged, and no new blocks are appended. -/
theorem C1_simple_loop_scenario :
    loop_reconstruction
      [ { idx := 0, offset := 0, next := .IfElse 1 2 },
        { idx := 1, offset := 1, next := .Branch 0 },
        { idx := 2, offset := 2, next := .Ret } ] =
    .ok
      [ { idx := 0, offset := 0, next := .While 1 2 },
        { idx := 1, offset := 1, next := .Continue 0 },
        { idx := 2, offset := 2, next := .Ret } ] := by decide

/-- C3: on [0: IfElse 1 3, 1: IfElse 2 3, 2: Branch 0, 3: Ret] loop
reconstruction appends exactly one synthetic block (index 4, terminator
Break 3) and redirects block 1's else branch to it, while the natural exit
edge of the entry stays on block 3 (the entry becomes While 1 3); and the
synthetic blocks are memoized per originating node: in the second run the
inner block 1 references the loop entry from both arms and both arms are
redirected to the same single synthetic Continue block. -/
theorem C3_early_exit_dummy_block :
    (loop_reconstruction
      [ { idx := 0, offset := 0, next := .IfElse 1 3 },
        { idx := 1, offset := 1, next := .IfElse 2 3 },
        { idx := 2, offset := 2, next := .Branch 0 },
        { idx := 3, offset := 3, next := .Ret } ] =
    .ok
      [ { idx := 0, offset := 0, next := .While 1 3 },
        { idx := 1, offset := 1, next := .IfElse 2 4 },
        { idx := 2, offset := 2, next := .Continue 0 },
        { idx := 3, offset := 3, next := .Ret },
        { idx := 4, offset := USIZE_MAX, next := .Break 3, topo_priority := some 0,
          topo_before := [3], topo_after := [1] } ]) ∧
    (loop_reconstruction
      [ { idx := 0, offset := 0, next := .IfElse 1 2 },
        { idx := 1, offset := 1, next := .IfElse 0 0 },
        { idx := 2, offset := 2, next := .Ret } ] =
    .ok
      [ { idx := 0, offset := 0, next := .While 1 2 },
        { idx := 1, offset := 1, next := .IfElse 3 3 },
        { idx := 2, offset := 2, next := .Ret },
        { idx := 3, offset := USIZE_MAX, next := .Continue 0, topo_priority := some 0,
          topo_before := [2], topo_after := [1] } ]) := by
  constructor <;> decide

/-- C10: topo_sort is not panic-free: it panics (instead of returning an
error) on the empty block vector, where the reachability scan writes
visited[0] unconditionally; it panics on a block whose topo_before member
is not below the block count, dropped while building constraint edges but
indexed unchecked during final remapping; and loop reconstruction of a
loop with no exit records usize::MAX as a synthetic block's topo_before,
after which the topological sort of the resulting array panics. -/
theorem C10_topo_sort_panics :
    (topo_sort [] = .panicked "index out of bounds") ∧
    (topo_sort [ { idx := 0, offset := 0, next := .Ret, topo_before := [5] } ] =
      .panicked "index out of bounds") ∧
    (loop_reconstruction
      [ { idx := 0, offset := 0, next := .Branch 1 },
        { idx := 1, offset := 1, next := .IfElse 0 0 } ] =
    .ok
      [ { idx := 0, offset := 0, next := .Branch 1,
          unconditional_loop_entry := some USIZE_MAX },
        { idx := 1, offset := 1, next := .IfElse 2 2 },
        { idx := 2, offset := USIZE_MAX, next := .Continue 0, topo_priority := some 0,
          topo_before := [USIZE_MAX], topo_after := [1] } ]) ∧
    (topo_sort
      [ { idx := 0, offset := 0, next := .Branch 1,
          unconditional_loop_entry := some USIZE_MAX },
        { idx := 1, offset := 1, next := .IfElse 2 2 },
        { idx := 2, offset := USIZE_MAX, next := .Continue 0, topo_priority := some 0,
          topo_before := [USIZE_MAX], topo_after := [1] } ] =
      .panicked "index out of bounds") := by
  refine ⟨by decide, by decide, by decide, by decide⟩

/-- C8 counterexample: the deadlock breaker does not force-ready the
smallest-id remaining node with no unsatisfied constraint predecessor; it
scans the remaining set in (priority, id) order.  On the cycle 1 ⇄ 2
reachable from 0, with no constraint edges and priorities [0, 10, 5], both
node 1 and node 2 are eligible at the deadlock; the smallest id is 1, but
the sort readies node 2 (smaller priority) and emits [0, 2, 1], not
[0, 1, 2]. -/
theorem C8_counterexample_priority_not_id :
    topo_sort_stable_usize [[1], [2], [1]] [[], [], []] [0, 10, 5] = .ok [0, 2, 1] ∧
    deadlock_pick [[], [], []] [(5, 2), (10, 1)] = some 2 ∧
    (RRes.ok [0, 2, 1] : RRes (List Nat)) ≠ .ok [0, 1, 2] := by
  refine ⟨by decide, by decide, by decide⟩

/-- C5: for a validated loop component the entry terminator is handled as
follows: an IfElse whose if arm is neither a member nor the chosen exit is
the malformed-entry error; an IfElse (with a legal if arm) whose else arm
equals the chosen exit becomes While{if_block, else_block}; in every other
case (IfElse with a different else arm, or a non-IfElse terminator) the
terminator is left unchanged and only unconditional_loop_entry is set to
the chosen exit — in the two success cases exactly the entry block is
replaced and every other block is untouched. -/
theorem C5_entry_reclassification
    (bbs : List BasicBlock) (scc_nodes : List Nat) (scc_entry scc_exit : Nat)
    (b : BasicBlock) (hb : bbs.get? scc_entry = some b) :
    ((∀ ib eb, b.next = .IfElse ib eb → ib ∉ scc_nodes → ib ≠ scc_exit →
        reclassify_entry bbs scc_nodes scc_entry scc_exit =
          .error "Failed to reconstruct loop, entry node is not in SCC") ∧
     (∀ ib eb, b.next = .IfElse ib eb → (ib ∈ scc_nodes ∨ ib = scc_exit) → eb = scc_exit →
        reclassify_entry bbs scc_nodes scc_entry scc_exit =
          .ok (bbs.set scc_entry { b with next := .While ib eb })) ∧
     (∀ ib eb, b.next = .IfElse ib eb → (ib ∈ scc_nodes ∨ ib = scc_exit) → eb ≠ scc_exit →
        reclassify_entry bbs scc_nodes scc_entry scc_exit =
          .ok (bbs.set scc_entry { b with unconditional_loop_entry := some scc_exit })) ∧
     ((∀ ib eb, b.next ≠ .IfElse ib eb) →
        reclassify_entry bbs scc_nodes scc_entry scc_exit =
          .ok (bbs.set scc_entry { b with unconditional_loop_entry := some scc_exit }))) := by
  refine ⟨?_, ?_, ?_, ?_⟩
  · intro ib eb hnext hmem hne
    simp only [reclassify_entry, hb, hnext]
    rw [if_pos]
    exact ⟨by simpa using hmem, hne⟩
  · intro ib eb hnext hmem heb
    simp only [reclassify_entry, hb, hnext]
    rw [if_neg, if_pos heb]
    rintro ⟨h1, h2⟩
    rcases hmem with h | h
    · exact h1 (by simpa using h)
    · exact h2 h
  · intro ib eb hnext hmem heb
    simp only [reclassify_entry, hb, hnext]
    rw [if_neg, if_neg heb]
    rintro ⟨h1, h2⟩
    rcases hmem with h | h
    · exact h1 (by simpa using h)
    · exact h2 h
  · intro hni
    simp only [reclassify_entry, hb]

/-- C5 witness: on the one-block array whose block 0 ends in IfElse 0 1,
component [0] with entry 0 and exit 1 yields the While conversion. -/
theorem C5_entry_reclassification_witness :
    reclassify_entry [ { idx := 0, offset := 0, next := .IfElse 0 1 } ] [0] 0 1 =
      .ok (List.set [ { idx := 0, offset := 0, next := .IfElse 0 1 } ] 0
        { idx := 0, offset := 0, next := .While 0 1 }) :=
  (C5_entry_reclassification [ { idx := 0, offset := 0, next := .IfElse 0 1 } ] [0] 0 1
      { idx := 0, offset := 0, next := .IfElse 0 1 } rfl).2.1 0 1 rfl
    (Or.inl (by decide)) rfl

/-- C6 counterexample: when every exit candidate has offset 0, the
largest-offset fold never leaves its initial accumulator (0, 0) because the
comparison is strict, so the selected exit is block 0 — not an exit
candidate at all.  On the loop {0,1,2} with exit candidates {3,4}, all
offsets 0, the run records unconditional_loop_entry = some 0 on the entry:
the selected unique exit is 0, although the claim requires the largest-
offset candidate (3 or 4). -/
theorem C6_counterexample_zero_offset_exits :
    choose_exit
      [ { idx := 0, offset := 0, next := .IfElse 1 2 },
        { idx := 1, offset := 0, next := .IfElse 0 3 },
        { idx := 2, offset := 0, next := .IfElse 0 4 },
        { idx := 3, offset := 0, next := .Ret },
        { idx := 4, offset := 0, next := .Ret } ] (.IfElse 1 2) [3, 4] = some 0 ∧
    (0 : Nat) ∉ ([3, 4] : List Nat) ∧
    loop_reconstruction
      [ { idx := 0, offset := 0, next := .IfElse 1 2 },
        { idx := 1, offset := 0, next := .IfElse 0 3 },
        { idx := 2, offset := 0, next := .IfElse 0 4 },
        { idx := 3, offset := 0, next := .Ret },
        { idx := 4, offset := 0, next := .Ret } ] =
    .ok
      [ { idx := 0, offset := 0, next := .IfElse 1 2, unconditional_loop_entry := some 0 },
        { idx := 1, offset := 0, next := .IfElse 6 3 },
        { idx := 2, offset := 0, next := .IfElse 5 4 },
        { idx := 3, offset := 0, next := .Ret },
        { idx := 4, offset := 0, next := .Ret },
        { idx := 5, offset := USIZE_MAX, next := .Continue 0, topo_priority := some 0,
          topo_before := [0], topo_after := [2] },
        { idx := 6, offset := USIZE_MAX, next := .Continue 0, topo_priority := some 0,
          topo_before := [0], topo_after := [1] } ] := by
  refine ⟨by decide, by decide, by decide⟩

/-- The largest-offset fold tracks a running maximum: starting from any
accumulator it yields one at least as large that bounds every candidate
offset, and either nothing displaced the start or some candidate attains
the final maximum and contributed its idx field. -/
theorem exit_offset_fold_invariant (bbs : List BasicBlock) :
    ∀ (l : List Nat) (mo cur : Nat),
      (∀ i, i ∈ l → ∃ b, bbs.get? i = some b) →
      ∃ mo2 cur2,
        l.foldl (exit_fold_step bbs) (some (mo, cur)) = some (mo2, cur2) ∧
        mo ≤ mo2 ∧
        (∀ i, i ∈ l → ∀ b, bbs.get? i = some b → b.offset ≤ mo2) ∧
        ((mo2 = mo ∧ cur2 = cur) ∨
          ∃ i, i ∈ l ∧ ∃ b, bbs.get? i = some b ∧ b.offset = mo2 ∧ cur2 = b.idx ∧ mo < mo2) := by
  intro l
  induction l with
  | nil =>
    intro mo cur _
    exact ⟨mo, cur, rfl, le_refl _, by simp, Or.inl ⟨rfl, rfl⟩⟩
  | cons i rest ih =>
    intro mo cur hres
    obtain ⟨b, hb⟩ := hres i (by simp)
    have hstep : exit_fold_step bbs (some (mo, cur)) i =
        if b.offset > mo then some (b.offset, b.idx) else some (mo, cur) := by
      simp only [exit_fold_step, hb]
    by_cases hgt : b.offset > mo
    · obtain ⟨mo2, cur2, hfold, hle, hbound, hdisj⟩ :=
        ih b.offset b.idx (fun j hj => hres j (by simp [hj]))
      refine ⟨mo2, cur2, ?_, le_of_lt (lt_of_lt_of_le hgt hle), ?_, ?_⟩
      · rw [List.foldl_cons, hstep, if_pos hgt]; exact hfold
      · intro j hj bj hbj
        rcases List.mem_cons.mp hj with h | h
        · subst h; rw [hbj] at hb; cases hb; exact hle
        · exact hbound j h bj hbj
      · rcases hdisj with ⟨h1, h2⟩ | ⟨j, hj, bj, hbj, hoff, hcur, hlt⟩
        · exact Or.inr ⟨i, by simp, b, hb, h1.symm, h2, h1 ▸ hgt⟩
        · exact Or.inr ⟨j, by simp [hj], bj, hbj, hoff, hcur, lt_trans hgt hlt⟩
    · obtain ⟨mo2, cur2, hfold, hle, hbound, hdisj⟩ :=
        ih mo cur (fun j hj => hres j (by simp [hj]))
      refine ⟨mo2, cur2, ?_, hle, ?_, ?_⟩
      · rw [List.foldl_cons, hstep, if_neg hgt]; exact hfold
      · intro j hj bj hbj
        rcases List.mem_cons.mp hj with h | h
        · subst h; rw [hbj] at hb; cases hb
          exact le_trans (not_lt.mp hgt) hle
        · exact hbound j h bj hbj
      · rcases hdisj with h | ⟨j, hj, bj, hbj, hoff, hcur, hlt⟩
        · exact Or.inl h
        · exact Or.inr ⟨j, by simp [hj], bj, hbj, hoff, hcur, hlt⟩

/-- C6 amended: with more than one exit candidate, loop reconstruction
selects the else arm of an IfElse entry terminator whenever that arm is a
candidate; otherwise the selection comes from the largest-offset fold,
which — provided some candidate has a nonzero offset — selects a candidate
of maximal offset (under the embedding's ascending iteration the first one
attaining it; Rust hash iteration leaves ties unspecified).  When every
candidate's block has offset 0 the fold returns its initial accumulator,
block index 0, which need not be a candidate at all — the counterexample
above. -/
theorem C6_exit_selection_amended
    (bbs : List BasicBlock) (entry_next : Terminator) (exits : List Nat)
    (hlen : 1 < exits.length) (hsz : bbs.length ≤ USIZE_MAX)
    (hres : ∀ i, i ∈ exits → ∃ b, bbs.get? i = some b ∧ b.idx = i) :
    ((∀ ib eb, entry_next = .IfElse ib eb → eb ∈ exits →
        choose_exit bbs entry_next exits = some eb) ∧
     ((∀ ib eb, entry_next = .IfElse ib eb → eb ∉ exits) →
      (∃ i, i ∈ exits ∧ ∃ b, bbs.get? i = some b ∧ 0 < b.offset) →
      ∃ e be, choose_exit bbs entry_next exits = some e ∧ e ∈ exits ∧
        bbs.get? e = some be ∧
        ∀ j bj, j ∈ exits → bbs.get? j = some bj → bj.offset ≤ be.offset)) := by
  constructor
  · intro ib eb hnext hmem
    obtain ⟨b, hb, -⟩ := hres eb hmem
    have hlt : eb < bbs.length := by
      by_contra h
      rw [List.get?_eq_none.mpr (not_lt.mp h)] at hb
      exact Option.noConfusion hb
    have hne : eb ≠ USIZE_MAX := Nat.ne_of_lt (lt_of_lt_of_le hlt hsz)
    have hc : exits.contains eb = true := by
      simpa using hmem
    simp only [choose_exit, hnext, if_pos hlen, hc, if_true, if_neg hne]
  · intro hguard hpos
    have hchoose : choose_exit bbs entry_next exits = exit_offset_fold bbs exits := by
      simp only [choose_exit, if_pos hlen]
      cases entry_next with
      | IfElse ib eb =>
        have hni : eb ∉ exits := hguard ib eb rfl
        dsimp only
        rw [if_neg (show ¬(exits.contains eb = true) by simpa using hni)]
        rw [if_pos rfl]
      | Normal => dsimp only; rw [if_pos rfl]
      | Ret => dsimp only; rw [if_pos rfl]
      | Abort => dsimp only; rw [if_pos rfl]
      | Branch t => dsimp only; rw [if_pos rfl]
      | While a c => dsimp only; rw [if_pos rfl]
      | Break t => dsimp only; rw [if_pos rfl]
      | Continue t => dsimp only; rw [if_pos rfl]
    obtain ⟨mo2, cur2, hfold, -, hbound, hdisj⟩ :=
      exit_offset_fold_invariant bbs exits 0 0
        (fun i hi => (hres i hi).imp (fun b hb => hb.1))
    rcases hdisj with ⟨h1, -⟩ | ⟨i, hi, b, hb, hoff, hcur, -⟩
    · exfalso
      obtain ⟨i, hi, b, hb, hbo⟩ := hpos
      have := hbound i hi b hb
      omega
    · have hidx : b.idx = i := by
        obtain ⟨b2, hb2, hbidx⟩ := hres i hi
        rw [hb] at hb2; cases hb2; exact hbidx
      refine ⟨cur2, b, ?_, ?_, ?_, ?_⟩
      · rw [hchoose]
        simp only [exit_offset_fold, hfold]
        rfl
      · rw [hcur, hidx]; exact hi
      · rw [hcur, hidx]; exact hb
      · intro j bj hj hbj
        calc bj.offset ≤ mo2 := hbound j hj bj hbj
          _ = b.offset := hoff.symm

/-- C6 witness: on a non-IfElse entry with candidates {1, 2} of offsets
{5, 7}, the amended selection yields a maximal-offset candidate. -/
theorem C6_exit_selection_amended_witness :
    ∃ e be, choose_exit c6wBlocks .Ret [1, 2] = some e ∧ e ∈ [1, 2] ∧
      c6wBlocks.get? e = some be ∧
      ∀ j bj, j ∈ ([1, 2] : List Nat) → c6wBlocks.get? j = some bj → bj.offset ≤ be.offset :=
  (C6_exit_selection_amended c6wBlocks .Ret [1, 2] (by decide) (by decide)
      (by
        intro i hi
        fin_cases hi
        · exact ⟨_, rfl, rfl⟩
        · exact ⟨_, rfl, rfl⟩)).2
    (fun ib eb h => nomatch h)
    ⟨2, by decide, _, rfl, by decide⟩

/-- The deadlock scan returns nothing exactly when every remaining vertex
has an unsatisfied constraint predecessor. -/
theorem deadlock_pick_none_iff (credge : List (List Nat)) :
    ∀ remain : List (Nat × Nat),
      deadlock_pick credge remain = none ↔ ∀ p, p ∈ remain → credge.getD p.2 [] ≠ [] := by
  intro remain
  induction remain with
  | nil => simp [deadlock_pick]
  | cons hd rest ih =>
    obtain ⟨p0, v0⟩ := hd
    by_cases h : credge.getD v0 [] = []
    · rw [deadlock_pick, if_pos h]
      constructor
      · intro habs
        exact Option.noConfusion habs
      · intro hall
        exact absurd h (hall (p0, v0) (List.mem_cons_self _ _))
    · rw [deadlock_pick, if_neg h, ih]
      constructor
      · intro hall p hp
        rcases List.mem_cons.mp hp with h1 | h1
        · subst h1; exact h
        · exact hall p h1
      · intro hall p hp
        exact hall p (List.mem_cons_of_mem _ hp)

/-- With the remaining set sorted by (priority, id), the deadlock scan
returns a vertex with no unsatisfied constraint predecessor that is least
in (priority, id) order among all such vertices. -/
theorem deadlock_pick_min (credge : List (List Nat)) :
    ∀ remain : List (Nat × Nat),
      List.Pairwise (fun a b : Nat × Nat => a.1 < b.1 ∨ (a.1 = b.1 ∧ a.2 ≤ b.2)) remain →
      ∀ v, deadlock_pick credge remain = some v →
        ∃ p, (p, v) ∈ remain ∧ credge.getD v [] = [] ∧
          ∀ q w, (q, w) ∈ remain → credge.getD w [] = [] → p < q ∨ (p = q ∧ v ≤ w) := by
  intro remain
  induction remain with
  | nil => intro _ v h; exact Option.noConfusion h
  | cons hd rest ih =>
    obtain ⟨p0, v0⟩ := hd
    intro hsorted v hpick
    by_cases h : credge.getD v0 [] = []
    · rw [deadlock_pick, if_pos h] at hpick
      cases hpick
      refine ⟨p0, List.mem_cons_self _ _, h, ?_⟩
      intro q w hqw helig
      rcases List.mem_cons.mp hqw with h1 | h1
      · cases h1
        exact Or.inr ⟨rfl, le_refl _⟩
      · exact List.pairwise_cons.mp hsorted |>.1 (q, w) h1
    · rw [deadlock_pick, if_neg h] at hpick
      obtain ⟨p, hmem, helig, hmin⟩ := ih (List.pairwise_cons.mp hsorted).2 v hpick
      refine ⟨p, List.mem_cons_of_mem _ hmem, helig, ?_⟩
      intro q w hqw helig2
      rcases List.mem_cons.mp hqw with h1 | h1
      · cases h1
        exact absurd helig2 h
      · exact hmin q w h1 helig2

/-- C8 amended: when the ready queue empties while vertices remain, the
sort force-readies the remaining vertex least in (priority, id) order —
not smallest id, as the counterexample shows — among those with no
unsatisfied constraint predecessor; constraint edges are never
force-broken (the forced vertex has none unsatisfied); and the
constraint-cycle error is raised at such a deadlock exactly when every
remaining vertex has an unsatisfied constraint predecessor. -/
theorem C8_deadlock_breaking_amended
    (edges cedges : List (List Nat)) (priority : List Nat) (fuel : Nat) (st st2 : TopoState)
    (hpop : topo_pop_loop edges cedges priority (edges.length + 2) st = some st2)
    (hrem : st2.remain ≠ []) :
    ((∀ p, p ∈ st2.remain → st2.credge.getD p.2 [] ≠ []) →
       topo_outer edges cedges priority (fuel + 1) st =
         .error "cycle detected in constraint graph") ∧
    (∀ v, deadlock_pick st2.credge st2.remain = some v →
       topo_outer edges cedges priority (fuel + 1) st =
         topo_outer edges cedges priority fuel
           { st2 with queue := pinsert (priority.getD v 0, v) st2.queue,
                      queued := st2.queued.set v true }) ∧
    (deadlock_pick st2.credge st2.remain = none ↔
       ∀ p, p ∈ st2.remain → st2.credge.getD p.2 [] ≠ []) ∧
    (List.Pairwise (fun a b : Nat × Nat => a.1 < b.1 ∨ (a.1 = b.1 ∧ a.2 ≤ b.2)) st2.remain →
     ∀ v, deadlock_pick st2.credge st2.remain = some v →
       ∃ p, (p, v) ∈ st2.remain ∧ st2.credge.getD v [] = [] ∧
         ∀ q w, (q, w) ∈ st2.remain → st2.credge.getD w [] = [] →
           p < q ∨ (p = q ∧ v ≤ w)) := by
  refine ⟨?_, ?_, deadlock_pick_none_iff _ _, deadlock_pick_min _ _⟩
  · intro hall
    have hnone : deadlock_pick st2.credge st2.remain = none :=
      (deadlock_pick_none_iff _ _).mpr hall
    simp only [topo_outer, hpop, if_neg hrem, hnone]
  · intro v hpick
    simp only [topo_outer, hpop, if_neg hrem, hpick]

/-- C8 witness: at the concrete deadlock the sort force-readies vertex 2,
the least (priority, id) eligible vertex. -/
theorem C8_deadlock_breaking_amended_witness :
    topo_outer [[1], [2], [1]] [[], [], []] [0, 10, 5] 2 c8st =
      topo_outer [[1], [2], [1]] [[], [], []] [0, 10, 5] 1
        { c8st with queue := pinsert (5, 2) c8st.queue, queued := c8st.queued.set 2 true } :=
  (C8_deadlock_breaking_amended [[1], [2], [1]] [[], [], []] [0, 10, 5] 1 c8st c8st
      rfl (by decide)).2.1 2 (by decide)

/-- Validation fails exactly when some component that is a real loop has an
entry count different from one (given that no member check panics). -/
theorem validate_sccs_error_iff (bbs : List BasicBlock) (entries : List (Nat × List Nat)) :
    ∀ sccs : List (Nat × List Nat),
      (∀ p, p ∈ sccs → is_real_loop bbs p.2 ≠ none) →
      ((∃ e, validate_sccs bbs entries sccs = .error e) ↔
        ∃ p, p ∈ sccs ∧ is_real_loop bbs p.2 = some true ∧ entries_count entries p.1 ≠ 1) := by
  intro sccs
  induction sccs with
  | nil =>
    intro _
    constructor
    · rintro ⟨e, he⟩
      exact RRes.noConfusion he
    · rintro ⟨p, hp, -⟩
      exact absurd hp (List.not_mem_nil p)
  | cons hd rest ih =>
    intro hnp
    obtain ⟨i, nodes⟩ := hd
    have hnp1 : is_real_loop bbs nodes ≠ none := hnp (i, nodes) (List.mem_cons_self _ _)
    have hnp2 : ∀ p, p ∈ rest → is_real_loop bbs p.2 ≠ none :=
      fun p hp => hnp p (List.mem_cons_of_mem _ hp)
    cases hrl : is_real_loop bbs nodes with
    | none => exact absurd hrl hnp1
    | some b =>
      cases b with
      | false =>
        rw [validate_sccs, hrl]
        rw [ih hnp2]
        constructor
        · rintro ⟨p, hp, h1, h2⟩
          exact ⟨p, List.mem_cons_of_mem _ hp, h1, h2⟩
        · rintro ⟨p, hp, h1, h2⟩
          rcases List.mem_cons.mp hp with h | h
          · subst h
            rw [hrl] at h1
            exact Option.noConfusion h1 (fun h => Bool.noConfusion h)
          · exact ⟨p, h, h1, h2⟩
      | true =>
        rw [validate_sccs, hrl]
        by_cases hc1 : entries_count entries i > 1
        · rw [if_pos hc1]
          constructor
          · intro _
            exact ⟨(i, nodes), List.mem_cons_self _ _, hrl,
              (by omega : entries_count entries i ≠ 1)⟩
          · intro _
            exact ⟨_, rfl⟩
        · rw [if_neg hc1]
          by_cases hc0 : entries_count entries i = 0
          · rw [if_pos hc0]
            constructor
            · intro _
              exact ⟨(i, nodes), List.mem_cons_self _ _, hrl,
                (by omega : entries_count entries i ≠ 1)⟩
            · intro _
              exact ⟨_, rfl⟩
          · rw [if_neg hc0]
            rw [ih hnp2]
            constructor
            · rintro ⟨p, hp, h1, h2⟩
              exact ⟨p, List.mem_cons_of_mem _ hp, h1, h2⟩
            · rintro ⟨p, hp, h1, h2⟩
              rcases List.mem_cons.mp hp with h | h
              · subst h
                exact absurd ((by omega : entries_count entries i = 1) :
                  entries_count entries (i, nodes).1 = 1) h2
              · exact ⟨p, h, h1, h2⟩

theorem validate_sccs_multi (bbs : List BasicBlock) (entries : List (Nat × List Nat)) :
    ∀ sccs : List (Nat × List Nat),
      validate_sccs bbs entries sccs = .error "Found SCC with multiple entries" →
      ∃ p, p ∈ sccs ∧ is_real_loop bbs p.2 = some true ∧ 1 < entries_count entries p.1 := by
  intro sccs
  induction sccs with
  | nil => intro h; exact RRes.noConfusion h
  | cons hd rest ih =>
    obtain ⟨i, nodes⟩ := hd
    intro h
    rw [validate_sccs] at h
    cases hrl : is_real_loop bbs nodes with
    | none => rw [hrl] at h; exact RRes.noConfusion h
    | some b =>
      cases b with
      | false =>
        rw [hrl] at h
        obtain ⟨p, hp, h1, h2⟩ := ih h
        exact ⟨p, List.mem_cons_of_mem _ hp, h1, h2⟩
      | true =>
        rw [hrl] at h
        by_cases hc1 : entries_count entries i > 1
        · exact ⟨(i, nodes), List.mem_cons_self _ _, hrl, hc1⟩
        · rw [if_neg hc1] at h
          by_cases hc0 : entries_count entries i = 0
          · rw [if_pos hc0] at h
            exact absurd (RRes.error.inj h) (by decide)
          · rw [if_neg hc0] at h
            obtain ⟨p, hp, h1, h2⟩ := ih h
            exact ⟨p, List.mem_cons_of_mem _ hp, h1, h2⟩

theorem validate_sccs_dead (bbs : List BasicBlock) (entries : List (Nat × List Nat)) :
    ∀ sccs : List (Nat × List Nat),
      validate_sccs bbs entries sccs = .error "Found non-entry SCC without entry (dead block)" →
      ∃ p, p ∈ sccs ∧ is_real_loop bbs p.2 = some true ∧ entries_count entries p.1 = 0 := by
  intro sccs
  induction sccs with
  | nil => intro h; exact RRes.noConfusion h
  | cons hd rest ih =>
    obtain ⟨i, nodes⟩ := hd
    intro h
    rw [validate_sccs] at h
    cases hrl : is_real_loop bbs nodes with
    | none => rw [hrl] at h; exact RRes.noConfusion h
    | some b =>
      cases b with
      | false =>
        rw [hrl] at h
        obtain ⟨p, hp, h1, h2⟩ := ih h
        exact ⟨p, List.mem_cons_of_mem _ hp, h1, h2⟩
      | true =>
        rw [hrl] at h
        by_cases hc1 : entries_count entries i > 1
        · rw [if_pos hc1] at h
          exact absurd (RRes.error.inj h) (by decide)
        · rw [if_neg hc1] at h
          by_cases hc0 : entries_count entries i = 0
          · exact ⟨(i, nodes), List.mem_cons_self _ _, hrl, hc0⟩
          · rw [if_neg hc0] at h
            obtain ⟨p, hp, h1, h2⟩ := ih h
            exact ⟨p, List.mem_cons_of_mem _ hp, h1, h2⟩

theorem loop_reconstruction_error_prop
    (fuel : Nat) (bbs : List BasicBlock) (ol : Nat) (view : List Nat) (start : Nat)
    (g : Graph) (entries : List (Nat × List Nat)) (e : String)
    (hg : build_graph bbs view start = some g)
    (hne : g.nodes.length ≠ 0)
    (hseed : seed_root_entries bbs view (TarjanScc.new g) start
        (super_graph_scan bbs view (TarjanScc.new g)).entries = .ok entries)
    (hval : validate_sccs bbs entries (TarjanScc.new g).sccs.enum = .error e) :
    loop_reconstruction_recursive (fuel + 1) bbs ol view start = .error e := by
  simp only [loop_reconstruction_recursive, hg, if_neg hne, hseed, hval]

theorem validate_sccs_error_msgs (bbs : List BasicBlock) (entries : List (Nat × List Nat)) :
    ∀ sccs : List (Nat × List Nat), ∀ e,
      validate_sccs bbs entries sccs = .error e →
      e = "Found SCC with multiple entries" ∨
      e = "Found non-entry SCC without entry (dead block)" := by
  intro sccs
  induction sccs with
  | nil => intro e h; exact RRes.noConfusion h
  | cons hd rest ih =>
    obtain ⟨i, nodes⟩ := hd
    intro e h
    rw [validate_sccs] at h
    cases hrl : is_real_loop bbs nodes with
    | none => rw [hrl] at h; exact RRes.noConfusion h
    | some b =>
      cases b with
      | false => rw [hrl] at h; exact ih e h
      | true =>
        rw [hrl] at h
        by_cases hc1 : entries_count entries i > 1
        · rw [if_pos hc1] at h
          exact Or.inl (RRes.error.inj h).symm
        · rw [if_neg hc1] at h
          by_cases hc0 : entries_count entries i = 0
          · rw [if_pos hc0] at h
            exact Or.inr (RRes.error.inj h).symm
          · rw [if_neg hc0] at h
            exact ih e h

/-- C4: for every invocation of the recursive loop reconstruction whose
preamble (graph build, non-empty check, root seeding) succeeds, a
validation error is returned as the invocation's result before any block
is rewritten or appended; validation fails exactly when some real-loop
component (more than one member, or one member with a self-edge) has an
entry count different from one; the multiple-entries message implies an
offender with more than one entry and the dead-block message an offender
with zero entries; and when only one offender kind exists the
corresponding error is the invocation's result. -/
theorem C4_real_loop_single_entry_validation
    (fuel : Nat) (bbs : List BasicBlock) (ol : Nat) (view : List Nat) (start : Nat)
    (g : Graph) (entries : List (Nat × List Nat))
    (hg : build_graph bbs view start = some g)
    (hne : g.nodes.length ≠ 0)
    (hseed : seed_root_entries bbs view (TarjanScc.new g) start
        (super_graph_scan bbs view (TarjanScc.new g)).entries = .ok entries) :
    ((∀ e, validate_sccs bbs entries (TarjanScc.new g).sccs.enum = .error e →
        loop_reconstruction_recursive (fuel + 1) bbs ol view start = .error e) ∧
     ((∀ p, p ∈ (TarjanScc.new g).sccs.enum → is_real_loop bbs p.2 ≠ none) →
      ((∃ e, validate_sccs bbs entries (TarjanScc.new g).sccs.enum = .error e) ↔
        ∃ p, p ∈ (TarjanScc.new g).sccs.enum ∧ is_real_loop bbs p.2 = some true ∧
          entries_count entries p.1 ≠ 1)) ∧
     (validate_sccs bbs entries (TarjanScc.new g).sccs.enum =
        .error "Found SCC with multiple entries" →
      ∃ p, p ∈ (TarjanScc.new g).sccs.enum ∧ is_real_loop bbs p.2 = some true ∧
        1 < entries_count entries p.1) ∧
     (validate_sccs bbs entries (TarjanScc.new g).sccs.enum =
        .error "Found non-entry SCC without entry (dead block)" →
      ∃ p, p ∈ (TarjanScc.new g).sccs.enum ∧ is_real_loop bbs p.2 = some true ∧
        entries_count entries p.1 = 0) ∧
     ((∀ p, p ∈ (TarjanScc.new g).sccs.enum → is_real_loop bbs p.2 ≠ none) →
      (∃ p, p ∈ (TarjanScc.new g).sccs.enum ∧ is_real_loop bbs p.2 = some true ∧
        1 < entries_count entries p.1) →
      (∀ p, p ∈ (TarjanScc.new g).sccs.enum → is_real_loop bbs p.2 = some true →
        entries_count entries p.1 ≠ 0) →
      loop_reconstruction_recursive (fuel + 1) bbs ol view start =
        .error "Found SCC with multiple entries") ∧
     ((∀ p, p ∈ (TarjanScc.new g).sccs.enum → is_real_loop bbs p.2 ≠ none) →
      (∃ p, p ∈ (TarjanScc.new g).sccs.enum ∧ is_real_loop bbs p.2 = some true ∧
        entries_count entries p.1 = 0) →
      (∀ p, p ∈ (TarjanScc.new g).sccs.enum → is_real_loop bbs p.2 = some true →
        ¬ 1 < entries_count entries p.1) →
      loop_reconstruction_recursive (fuel + 1) bbs ol view start =
        .error "Found non-entry SCC without entry (dead block)")) := by
  have hprop : ∀ e, validate_sccs bbs entries (TarjanScc.new g).sccs.enum = .error e →
      loop_reconstruction_recursive (fuel + 1) bbs ol view start = .error e := by
    intro e hval
    simp only [loop_reconstruction_recursive, hg, if_neg hne, hseed, hval]
  refine ⟨hprop, validate_sccs_error_iff _ _ _, validate_sccs_multi _ _ _,
    validate_sccs_dead _ _ _, ?_, ?_⟩
  · intro hnp h1 h0
    obtain ⟨p, hp, hreal, hgt⟩ := h1
    obtain ⟨e, he⟩ := (validate_sccs_error_iff bbs entries _ hnp).mpr
      ⟨p, hp, hreal, by omega⟩
    rcases validate_sccs_error_msgs bbs entries _ e he with rfl | rfl
    · exact hprop _ he
    · obtain ⟨q, hq, hqreal, hq0⟩ := validate_sccs_dead bbs entries _ he
      exact absurd hq0 (h0 q hq hqreal)
  · intro hnp h1 h0
    obtain ⟨p, hp, hreal, h0p⟩ := h1
    obtain ⟨e, he⟩ := (validate_sccs_error_iff bbs entries _ hnp).mpr
      ⟨p, hp, hreal, by omega⟩
    rcases validate_sccs_error_msgs bbs entries _ e he with rfl | rfl
    · obtain ⟨q, hq, hqreal, hqgt⟩ := validate_sccs_multi bbs entries _ he
      exact absurd hqgt (h0 q hq hqreal)
    · exact hprop _ he

/-- C4 witness: the multi-entry component {1, 2} makes the invocation fail
with the multiple-entries error. -/
theorem C4_real_loop_single_entry_validation_witness :
    loop_reconstruction_recursive 3 c4bbs 3 (List.range 3) 0 =
      .error "Found SCC with multiple entries" :=
  (C4_real_loop_single_entry_validation 2 c4bbs 3 (List.range 3) 0 c4g c4entries
      rfl (by decide) rfl).1 "Found SCC with multiple entries" (by decide)

/-- Validation accepts when every component is trivial (a singleton
without a self-edge). -/
theorem validate_sccs_skip_all (bbs : List BasicBlock) (entries : List (Nat × List Nat)) :
    ∀ sccs : List (Nat × List Nat),
      (∀ p, p ∈ sccs → is_real_loop bbs p.2 = some false) →
      validate_sccs bbs entries sccs = .ok () := by
  intro sccs
  induction sccs with
  | nil => intro _; rfl
  | cons hd rest ih =>
    obtain ⟨i, nodes⟩ := hd
    intro hall
    rw [validate_sccs, hall (i, nodes) (List.mem_cons_self _ _)]
    exact ih (fun p hp => hall p (List.mem_cons_of_mem _ hp))

/-- The reconstruction loop is the identity when every component is
trivial: nothing is rewritten, appended or recursed into. -/
theorem process_sccs_skip_all
    (recur : List BasicBlock → List Nat → Nat → RRes (List BasicBlock))
    (bbs : List BasicBlock) (entries exits : List (Nat × List Nat)) :
    ∀ sccs : List (Nat × List Nat),
      (∀ p, p ∈ sccs → is_real_loop bbs p.2 = some false) →
      process_sccs recur sccs bbs entries exits = .ok bbs := by
  intro sccs
  induction sccs with
  | nil => intro _; rfl
  | cons hd rest ih =>
    obtain ⟨i, nodes⟩ := hd
    intro hall
    rw [process_sccs, hall (i, nodes) (List.mem_cons_self _ _)]
    exact ih (fun p hp => hall p (List.mem_cons_of_mem _ hp))

/-- C9 amended: on a nonempty block array whose view graph has only
trivial components — every component is a singleton without a self-edge —
loop reconstruction returns Ok with the array unchanged: no terminator is
rewritten, no field is changed and no block is appended.  (On the empty
array the code panics instead of returning Ok, the counterexample
below.) -/
theorem C9_structured_noop
    (bbs : List BasicBlock) (g : Graph) (entries : List (Nat × List Nat))
    (hne : bbs ≠ [])
    (hg : build_graph bbs (List.range bbs.length) 0 = some g)
    (hseed : g.nodes.length ≠ 0 →
      seed_root_entries bbs (List.range bbs.length) (TarjanScc.new g) 0
        (super_graph_scan bbs (List.range bbs.length) (TarjanScc.new g)).entries = .ok entries)
    (htriv : ∀ nodes, nodes ∈ (TarjanScc.new g).sccs → is_real_loop bbs nodes = some false) :
    loop_reconstruction bbs = .ok bbs := by
  have henum : ∀ p, p ∈ (TarjanScc.new g).sccs.enum → is_real_loop bbs p.2 = some false := by
    intro p hp
    exact htriv p.2 (List.get?_mem (List.mem_enum_iff_get?.mp hp))
  show loop_reconstruction_recursive (bbs.length + 1 + 1) bbs bbs.length
      (List.range bbs.length) 0 = .ok bbs
  by_cases hz : g.nodes.length = 0
  · simp only [loop_reconstruction_recursive, hg, if_pos hz]
  · simp only [loop_reconstruction_recursive, hg, if_neg hz, hseed hz,
      validate_sccs_skip_all bbs entries _ henum,
      process_sccs_skip_all _ bbs entries _ _ henum]

/-- C9 counterexample: on the empty block array — vacuously fully
structured — loop reconstruction panics in the reachability scan instead
of returning Ok: the claim fails for the empty array. -/
theorem C9_counterexample_empty_array :
    loop_reconstruction [] = .panicked "index out of bounds" := by decide

/-- C9 witness: the loop-free three-block array is returned unchanged. -/
theorem C9_structured_noop_witness : loop_reconstruction c9bbs = .ok c9bbs :=
  C9_structured_noop c9bbs c9g c9entries (by decide) rfl (fun _ => rfl)
    (by
      intro nodes hn
      fin_cases hn <;> rfl)

theorem mem_sinsert (a x : Nat) : ∀ l : List Nat, a ∈ sinsert x l ↔ a = x ∨ a ∈ l := by
  intro l
  induction l with
  | nil => simp [sinsert]
  | cons y ys ih =>
    rw [sinsert]
    by_cases h1 : x < y
    · rw [if_pos h1]
      simp [List.mem_cons]
    · rw [if_neg h1]
      by_cases h2 : x = y
      · rw [if_pos h2]
        subst h2
        simp [List.mem_cons]
      · rw [if_neg h2]
        simp only [List.mem_cons, ih]
        tauto

theorem mem_sfromList (a : Nat) : ∀ l acc : List Nat,
    a ∈ l.foldl (fun s x => sinsert x s) acc ↔ a ∈ acc ∨ a ∈ l := by
  intro l
  induction l with
  | nil => simp
  | cons y ys ih =>
    intro acc
    rw [List.foldl_cons, ih]
    simp only [mem_sinsert, List.mem_cons]
    tauto

theorem mem_sfromList' (a : Nat) (l : List Nat) : a ∈ sfromList l ↔ a ∈ l := by
  rw [sfromList, mem_sfromList]
  simp

theorem mem_pinsert (a x : Nat × Nat) : ∀ l : List (Nat × Nat),
    a ∈ pinsert x l ↔ a = x ∨ a ∈ l := by
  intro l
  induction l with
  | nil => simp [pinsert]
  | cons y ys ih =>
    rw [pinsert]
    by_cases h1 : x.1 < y.1 ∨ (x.1 = y.1 ∧ x.2 < y.2)
    · rw [if_pos h1]
      simp [List.mem_cons]
    · rw [if_neg h1]
      by_cases h2 : x = y
      · rw [if_pos h2]
        subst h2
        simp [List.mem_cons]
      · rw [if_neg h2]
        simp only [List.mem_cons, ih]
        tauto

theorem mem_premove (a x : Nat × Nat) : ∀ l : List (Nat × Nat),
    a ∈ l → a ≠ x → a ∈ premove x l := by
  intro l
  induction l with
  | nil => intro h _; exact absurd h (List.not_mem_nil a)
  | cons y ys ih =>
    intro hmem hne
    rw [premove]
    by_cases h : y = x
    · subst h
      rcases List.mem_cons.mp hmem with h1 | h1
      · exact absurd h1 hne
      · rw [if_pos rfl]; exact h1
    · rw [if_neg h]
      rcases List.mem_cons.mp hmem with h1 | h1
      · exact h1 ▸ List.mem_cons_self _ _
      · exact List.mem_cons_of_mem _ (ih h1 hne)

theorem getD_set {α : Type} (a d : α) : ∀ (l : List α) (i x : Nat),
    (l.set i a).getD x d = if x = i ∧ i < l.length then a else l.getD x d := by
  intro l
  induction l with
  | nil => simp
  | cons y ys ih =>
    intro i x
    cases i with
    | zero =>
      cases x with
      | zero => simp [List.set]
      | succ x2 => simp [List.set, List.getD]
    | succ i2 =>
      cases x with
      | zero => simp [List.set, List.getD]
      | succ x2 =>
        simp only [List.set_cons_succ, List.getD_cons_succ, List.length_cons, ih]
        by_cases h : x2 = i2 ∧ i2 < ys.length
        · rw [if_pos h, if_pos (by omega)]
        · rw [if_neg h, if_neg (by omega)]

theorem reach_fold_none : ∀ es : List Nat, es.foldl reach_step none = none := by
  intro es
  induction es with
  | nil => rfl
  | cons x xs ih => rw [List.foldl_cons]; exact ih

theorem reach_fold_mono :
    ∀ (es : List Nat) (r : List Nat) (vis : List Bool) (sv : List Nat × List Bool),
      es.foldl reach_step (some (r, vis)) = some sv →
      (∀ i, vis.getD i false = true → sv.2.getD i false = true) ∧
      sv.2.length = vis.length := by
  intro es
  induction es with
  | nil =>
    intro r vis sv h
    cases h
    exact ⟨fun i hi => hi, rfl⟩
  | cons x xs ih =>
    intro r vis sv h
    rw [List.foldl_cons] at h
    cases hg : vis.get? x with
    | none =>
      rw [show reach_step (some (r, vis)) x = none by rw [reach_step]; rw [hg]] at h
      rw [reach_fold_none] at h
      exact Option.noConfusion h
    | some b =>
      cases b with
      | true =>
        rw [show reach_step (some (r, vis)) x = some (r, vis) by rw [reach_step]; rw [hg]; rfl] at h
        exact ih r vis sv h
      | false =>
        rw [show reach_step (some (r, vis)) x = some (x :: r, vis.set x true) by
          rw [reach_step]; rw [hg]; rfl] at h
        obtain ⟨hmono, hlen⟩ := ih _ _ _ h
        refine ⟨?_, by rw [hlen, List.length_set]⟩
        intro i hi
        apply hmono
        rw [getD_set]
        by_cases hc : i = x ∧ x < vis.length
        · rw [if_pos hc]
        · rw [if_neg hc]; exact hi

theorem reach_loop_mono (edges : List (List Nat)) :
    ∀ (fuel : Nat) (stack : List Nat) (visited vis2 : List Bool),
      reach_loop edges fuel stack visited = some vis2 →
      (∀ i, visited.getD i false = true → vis2.getD i false = true) ∧
      vis2.length = visited.length := by
  intro fuel
  induction fuel with
  | zero => intro stack vis vis2 h; exact Option.noConfusion h
  | succ fuel ih =>
    intro stack vis vis2 h
    cases stack with
    | nil =>
      have h2 : some vis = some vis2 := h
      cases h2
      exact ⟨fun i hi => hi, rfl⟩
    | cons idx rest =>
      have h2 : (match edges.get? idx with
          | none => none
          | some es =>
            match es.foldl reach_step (some (rest, vis)) with
            | none => none
            | some sv => reach_loop edges fuel sv.1 sv.2) = some vis2 := h
      cases hge : edges.get? idx with
      | none =>
        rw [hge] at h2
        exact Option.noConfusion (show (none : Option (List Bool)) = some vis2 from h2)
      | some es =>
        rw [hge] at h2
        have h3 : (match es.foldl reach_step (some (rest, vis)) with
            | none => none
            | some sv => reach_loop edges fuel sv.1 sv.2) = some vis2 := h2
        cases hf : es.foldl reach_step (some (rest, vis)) with
        | none =>
          rw [hf] at h3
          exact Option.noConfusion (show (none : Option (List Bool)) = some vis2 from h3)
        | some sv =>
          rw [hf] at h3
          obtain ⟨hm1, hl1⟩ := reach_fold_mono es rest vis sv hf
          obtain ⟨hm2, hl2⟩ := ih sv.1 sv.2 vis2 h3
          exact ⟨fun i hi => hm2 i (hm1 i hi), by rw [hl2, hl1]⟩

theorem zero_mem_reachable (edges : List (List Nat)) (n : Nat) (rverts : List Nat)
    (hn : 0 < n) (h : reachable_vertices edges n = some rverts) :
    0 ∈ rverts ∧ ∀ v, v ∈ rverts → v < n := by
  rw [reachable_vertices, if_neg (by omega)] at h
  cases hr : reach_loop edges (n + 2) [0] ((List.replicate n false).set 0 true) with
  | none => rw [hr] at h; exact Option.noConfusion h
  | some visited =>
    rw [hr] at h
    have h2 : some ((visited.enum.filter (fun p => p.2)).map (fun p => p.1)) = some rverts := h
    cases h2
    obtain ⟨hmono, hlen⟩ := reach_loop_mono edges (n + 2) [0] _ visited hr
    have hlen2 : visited.length = n := by
      rw [hlen, List.length_set, List.length_replicate]
    constructor
    · have h0 : visited.getD 0 false = true := by
        apply hmono
        rw [getD_set]
        rw [if_pos ⟨rfl, by rw [List.length_replicate]; omega⟩]
      have hg2 : (visited.get? 0).getD false = true := h0
      have hg : visited.get? 0 = some true := by
        cases hgv : visited.get? 0 with
        | none =>
          rw [hgv] at hg2
          exact Bool.noConfusion (show false = true from hg2)
        | some b =>
          rw [hgv] at hg2
          rw [show b = true from hg2]
      exact List.mem_map.mpr ⟨(0, true), List.mem_filter.mpr
        ⟨List.mem_enum_iff_get?.mpr hg, rfl⟩, rfl⟩
    · intro v hv
      obtain ⟨p, hpf, hpv⟩ := List.mem_map.mp hv
      have hpe := (List.mem_filter.mp hpf).1
      obtain ⟨hlt, -⟩ := List.get?_eq_some.mp (List.mem_enum_iff_get?.mp hpe)
      rw [hlen2] at hlt
      rw [hpv] at hlt
      exact hlt

theorem mem_remain_fold (priority : List Nat) :
    ∀ (l : List Nat) (acc : List (Nat × Nat)) (p : Nat × Nat),
      p ∈ l.foldl (fun r v => pinsert (priority.getD v 0, v) r) acc ↔
        p ∈ acc ∨ ∃ v, v ∈ l ∧ p = (priority.getD v 0, v) := by
  intro l
  induction l with
  | nil => simp
  | cons x xs ih =>
    intro acc p
    rw [List.foldl_cons, ih]
    simp only [mem_pinsert, List.mem_cons]
    constructor
    · rintro (⟨h | h⟩ | ⟨v, hv, hp⟩)
      · exact Or.inr ⟨x, Or.inl rfl, h⟩
      · exact Or.inl h
      · exact Or.inr ⟨v, Or.inr hv, hp⟩
    · rintro (h | ⟨v, hv | hv, hp⟩)
      · exact Or.inl (Or.inr h)
      · exact Or.inl (Or.inl (hv ▸ hp))
      · exact Or.inr ⟨v, hv, hp⟩

theorem topo_check_result (priority : List Nat) (st : TopoState) (v : Nat) :
    (topo_check priority st v).result = st.result := by
  rw [topo_check]
  by_cases h : st.queued.getD v false = false ∧ st.redge.getD v [] = [] ∧ st.credge.getD v [] = []
  · rw [if_pos h]
  · rw [if_neg h]

theorem topo_check_remain (priority : List Nat) (st : TopoState) (v : Nat) :
    (topo_check priority st v).remain = st.remain := by
  rw [topo_check]
  by_cases h : st.queued.getD v false = false ∧ st.redge.getD v [] = [] ∧ st.credge.getD v [] = []
  · rw [if_pos h]
  · rw [if_neg h]

theorem relax_fold_redge_result (priority : List Nat) (v : Nat) :
    ∀ (l : List Nat) (st : TopoState),
      (l.foldl (relax_redge_step priority v) st).result = st.result ∧
      (l.foldl (relax_redge_step priority v) st).remain = st.remain := by
  intro l
  induction l with
  | nil => intro st; exact ⟨rfl, rfl⟩
  | cons x xs ih =>
    intro st
    rw [List.foldl_cons]
    obtain ⟨h1, h2⟩ := ih (relax_redge_step priority v st x)
    rw [h1, h2]
    rw [relax_redge_step]
    exact ⟨topo_check_result _ _ _, topo_check_remain _ _ _⟩

theorem relax_fold_credge_result (priority : List Nat) (v : Nat) :
    ∀ (l : List Nat) (st : TopoState),
      (l.foldl (relax_credge_step priority v) st).result = st.result ∧
      (l.foldl (relax_credge_step priority v) st).remain = st.remain := by
  intro l
  induction l with
  | nil => intro st; exact ⟨rfl, rfl⟩
  | cons x xs ih =>
    intro st
    rw [List.foldl_cons]
    obtain ⟨h1, h2⟩ := ih (relax_credge_step priority v st x)
    rw [h1, h2]
    rw [relax_credge_step]
    exact ⟨topo_check_result _ _ _, topo_check_remain _ _ _⟩

theorem pop_loop_result_mono (e c : List (List Nat)) (pr : List Nat) :
    ∀ (fuel : Nat) (st st2 : TopoState),
      topo_pop_loop e c pr fuel st = some st2 →
      (∀ x, x ∈ st.result → x ∈ st2.result) ∧
      (∀ p, p ∈ st.remain → p ∈ st2.remain ∨ p.2 ∈ st2.result) := by
  intro fuel
  induction fuel with
  | zero => intro st st2 h; exact Option.noConfusion h
  | succ fuel ih =>
    intro st st2 h
    obtain ⟨q, qd, rm, rd, cd, res⟩ := st
    cases q with
    | nil =>
      have h2 : some (⟨[], qd, rm, rd, cd, res⟩ : TopoState) = some st2 := h
      cases h2
      exact ⟨fun x hx => hx, fun p hp => Or.inl hp⟩
    | cons hd qrest =>
      obtain ⟨p0, v⟩ := hd
      have h2 : topo_pop_loop e c pr fuel
          ((c.getD v []).foldl (relax_credge_step pr v)
            ((e.getD v []).foldl (relax_redge_step pr v)
              { queue := premove (pr.getD v 0, v) ((p0, v) :: qrest),
                queued := qd,
                remain := premove (pr.getD v 0, v) rm,
                redge := rd, credge := cd,
                result := res ++ [v] })) = some st2 := h
      obtain ⟨ihres, ihrem⟩ := ih _ _ h2
      have hc := relax_fold_credge_result pr v (c.getD v [])
        ((e.getD v []).foldl (relax_redge_step pr v)
          { queue := premove (pr.getD v 0, v) ((p0, v) :: qrest),
            queued := qd,
            remain := premove (pr.getD v 0, v) rm,
            redge := rd, credge := cd,
            result := res ++ [v] })
      have hr := relax_fold_redge_result pr v (e.getD v [])
        { queue := premove (pr.getD v 0, v) ((p0, v) :: qrest),
          queued := qd,
          remain := premove (pr.getD v 0, v) rm,
          redge := rd, credge := cd,
          result := res ++ [v] }
      constructor
      · intro x hx
        apply ihres
        rw [hc.1, hr.1]
        exact List.mem_append_left _ hx
      · intro p hp
        by_cases hpe : p = (pr.getD v 0, v)
        · right
        
          have hv : v ∈ st2.result := by
            apply ihres
            rw [hc.1, hr.1]
            exact List.mem_append_right _ (List.mem_singleton.mpr rfl)
          rw [hpe]
          exact hv
        · have hmem : p ∈ premove (pr.getD v 0, v) rm := mem_premove p _ rm hp hpe
          apply ihrem
          rw [hc.2, hr.2]
          exact hmem

theorem topo_outer_mono (e c : List (List Nat)) (pr : List Nat) :
    ∀ (fuel : Nat) (st : TopoState) (res : List Nat),
      topo_outer e c pr fuel st = .ok res →
      (∀ x, x ∈ st.result → x ∈ res) ∧ (∀ p, p ∈ st.remain → p.2 ∈ res) := by
  intro fuel
  induction fuel with
  | zero => intro st res h; exact RRes.noConfusion h
  | succ fuel ih =>
    intro st res h
    have h2 : (match topo_pop_loop e c pr (e.length + 2) st with
        | none => (RRes.panicked "fuel" : RRes (List Nat))
        | some st =>
          if st.remain = [] then .ok st.result
          else
            match deadlock_pick st.credge st.remain with
            | some v =>
              topo_outer e c pr fuel
                { st with queue := pinsert (pr.getD v 0, v) st.queue,
                          queued := st.queued.set v true }
            | none => .error "cycle detected in constraint graph") = .ok res := h
    cases hpop : topo_pop_loop e c pr (e.length + 2) st with
    | none =>
      rw [hpop] at h2
      exact RRes.noConfusion (show (RRes.panicked "fuel" : RRes (List Nat)) = .ok res from h2)
    | some st2 =>
      rw [hpop] at h2
      have h3 : (if st2.remain = [] then (RRes.ok st2.result : RRes (List Nat))
          else
            match deadlock_pick st2.credge st2.remain with
            | some v =>
              topo_outer e c pr fuel
                { st2 with queue := pinsert (pr.getD v 0, v) st2.queue,
                           queued := st2.queued.set v true }
            | none => .error "cycle detected in constraint graph") = .ok res := h2
      obtain ⟨mres, mrem⟩ := pop_loop_result_mono e c pr _ _ _ hpop
      by_cases hrm : st2.remain = []
      · rw [if_pos hrm] at h3
        have hres : st2.result = res := RRes.ok.inj h3
        constructor
        · intro x hx
          exact hres ▸ mres x hx
        · intro p hp
          rcases mrem p hp with hin | hin
          · rw [hrm] at hin
            exact absurd hin (List.not_mem_nil p)
          · exact hres ▸ hin
      · rw [if_neg hrm] at h3
        cases hpick : deadlock_pick st2.credge st2.remain with
        | none =>
          rw [hpick] at h3
          exact RRes.noConfusion
            (show (RRes.error "cycle detected in constraint graph" : RRes (List Nat)) = .ok res from h3)
        | some v =>
          rw [hpick] at h3
          obtain ⟨ih1, ih2⟩ := ih _ _ h3
          constructor
          · intro x hx
            exact ih1 x (mres x hx)
          · intro p hp
            rcases mrem p hp with hin | hin
            · exact ih2 p hin
            · exact ih1 _ hin

theorem stable_ok_zero_mem (edges cedges : List (List Nat)) (pr : List Nat) (order : List Nat)
    (hn : 0 < edges.length)
    (h : topo_sort_stable_usize edges cedges pr = .ok order) :
    0 ∈ order := by
  have h2 : (match reachable_vertices (normalize_edges edges) edges.length with
      | none => (RRes.panicked "index out of bounds" : RRes (List Nat))
      | some rverts =>
        match build_redge (normalize_edges edges) edges.length,
            build_redge (normalize_edges cedges) edges.length with
        | some redge, some credge =>
          topo_outer (normalize_edges edges) (normalize_edges cedges) pr (edges.length + 2)
            { (rverts.foldl
                (fun (st : TopoState) v =>
                  if st.redge.getD v [] = [] then
                    { st with queue := pinsert (pr.getD v 0, v) st.queue,
                              queued := st.queued.set v true }
                  else st)
                { queue := [], queued := List.replicate edges.length false,
                  remain := [], redge := redge, credge := credge, result := [] }) with
              remain := rverts.foldl (fun r v => pinsert (pr.getD v 0, v) r) [] }
        | _, _ => .panicked "index out of bounds") = .ok order := h
  cases hrv : reachable_vertices (normalize_edges edges) edges.length with
  | none =>
    rw [hrv] at h2
    exact RRes.noConfusion
      (show (RRes.panicked "index out of bounds" : RRes (List Nat)) = .ok order from h2)
  | some rverts =>
    rw [hrv] at h2
    cases hbr : build_redge (normalize_edges edges) edges.length with
    | none =>
      rw [hbr] at h2
      exact RRes.noConfusion
        (show (RRes.panicked "index out of bounds" : RRes (List Nat)) = .ok order from h2)
    | some redge =>
      rw [hbr] at h2
      cases hbc : build_redge (normalize_edges cedges) edges.length with
      | none =>
        rw [hbc] at h2
        exact RRes.noConfusion
          (show (RRes.panicked "index out of bounds" : RRes (List Nat)) = .ok order from h2)
      | some credge =>
        rw [hbc] at h2
        have h3 : topo_outer (normalize_edges edges) (normalize_edges cedges) pr
            (edges.length + 2)
            { (rverts.foldl
                (fun (st : TopoState) v =>
                  if st.redge.getD v [] = [] then
                    { st with queue := pinsert (pr.getD v 0, v) st.queue,
                              queued := st.queued.set v true }
                  else st)
                { queue := [], queued := List.replicate edges.length false,
                  remain := [], redge := redge, credge := credge, result := [] }) with
              remain := rverts.foldl (fun r v => pinsert (pr.getD v 0, v) r) [] } = .ok order := h2
        obtain ⟨-, hrem⟩ := topo_outer_mono _ _ _ _ _ _ h3
        obtain ⟨h0mem, -⟩ := zero_mem_reachable (normalize_edges edges) edges.length rverts hn hrv
        exact hrem (pr.getD 0 0, 0)
          ((mem_remain_fold pr rverts [] (pr.getD 0 0, 0)).mpr (Or.inr ⟨0, h0mem, rfl⟩))

theorem getD_replicate {α : Type} (d : α) : ∀ (n x : Nat), (List.replicate n d).getD x d = d := by
  intro n
  induction n with
  | zero => intro x; cases x <;> rfl
  | succ n ih =>
    intro x
    cases x with
    | zero => rfl
    | succ x2 => rw [List.replicate_succ, List.getD_cons_succ]; exact ih x2

theorem rorder_fold_length : ∀ (ps : List (Nat × Nat)) (r0 : List Nat),
    (ps.foldl (fun (r : List Nat) p => r.set p.2 p.1) r0).length = r0.length := by
  intro ps
  induction ps with
  | nil => intro r0; rfl
  | cons p ps ih =>
    intro r0
    rw [List.foldl_cons, ih, List.length_set]

theorem rorder_fold_bound (K : Nat) : ∀ (ps : List (Nat × Nat)) (r0 : List Nat),
    (∀ p, p ∈ ps → p.1 < K) → (∀ x, r0.getD x 0 < K) →
    ∀ x, (ps.foldl (fun (r : List Nat) p => r.set p.2 p.1) r0).getD x 0 < K := by
  intro ps
  induction ps with
  | nil => intro r0 _ hr x; exact hr x
  | cons p ps ih =>
    intro r0 hps hr x
    rw [List.foldl_cons]
    apply ih _ (fun q hq => hps q (List.mem_cons_of_mem _ hq))
    intro z
    rw [getD_set]
    by_cases hc : z = p.2 ∧ p.2 < r0.length
    · rw [if_pos hc]
      exact hps p (List.mem_cons_self _ _)
    · rw [if_neg hc]
      exact hr z

theorem remap_idx_bound (rorder : List Nat) (n K x y : Nat)
    (hb : ∀ z, rorder.getD z 0 < K) (h : remap_idx rorder n x = some y) : y < K := by
  rw [remap_idx] at h
  by_cases hx : x < n
  · rw [if_pos hx] at h
    cases h
    exact hb x
  · rw [if_neg hx] at h
    exact Option.noConfusion h

theorem remap_terminator_bound (rorder : List Nat) (n K : Nat)
    (hb : ∀ z, rorder.getD z 0 < K) :
    ∀ t t2, remap_terminator rorder n t = some t2 → ∀ u, u ∈ t2.next_blocks → u < K := by
  intro t t2 h u hu
  cases t with
  | Normal => cases h; simp [Terminator.next_blocks] at hu
  | Ret => cases h; simp [Terminator.next_blocks] at hu
  | Abort => cases h; simp [Terminator.next_blocks] at hu
  | Branch a =>
    rw [remap_terminator] at h
    cases hri : remap_idx rorder n a with
    | none => rw [hri] at h; exact Option.noConfusion h
    | some y =>
      rw [hri] at h
      cases h
      simp only [Terminator.next_blocks, List.mem_singleton] at hu
      exact hu ▸ remap_idx_bound rorder n K a y hb hri
  | Break a =>
    rw [remap_terminator] at h
    cases hri : remap_idx rorder n a with
    | none => rw [hri] at h; exact Option.noConfusion h
    | some y =>
      rw [hri] at h
      cases h
      simp only [Terminator.next_blocks, List.mem_singleton] at hu
      exact hu ▸ remap_idx_bound rorder n K a y hb hri
  | Continue a =>
    rw [remap_terminator] at h
    cases hri : remap_idx rorder n a with
    | none => rw [hri] at h; exact Option.noConfusion h
    | some y =>
      rw [hri] at h
      cases h
      simp only [Terminator.next_blocks, List.mem_singleton] at hu
      exact hu ▸ remap_idx_bound rorder n K a y hb hri
  | IfElse a b =>
    rw [remap_terminator] at h
    cases hra : remap_idx rorder n a with
    | none => rw [hra] at h; exact Option.noConfusion h
    | some y =>
      cases hrb : remap_idx rorder n b with
      | none => rw [hra, hrb] at h; exact Option.noConfusion h
      | some y2 =>
        rw [hra, hrb] at h
        cases h
        simp only [Terminator.next_blocks, List.mem_cons, List.mem_singleton] at hu
        rcases hu with hu | hu | hu
        · exact hu ▸ remap_idx_bound rorder n K a y hb hra
        · exact hu ▸ remap_idx_bound rorder n K b y2 hb hrb
        · exact absurd hu (List.not_mem_nil u)
  | While a b =>
    rw [remap_terminator] at h
    cases hra : remap_idx rorder n a with
    | none => rw [hra] at h; exact Option.noConfusion h
    | some y =>
      cases hrb : remap_idx rorder n b with
      | none => rw [hra, hrb] at h; exact Option.noConfusion h
      | some y2 =>
        rw [hra, hrb] at h
        cases h
        simp only [Terminator.next_blocks, List.mem_cons, List.mem_singleton] at hu
        rcases hu with hu | hu | hu
        · exact hu ▸ remap_idx_bound rorder n K a y hb hra
        · exact hu ▸ remap_idx_bound rorder n K b y2 hb hrb
        · exact absurd hu (List.not_mem_nil u)

theorem remap_list_bound (rorder : List Nat) (n K : Nat)
    (hb : ∀ z, rorder.getD z 0 < K) :
    ∀ l l2, remap_list rorder n l = some l2 → ∀ u, u ∈ l2 → u < K := by
  intro l
  induction l with
  | nil =>
    intro l2 h u hu
    cases h
    exact absurd hu (List.not_mem_nil u)
  | cons x xs ih =>
    intro l2 h u hu
    rw [remap_list] at h
    cases hri : remap_idx rorder n x with
    | none => rw [hri] at h; exact Option.noConfusion h
    | some y =>
      cases hrl : remap_list rorder n xs with
      | none => rw [hri, hrl] at h; exact Option.noConfusion h
      | some ys =>
        rw [hri, hrl] at h
        cases h
        rcases List.mem_cons.mp hu with hu | hu
        · exact hu ▸ remap_idx_bound rorder n K x y hb hri
        · exact ih ys hrl u hu

theorem remap_set_bound (rorder : List Nat) (n K : Nat)
    (hb : ∀ z, rorder.getD z 0 < K) :
    ∀ l l2, remap_set rorder n l = some l2 → ∀ u, u ∈ l2 → u < K := by
  intro l l2 h u hu
  rw [remap_set] at h
  cases hrl : remap_list rorder n l with
  | none => rw [hrl] at h; exact Option.noConfusion h
  | some ys =>
    rw [hrl] at h
    cases h
    exact remap_list_bound rorder n K hb l ys hrl u ((mem_sfromList' u ys).mp hu)

theorem remap_block_spec (rorder : List Nat) (n K i : Nat) (b b2 : BasicBlock)
    (hb : ∀ z, rorder.getD z 0 < K)
    (h : remap_block rorder n i b = some b2) :
    b2.idx = i ∧ (∀ u, u ∈ b2.next.next_blocks → u < K) ∧
    (∀ u, u ∈ b2.topo_before → u < K) ∧ (∀ u, u ∈ b2.topo_after → u < K) ∧
    (∀ u, b2.unconditional_loop_entry = some u → u < K) := by
  rw [remap_block] at h
  cases hrt : remap_terminator rorder n b.next with
  | none => rw [hrt] at h; exact Option.noConfusion h
  | some t =>
    cases hra : remap_set rorder n b.topo_after with
    | none => rw [hrt, hra] at h; exact Option.noConfusion h
    | some ta =>
      cases hrb : remap_set rorder n b.topo_before with
      | none => rw [hrt, hra, hrb] at h; exact Option.noConfusion h
      | some tb =>
        rw [hrt, hra, hrb] at h
        cases hu : b.unconditional_loop_entry with
        | none =>
          rw [hu] at h
          cases h
          refine ⟨rfl, ?_, ?_, ?_, ?_⟩
          · exact fun u hu2 => remap_terminator_bound rorder n K hb b.next t hrt u hu2
          · exact fun u hu2 => remap_set_bound rorder n K hb b.topo_before tb hrb u hu2
          · exact fun u hu2 => remap_set_bound rorder n K hb b.topo_after ta hra u hu2
          · intro u hu2
            exact Option.noConfusion (show (none : Option Nat) = some u from hu2)
        | some u0 =>
          rw [hu] at h
          have h2 : Option.map
              (fun u2 => ({ idx := i, offset := b.offset, next := t,
                            topo_priority := b.topo_priority, topo_before := tb,
                            topo_after := ta,
                            unconditional_loop_entry := some u2 } : BasicBlock))
              (remap_idx rorder n u0) = some b2 := h
          cases hri : remap_idx rorder n u0 with
          | none =>
            rw [hri] at h2
            exact Option.noConfusion (show (none : Option BasicBlock) = some b2 from h2)
          | some u2 =>
            rw [hri] at h2
            have h3 : some ({ idx := i, offset := b.offset, next := t,
                              topo_priority := b.topo_priority, topo_before := tb,
                              topo_after := ta,
                              unconditional_loop_entry := some u2 } : BasicBlock) = some b2 := h2
            cases h3
            refine ⟨rfl, ?_, ?_, ?_, ?_⟩
            · exact fun u hu2 => remap_terminator_bound rorder n K hb b.next t hrt u hu2
            · exact fun u hu2 => remap_set_bound rorder n K hb b.topo_before tb hrb u hu2
            · exact fun u hu2 => remap_set_bound rorder n K hb b.topo_after ta hra u hu2
            · intro u hu2
              cases hu2
              exact remap_idx_bound rorder n K u0 u2 hb hri

theorem remap_block_idx (rorder : List Nat) (n i : Nat) (b b2 : BasicBlock)
    (h : remap_block rorder n i b = some b2) : b2.idx = i := by
  rw [remap_block] at h
  cases hrt : remap_terminator rorder n b.next with
  | none => rw [hrt] at h; exact Option.noConfusion h
  | some t =>
    cases hra : remap_set rorder n b.topo_after with
    | none => rw [hrt, hra] at h; exact Option.noConfusion h
    | some ta =>
      cases hrb : remap_set rorder n b.topo_before with
      | none => rw [hrt, hra, hrb] at h; exact Option.noConfusion h
      | some tb =>
        rw [hrt, hra, hrb] at h
        cases hu : b.unconditional_loop_entry with
        | none =>
          rw [hu] at h
          cases h
          rfl
        | some u0 =>
          rw [hu] at h
          have h2 : Option.map
              (fun u2 => ({ idx := i, offset := b.offset, next := t,
                            topo_priority := b.topo_priority, topo_before := tb,
                            topo_after := ta,
                            unconditional_loop_entry := some u2 } : BasicBlock))
              (remap_idx rorder n u0) = some b2 := h
          cases hri : remap_idx rorder n u0 with
          | none =>
            rw [hri] at h2
            exact Option.noConfusion (show (none : Option BasicBlock) = some b2 from h2)
          | some u2 =>
            rw [hri] at h2
            have h3 : some ({ idx := i, offset := b.offset, next := t,
                              topo_priority := b.topo_priority, topo_before := tb,
                              topo_after := ta,
                              unconditional_loop_entry := some u2 } : BasicBlock) = some b2 := h2
            cases h3
            rfl

theorem remap_loop_spec (blocks : List BasicBlock) (rorder : List Nat) (n : Nat) :
    ∀ (ps : List (Nat × Nat)) (acc res : List BasicBlock),
      remap_loop blocks rorder n ps acc = .ok res →
      res.length = acc.length + ps.length ∧
      res.map (fun b => b.idx) = acc.map (fun b => b.idx) ++ ps.map (fun p => p.1) ∧
      (∀ b2, b2 ∈ res → b2 ∈ acc ∨ ∃ i oi b, (i, oi) ∈ ps ∧ blocks.get? oi = some b ∧
        remap_block rorder n i b = some b2) := by
  intro ps
  induction ps with
  | nil =>
    intro acc res h
    have h2 : RRes.ok acc = .ok res := h
    cases h2
    exact ⟨by simp, by simp, fun b2 hb2 => Or.inl hb2⟩
  | cons p ps ih =>
    intro acc res h
    obtain ⟨i, oi⟩ := p
    have h2 : (match blocks.get? oi with
        | none => (RRes.panicked "index out of bounds" : RRes (List BasicBlock))
        | some b =>
          match remap_block rorder n i b with
          | none => .panicked "index out of bounds"
          | some b2 => remap_loop blocks rorder n ps (acc ++ [b2])) = .ok res := h
    cases hgb : blocks.get? oi with
    | none =>
      rw [hgb] at h2
      exact RRes.noConfusion
        (show (RRes.panicked "index out of bounds" : RRes (List BasicBlock)) = .ok res from h2)
    | some b =>
      rw [hgb] at h2
      have h3 : (match remap_block rorder n i b with
          | none => (RRes.panicked "index out of bounds" : RRes (List BasicBlock))
          | some b2 => remap_loop blocks rorder n ps (acc ++ [b2])) = .ok res := h2
      cases hrb : remap_block rorder n i b with
      | none =>
        rw [hrb] at h3
        exact RRes.noConfusion
          (show (RRes.panicked "index out of bounds" : RRes (List BasicBlock)) = .ok res from h3)
      | some b2 =>
        rw [hrb] at h3
        obtain ⟨hlen, hmap, hmem⟩ := ih (acc ++ [b2]) res h3
        refine ⟨?_, ?_, ?_⟩
        · rw [hlen]
          simp only [List.length_append, List.length_cons, List.length_nil]
          omega
        · rw [hmap]
          simp only [List.map_append, List.map_cons, List.map_nil, List.append_assoc,
            List.singleton_append, List.cons_append, List.nil_append]
          rw [remap_block_idx rorder n i b b2 hrb]
        · intro b3 hb3
          rcases hmem b3 hb3 with hin | ⟨i2, oi2, b4, hps, hgb2, hrb2⟩
          · rcases List.mem_append.mp hin with hin | hin
            · exact Or.inl hin
            · rw [List.mem_singleton.mp hin]
              exact Or.inr ⟨i, oi, b, List.mem_cons_self _ _, hgb, hrb⟩
          · exact Or.inr ⟨i2, oi2, b4, List.mem_cons_of_mem _ hps, hgb2, hrb2⟩

theorem terminator_edges_length (idx : Nat) :
    ∀ (t : Terminator) (edges edges2 : List (List Nat)),
      terminator_edges idx t edges = .ok edges2 → edges2.length = edges.length := by
  intro t edges edges2 h
  cases t with
  | Normal => exact RRes.noConfusion (show RRes.error "unsupported terminator in block" = .ok edges2 from h)
  | Ret => cases (show RRes.ok edges = .ok edges2 from h); rfl
  | Abort => cases (show RRes.ok edges = .ok edges2 from h); rfl
  | Branch t0 =>
    cases (show RRes.ok (edges.set idx (edges.getD idx [] ++ [t0])) = .ok edges2 from h)
    exact List.length_set ..
  | Break t0 =>
    cases (show RRes.ok (edges.set idx (edges.getD idx [] ++ [t0])) = .ok edges2 from h)
    exact List.length_set ..
  | Continue t0 =>
    cases (show RRes.ok (edges.set idx (edges.getD idx [] ++ [t0])) = .ok edges2 from h)
    exact List.length_set ..
  | IfElse a b =>
    cases (show RRes.ok (edges.set idx (edges.getD idx [] ++ [a, b])) = .ok edges2 from h)
    exact List.length_set ..
  | While a b =>
    have h2 : (match (edges.set idx (edges.getD idx [] ++ [a, b])).get? a with
        | none => (RRes.panicked "index out of bounds" : RRes (List (List Nat)))
        | some l => .ok ((edges.set idx (edges.getD idx [] ++ [a, b])).set a (l ++ [b]))) =
        .ok edges2 := h
    cases hg : (edges.set idx (edges.getD idx [] ++ [a, b])).get? a with
    | none =>
      rw [hg] at h2
      exact RRes.noConfusion
        (show (RRes.panicked "index out of bounds" : RRes (List (List Nat))) = .ok edges2 from h2)
    | some l =>
      rw [hg] at h2
      cases (show RRes.ok ((edges.set idx (edges.getD idx [] ++ [a, b])).set a (l ++ [b])) =
        .ok edges2 from h2)
      rw [List.length_set, List.length_set]

theorem build_topo_edges_length (n : Nat) :
    ∀ (ps : List (Nat × BasicBlock)) (acc : List (List Nat) × List (List Nat))
      (ec : List (List Nat) × List (List Nat)),
      build_topo_edges n ps acc = .ok ec → ec.1.length = acc.1.length := by
  intro ps
  induction ps with
  | nil =>
    intro acc ec h
    cases (show RRes.ok acc = .ok ec from h)
    rfl
  | cons p rest ih =>
    intro acc ec h
    obtain ⟨idx, b⟩ := p
    have h2 : (match terminator_edges idx b.next acc.1 with
        | .panicked m => (RRes.panicked m : RRes (List (List Nat) × List (List Nat)))
        | .error m => .error m
        | .ok edges =>
          build_topo_edges n rest (edges,
            (b.topo_after.filter (fun x => x < n)).foldl
              (fun (c : List (List Nat)) x => c.set x (c.getD x [] ++ [idx]))
              (acc.2.set idx (acc.2.getD idx [] ++ b.topo_before.filter (fun x => x < n))))) =
        .ok ec := h
    cases hte : terminator_edges idx b.next acc.1 with
    | panicked m =>
      rw [hte] at h2
      exact RRes.noConfusion
        (show (RRes.panicked m : RRes (List (List Nat) × List (List Nat))) = .ok ec from h2)
    | error m =>
      rw [hte] at h2
      exact RRes.noConfusion
        (show (RRes.error m : RRes (List (List Nat) × List (List Nat))) = .ok ec from h2)
    | ok edges =>
      rw [hte] at h2
      have := ih _ _ h2
      rw [this]
      exact terminator_edges_length idx b.next acc.1 edges hte

/-- C7: whenever topo_sort returns Ok, the result's idx fields are exactly
0, 1, ..., length-1 in array order, and every terminator target, every
topo_before and topo_after member, and every unconditional_loop_entry
value is a valid index into the returned array. -/
theorem C7_topo_sort_index_integrity (blocks res : List BasicBlock)
    (h : topo_sort blocks = .ok res) :
    res.map (fun b => b.idx) = List.range res.length ∧
    (∀ b, b ∈ res →
      (∀ t, t ∈ b.next.next_blocks → t < res.length) ∧
      (∀ x, x ∈ b.topo_before → x < res.length) ∧
      (∀ x, x ∈ b.topo_after → x < res.length) ∧
      (∀ u, b.unconditional_loop_entry = some u → u < res.length)) := by
  by_cases hnil : blocks = []
  · subst hnil
    exact RRes.noConfusion
      (show (RRes.panicked "index out of bounds" : RRes (List BasicBlock)) = .ok res from h)
  · have hn : 0 < blocks.length := List.length_pos.mpr hnil
    have h2 : (match build_topo_edges blocks.length blocks.enum
          (List.replicate blocks.length [], List.replicate blocks.length []) with
        | .panicked m => (RRes.panicked m : RRes (List BasicBlock))
        | .error m => .error m
        | .ok ec =>
          match topo_sort_stable_usize ec.1 ec.2
              (blocks.map (block_priority
                (blocks.foldl (fun (a : Nat) (b : BasicBlock) => if a > b.offset then a else b.offset) 0))) with
          | .panicked m => .panicked m
          | .error m => .error m
          | .ok order =>
            remap_loop blocks
              (order.enum.foldl (fun (r : List Nat) (p : Nat × Nat) => r.set p.2 p.1)
                (List.replicate blocks.length 0))
              blocks.length order.enum []) = .ok res := h
    cases hbe : build_topo_edges blocks.length blocks.enum
        (List.replicate blocks.length [], List.replicate blocks.length []) with
    | panicked m =>
      rw [hbe] at h2
      exact RRes.noConfusion (show (RRes.panicked m : RRes (List BasicBlock)) = .ok res from h2)
    | error m =>
      rw [hbe] at h2
      exact RRes.noConfusion (show (RRes.error m : RRes (List BasicBlock)) = .ok res from h2)
    | ok ec =>
      rw [hbe] at h2
      have h3 : (match topo_sort_stable_usize ec.1 ec.2
            (blocks.map (block_priority
              (blocks.foldl (fun (a : Nat) (b : BasicBlock) => if a > b.offset then a else b.offset) 0))) with
          | .panicked m => (RRes.panicked m : RRes (List BasicBlock))
          | .error m => .error m
          | .ok order =>
            remap_loop blocks
              (order.enum.foldl (fun (r : List Nat) (p : Nat × Nat) => r.set p.2 p.1)
                (List.replicate blocks.length 0))
              blocks.length order.enum []) = .ok res := h2
      cases hst : topo_sort_stable_usize ec.1 ec.2
          (blocks.map (block_priority
            (blocks.foldl (fun (a : Nat) (b : BasicBlock) => if a > b.offset then a else b.offset) 0))) with
      | panicked m =>
        rw [hst] at h3
        exact RRes.noConfusion (show (RRes.panicked m : RRes (List BasicBlock)) = .ok res from h3)
      | error m =>
        rw [hst] at h3
        exact RRes.noConfusion (show (RRes.error m : RRes (List BasicBlock)) = .ok res from h3)
      | ok order =>
        rw [hst] at h3
        have heclen : ec.1.length = blocks.length := by
          have := build_topo_edges_length blocks.length blocks.enum _ ec hbe
          rw [this, List.length_replicate]
        have h0mem : 0 ∈ order :=
          stable_ok_zero_mem ec.1 ec.2 _ order (by omega) hst
        have hordpos : 0 < order.length :=
          List.length_pos.mpr (List.ne_nil_of_mem h0mem)
        have hrb : ∀ x, ((order.enum.foldl (fun (r : List Nat) (p : Nat × Nat) => r.set p.2 p.1)
            (List.replicate blocks.length 0)).getD x 0) < order.length := by
          apply rorder_fold_bound
          · intro p hp
            obtain ⟨hlt, -⟩ := List.get?_eq_some.mp (List.mem_enum_iff_get?.mp hp)
            exact hlt
          · intro x
            rw [getD_replicate]
            exact hordpos
        obtain ⟨hlen, hmap, hmem⟩ := remap_loop_spec blocks _ blocks.length order.enum [] res h3
        have hreslen : res.length = order.length := by
          rw [hlen, List.enum_length]
          simp
        constructor
        · rw [hmap, hreslen]
          have hef : order.enum.map (fun p => p.1) = List.range order.length :=
            List.enum_map_fst order
          rw [hef]
          rfl
        · intro b hb
          rcases hmem b hb with hin | ⟨i, oi, b0, hps, hgb, hrm⟩
          · exact absurd hin (List.not_mem_nil b)
          · obtain ⟨-, hnb, htb, hta, hue⟩ :=
              remap_block_spec _ blocks.length order.length i b0 b hrb hrm
            rw [hreslen]
            exact ⟨hnb, htb, hta, hue⟩

/-- C7 witness: on a concrete three-block input the sort returns the array
itself, whose indices are 0, 1, 2 and whose references are all in range. -/
theorem C7_topo_sort_index_integrity_witness :
    c7bbs.map (fun b => b.idx) = List.range c7bbs.length ∧
    (∀ b, b ∈ c7bbs →
      (∀ t, t ∈ b.next.next_blocks → t < c7bbs.length) ∧
      (∀ x, x ∈ b.topo_before → x < c7bbs.length) ∧
      (∀ x, x ∈ b.topo_after → x < c7bbs.length) ∧
      (∀ u, b.unconditional_loop_entry = some u → u < c7bbs.length)) :=
  C7_topo_sort_index_integrity c7bbs c7bbs (by decide)

theorem alookup_mem {α : Type} : ∀ (m : List (Nat × α)) (k : Nat) (x : α),
    alookup m k = some x → (k, x) ∈ m := by
  intro m
  induction m with
  | nil => intro k x h; exact Option.noConfusion h
  | cons p rest ih =>
    intro k x h
    obtain ⟨k2, v⟩ := p
    rw [alookup] at h
    by_cases hk : k = k2
    · rw [if_pos hk] at h
      cases h
      exact hk ▸ List.mem_cons_self _ _
    · rw [if_neg hk] at h
      exact List.mem_cons_of_mem _ (ih k x h)

theorem WF_edges (g : Graph) (hwf : g.WF) (u v : Nat) (hv : v ∈ g.edges u) :
    u ∈ g.nodes ∧ v ∈ g.nodes := by
  rw [Graph.edges] at hv
  cases hl : alookup g.graph u with
  | none => rw [hl] at hv; exact absurd hv (List.not_mem_nil v)
  | some l =>
    rw [hl] at hv
    obtain ⟨h1, h2⟩ := hwf (u, l) (alookup_mem g.graph u l hl)
    exact ⟨h1, h2 v hv⟩

theorem TInv_empty (g : Graph) : TInv g TarjanScc.empty := by
  refine ⟨?_, ?_, ?_, ?_, ?_, ?_, ?_, ?_, ?_, ?_, ?_, ?_, ?_, ?_, ?_, ?_, ?_⟩
  all_goals
    simp [seen, idxOf, lowOf, TarjanScc.empty, alookup, lookupD]

theorem alookup_ainsert_self {α : Type} : ∀ (m : List (Nat × α)) (k : Nat) (v : α),
    alookup (ainsert m k v) k = some v := by
  intro m
  induction m with
  | nil => intro k v; simp [ainsert, alookup]
  | cons p rest ih =>
    intro k v
    obtain ⟨k2, w⟩ := p
    rw [ainsert]
    by_cases h1 : k = k2
    · rw [if_pos h1, alookup, if_pos rfl]
    · rw [if_neg h1]
      by_cases h2 : k < k2
      · rw [if_pos h2, alookup, if_pos rfl]
      · rw [if_neg h2, alookup, if_neg h1]
        exact ih k v

theorem alookup_ainsert_ne {α : Type} : ∀ (m : List (Nat × α)) (k k2 : Nat) (v : α),
    k ≠ k2 → alookup (ainsert m k v) k2 = alookup m k2 := by
  intro m
  induction m with
  | nil =>
    intro k k2 v hne
    rw [ainsert]
    simp only [alookup]
    rw [if_neg (fun h : k2 = k => hne h.symm)]
  | cons p rest ih =>
    intro k k2 v hne
    obtain ⟨k3, w⟩ := p
    have hne2 : ¬ (k2 = k) := fun h => hne h.symm
    rw [ainsert]
    by_cases h1 : k = k3
    · subst h1
      rw [if_pos rfl, alookup, if_neg hne2, alookup, if_neg hne2]
    · rw [if_neg h1]
      by_cases h2 : k < k3
      · rw [if_pos h2, alookup, if_neg hne2]
      · rw [if_neg h2, alookup, alookup]
        by_cases h3 : k2 = k3
        · rw [if_pos h3, if_pos h3]
        · rw [if_neg h3, if_neg h3, ih k k2 v hne]

theorem mem_sremove_subset (x : Nat) : ∀ (l : List Nat) (a : Nat), a ∈ sremove x l → a ∈ l := by
  intro l
  induction l with
  | nil => intro a h; exact absurd h (List.not_mem_nil a)
  | cons y ys ih =>
    intro a h
    rw [sremove] at h
    by_cases hy : y = x
    · rw [if_pos hy] at h
      exact List.mem_cons_of_mem _ h
    · rw [if_neg hy] at h
      rcases List.mem_cons.mp h with h1 | h1
      · exact h1 ▸ List.mem_cons_self _ _
      · exact List.mem_cons_of_mem _ (ih a h1)

theorem mem_sremove_of_ne (x : Nat) : ∀ (l : List Nat) (a : Nat), a ∈ l → a ≠ x →
    a ∈ sremove x l := by
  intro l
  induction l with
  | nil => intro a h _; exact absurd h (List.not_mem_nil a)
  | cons y ys ih =>
    intro a h hne
    rw [sremove]
    by_cases hy : y = x
    · rw [if_pos hy]
      rcases List.mem_cons.mp h with h1 | h1
      · exact absurd (h1 ▸ hy) hne
      · exact h1
    · rw [if_neg hy]
      rcases List.mem_cons.mp h with h1 | h1
      · exact h1 ▸ List.mem_cons_self _ _
      · exact List.mem_cons_of_mem _ (ih a h1 hne)

theorem sccPop_split (u : Nat) : ∀ (A B : List Nat), u ∉ A →
    sccPop u (A ++ u :: B) = (A ++ [u], B) := by
  intro A
  induction A with
  | nil =>
    intro B _
    rw [List.nil_append, sccPop, if_pos rfl]
    rfl
  | cons a A2 ih =>
    intro B hu
    have hne : ¬ (a = u) := fun h => hu (by rw [← h]; exact List.mem_cons_self _ _)
    rw [List.cons_append, sccPop, if_neg hne, ih B (fun h => hu (List.mem_cons_of_mem _ h))]
    simp

theorem filter_length_mono (p q : Nat → Bool) :
    ∀ l : List Nat, (∀ x, x ∈ l → q x = true → p x = true) →
      (l.filter q).length ≤ (l.filter p).length := by
  intro l
  induction l with
  | nil => intro _; exact le_refl _
  | cons x rest ih =>
    intro h
    have hrest := ih (fun y hy => h y (List.mem_cons_of_mem _ hy))
    by_cases hq : q x = true
    · have hp := h x (List.mem_cons_self _ _) hq
      simp only [List.filter_cons, hq, hp, if_true, List.length_cons]
      omega
    · have hq2 : q x = false := by revert hq; cases q x <;> simp
      by_cases hp : p x = true
      · simp only [List.filter_cons, hq2, hp, if_true, List.length_cons]
        simp only [Bool.false_eq_true, if_false]
        omega
      · have hp2 : p x = false := by revert hp; cases p x <;> simp
        simp only [List.filter_cons, hq2, hp2, Bool.false_eq_true, if_false]
        omega

theorem filter_length_strict (p q : Nat → Bool) :
    ∀ l : List Nat, (∀ x, x ∈ l → q x = true → p x = true) →
      ∀ u, u ∈ l → p u = true → q u = false →
      (l.filter q).length < (l.filter p).length := by
  intro l
  induction l with
  | nil => intro _ u hu _ _; exact absurd hu (List.not_mem_nil u)
  | cons x rest ih =>
    intro h u hu hp hq
    have hmono := filter_length_mono p q rest (fun y hy => h y (List.mem_cons_of_mem _ hy))
    by_cases hx : p x = true ∧ q x = false
    · simp only [List.filter_cons, hx.1, hx.2, if_true, Bool.false_eq_true, if_false,
        List.length_cons]
      omega
    · have hxu : x ≠ u := fun he => hx ⟨he ▸ hp, he ▸ hq⟩
      have hu2 : u ∈ rest := by
        rcases List.mem_cons.mp hu with h1 | h1
        · exact absurd h1.symm hxu
        · exact h1
      have hrec := ih (fun y hy => h y (List.mem_cons_of_mem _ hy)) u hu2 hp hq
      by_cases hqx : q x = true
      · have hpx := h x (List.mem_cons_self _ _) hqx
        simp only [List.filter_cons, hqx, hpx, if_true, List.length_cons]
        omega
      · have hq2 : q x = false := by revert hqx; cases q x <;> simp
        by_cases hpx : p x = true
        · simp only [List.filter_cons, hq2, hpx, if_true, Bool.false_eq_true, if_false,
            List.length_cons]
          omega
        · have hp2 : p x = false := by revert hpx; cases p x <;> simp
          simp only [List.filter_cons, hq2, hp2, Bool.false_eq_true, if_false]
          omega

theorem seen_isNone_false (st : TarjanScc) (v : Nat) (h : seen st v) :
    (alookup st.indices v).isNone = false := by
  rw [seen] at h
  cases ho : alookup st.indices v
  · rw [ho] at h; exact absurd h (by simp)
  · rfl

theorem not_seen_isNone (st : TarjanScc) (v : Nat) (h : ¬ seen st v) :
    (alookup st.indices v).isNone = true := by
  cases ho : alookup st.indices v
  · rfl
  · exact absurd (by rw [seen, ho]; rfl) h

theorem unvisited_le (g : Graph) (st st' : TarjanScc)
    (h : ∀ v, seen st v → seen st' v) : unvisited g st' ≤ unvisited g st := by
  apply filter_length_mono
  intro x _ hx
  by_cases hs : seen st x
  · rw [seen_isNone_false st' x (h x hs)] at hx
    exact Bool.noConfusion hx
  · exact not_seen_isNone st x hs

theorem unvisited_strict (g : Graph) (st st' : TarjanScc) (u : Nat)
    (hu : u ∈ g.nodes) (h1 : ¬ seen st u) (h2 : seen st' u)
    (h : ∀ v, seen st v → seen st' v) : unvisited g st' < unvisited g st := by
  apply filter_length_strict
  · intro x _ hx
    by_cases hs : seen st x
    · rw [seen_isNone_false st' x (h x hs)] at hx
      exact Bool.noConfusion hx
    · exact not_seen_isNone st x hs
  · exact hu
  · exact not_seen_isNone st u h1
  · exact seen_isNone_false st' u h2

theorem stack_reach_down (g : Graph) (st : TarjanScc) (inv : TInv g st) (u : Nat)
    (hu : u ∈ st.stack)
    (habove : ∀ v, v ∈ st.stack → idxOf st u < idxOf st v → lowOf st v < idxOf st v) :
    ∀ v, v ∈ st.stack → idxOf st u ≤ idxOf st v → Reach g v u := by
  have main : ∀ n, ∀ v, v ∈ st.stack → idxOf st v = n → idxOf st u ≤ n → Reach g v u := by
    intro n
    induction n using Nat.strong_induction_on with
    | _ n ih =>
      intro v hv hvn hun
      by_cases heq : idxOf st u = n
      · have : v = u :=
          inv.idx_inj v u (inv.stack_seen v hv) (inv.stack_seen u hu) (hvn.trans heq.symm)
        exact this ▸ Relation.ReflTransGen.refl
      · have hlt : idxOf st u < idxOf st v := by omega
        have hlow := habove v hv hlt
        obtain ⟨w, hw, hwidx, hreach⟩ := inv.low_wit v hv
        by_cases hcmp : idxOf st u ≤ idxOf st w
        · have := ih (idxOf st w) (by omega) w hw rfl hcmp
          exact Relation.ReflTransGen.trans hreach this
        · have := inv.stack_reach w u hw hu (by omega)
          exact Relation.ReflTransGen.trans hreach this
  exact fun v hv hle => main (idxOf st v) v hv rfl hle

theorem sorted_sinsert (x : Nat) : ∀ l : List Nat, l.Pairwise (fun a b => a < b) →
    (sinsert x l).Pairwise (fun a b => a < b) := by
  intro l
  induction l with
  | nil =>
    intro _
    exact List.pairwise_cons.mpr ⟨fun y hy => absurd hy (List.not_mem_nil y), List.Pairwise.nil⟩
  | cons y ys ih =>
    intro hs
    obtain ⟨hy, hys⟩ := List.pairwise_cons.mp hs
    rw [sinsert]
    by_cases h1 : x < y
    · rw [if_pos h1]
      refine List.pairwise_cons.mpr ⟨?_, hs⟩
      intro z hz
      rcases List.mem_cons.mp hz with h | h
      · exact h ▸ h1
      · exact lt_trans h1 (hy z h)
    · rw [if_neg h1]
      by_cases h2 : x = y
      · rw [if_pos h2]
        exact hs
      · rw [if_neg h2]
        refine List.pairwise_cons.mpr ⟨?_, ih hys⟩
        intro z hz
        rcases (mem_sinsert z x ys).mp hz with h | h
        · subst h
          omega
        · exact hy z h

theorem sremove_sublist (x : Nat) : ∀ l : List Nat, (sremove x l).Sublist l := by
  intro l
  induction l with
  | nil => exact List.Sublist.refl []
  | cons y ys ih =>
    rw [sremove]
    by_cases hy : y = x
    · rw [if_pos hy]
      exact List.sublist_cons_of_sublist y (List.Sublist.refl ys)
    · rw [if_neg hy]
      exact List.Sublist.cons₂ y ih

theorem not_mem_sremove_self (x : Nat) : ∀ l : List Nat, l.Nodup → x ∉ sremove x l := by
  intro l
  induction l with
  | nil => intro _ h; exact absurd h (List.not_mem_nil x)
  | cons y ys ih =>
    intro hnd h
    obtain ⟨hy, hys⟩ := List.nodup_cons.mp hnd
    rw [sremove] at h
    by_cases hyx : y = x
    · rw [if_pos hyx] at h
      exact hy (hyx ▸ h)
    · rw [if_neg hyx] at h
      rcases List.mem_cons.mp h with h1 | h1
      · exact hyx h1.symm
      · exact ih hys h1

theorem fold_sremove_subset (a : Nat) : ∀ (P : List Nat) (s : List Nat),
    a ∈ P.foldl (fun s n => sremove n s) s → a ∈ s := by
  intro P
  induction P with
  | nil => intro s h; exact h
  | cons x P2 ih =>
    intro s h
    exact mem_sremove_subset x s a (ih (sremove x s) h)

theorem fold_sremove_sublist : ∀ (P : List Nat) (s : List Nat),
    (P.foldl (fun s n => sremove n s) s).Sublist s := by
  intro P
  induction P with
  | nil => intro s; exact List.Sublist.refl s
  | cons x P2 ih =>
    intro s
    exact List.Sublist.trans (ih (sremove x s)) (sremove_sublist x s)

theorem mem_fold_sremove_of_ne (a : Nat) : ∀ (P : List Nat) (s : List Nat),
    a ∈ s → (∀ x, x ∈ P → a ≠ x) → a ∈ P.foldl (fun s n => sremove n s) s := by
  intro P
  induction P with
  | nil => intro s h _; exact h
  | cons x P2 ih =>
    intro s h hne
    exact ih (sremove x s)
      (mem_sremove_of_ne x s a h (hne x (List.mem_cons_self _ _)))
      (fun y hy => hne y (List.mem_cons_of_mem _ hy))

theorem not_mem_fold_sremove (a : Nat) : ∀ (P : List Nat) (s : List Nat),
    s.Nodup → a ∈ P → a ∉ P.foldl (fun s n => sremove n s) s := by
  intro P
  induction P with
  | nil => intro s _ h; exact absurd h (List.not_mem_nil a)
  | cons x P2 ih =>
    intro s hnd ha h
    rcases List.mem_cons.mp ha with h1 | h1
    · subst h1
      exact not_mem_sremove_self a s hnd (fold_sremove_subset a P2 (sremove a s) h)
    · exact ih (sremove x s) (List.Nodup.sublist (sremove_sublist x s) hnd) h1 h

theorem fold_ainsert_notmem {α : Type} (a : Nat) (K : α) : ∀ (P : List Nat) (m : List (Nat × α)),
    a ∉ P → alookup (P.foldl (fun m n => ainsert m n K) m) a = alookup m a := by
  intro P
  induction P with
  | nil => intro m _; rfl
  | cons x P2 ih =>
    intro m h
    have hne : x ≠ a := fun he => h (he ▸ List.mem_cons_self _ _)
    rw [List.foldl_cons, ih (ainsert m x K) (fun hh => h (List.mem_cons_of_mem _ hh)),
      alookup_ainsert_ne m x a K hne]

theorem fold_ainsert_mem {α : Type} (a : Nat) (K : α) : ∀ (P : List Nat) (m : List (Nat × α)),
    a ∈ P → alookup (P.foldl (fun m n => ainsert m n K) m) a = some K := by
  intro P
  induction P with
  | nil => intro m h; exact absurd h (List.not_mem_nil a)
  | cons x P2 ih =>
    intro m h
    by_cases h2 : a ∈ P2
    · exact ih (ainsert m x K) h2
    · have hax : a = x := by
        rcases List.mem_cons.mp h with h1 | h1
        · exact h1
        · exact absurd h1 h2
      rw [List.foldl_cons, fold_ainsert_notmem a K P2 (ainsert m x K) h2, hax,
        alookup_ainsert_self]

theorem getD_append_lt {α : Type} (d : α) : ∀ (l1 l2 : List α) (k : Nat), k < l1.length →
    (l1 ++ l2).getD k d = l1.getD k d := by
  intro l1
  induction l1 with
  | nil => intro l2 k h; exact absurd h (by simp)
  | cons x xs ih =>
    intro l2 k h
    cases k with
    | zero => rfl
    | succ k2 =>
      rw [List.cons_append, List.getD_cons_succ, List.getD_cons_succ]
      exact ih l2 k2 (by simp at h; omega)

theorem getD_append_len {α : Type} (d : α) : ∀ (l1 : List α) (x : α),
    (l1 ++ [x]).getD l1.length d = x := by
  intro l1
  induction l1 with
  | nil => intro x; rfl
  | cons y ys ih =>
    intro x
    rw [List.cons_append, List.length_cons, List.getD_cons_succ]
    exact ih x

theorem getD_ge_nil {α : Type} (d : α) : ∀ (l : List α) (k : Nat), l.length ≤ k →
    l.getD k d = d := by
  intro l
  induction l with
  | nil => intro k _; cases k <;> rfl
  | cons x xs ih =>
    intro k h
    cases k with
    | zero => exact absurd h (by simp)
    | succ k2 =>
      rw [List.getD_cons_succ]
      exact ih k2 (by simp at h; omega)

theorem push_TInv (g : Graph) (st : TarjanScc) (u : Nat) (inv : TInv g st)
    (hnode : u ∈ g.nodes) (hunseen : ¬ seen st u)
    (hreach : ∀ w, w ∈ st.stack → Reach g w u) :
    TInv g (pushState st u) := by
  have hsu : ∀ w, w ∈ st.stack → w ≠ u :=
    fun w hw he => hunseen (he ▸ inv.stack_seen w hw)
  have hseen1 : ∀ v, seen (pushState st u) v ↔ (v = u ∨ seen st v) := by
    intro v
    show (alookup (ainsert st.indices u st.index) v).isSome ↔ _
    by_cases hv : v = u
    · subst hv
      rw [alookup_ainsert_self]
      simp
    · rw [alookup_ainsert_ne st.indices u v st.index (fun h => hv h.symm)]
      simp [hv, seen]
  have hidxne : ∀ v, v ≠ u → alookup (pushState st u).indices v = alookup st.indices v := by
    intro v hv
    show alookup (ainsert st.indices u st.index) v = _
    exact alookup_ainsert_ne st.indices u v st.index (fun h => hv h.symm)
  have hidxOfne : ∀ v, v ≠ u → idxOf (pushState st u) v = idxOf st v := by
    intro v hv
    rw [idxOf, lookupD, hidxne v hv, idxOf, lookupD]
  have hidxu : idxOf (pushState st u) u = st.index := by
    rw [idxOf, lookupD]
    show ((alookup (ainsert st.indices u st.index) u).getD 0) = _
    rw [alookup_ainsert_self]
    rfl
  have hlowne : ∀ v, v ≠ u → alookup (pushState st u).lowlinks v = alookup st.lowlinks v := by
    intro v hv
    show alookup (ainsert st.lowlinks u st.index) v = _
    exact alookup_ainsert_ne st.lowlinks u v st.index (fun h => hv h.symm)
  have hlowu : lowOf (pushState st u) u = st.index := by
    rw [lowOf, lookupD]
    show ((alookup (ainsert st.lowlinks u st.index) u).getD 0) = _
    rw [alookup_ainsert_self]
    rfl
  refine ⟨?_, ?_, ?_, ?_, ?_, ?_, ?_, ?_, ?_, ?_, ?_, ?_, ?_, ?_, ?_, ?_, ?_⟩
  · intro v hv
    rcases (hseen1 v).mp hv with h | h
    · exact h ▸ hnode
    · exact inv.dom_nodes v h
  · intro v
    by_cases hv : v = u
    · subst hv
      constructor
      · intro _
        show (alookup (ainsert st.lowlinks v st.index) v).isSome
        rw [alookup_ainsert_self]
        rfl
      · intro _
        exact (hseen1 v).mpr (Or.inl rfl)
    · rw [hlowne v hv]
      rw [hseen1 v]
      constructor
      · intro h
        rcases h with h | h
        · exact absurd h hv
        · exact (inv.dom_low v).mp h
      · intro h
        exact Or.inr ((inv.dom_low v).mpr h)
  · intro v hv
    rcases (hseen1 v).mp hv with h | h
    · subst h
      rw [hidxu]
      show st.index < st.index + 1
      omega
    · rw [hidxOfne v (fun he => hunseen (he ▸ h))]
      have := inv.idx_lt v h
      show idxOf st v < st.index + 1
      omega
  · intro v w hv hw heq
    rcases (hseen1 v).mp hv with h1 | h1 <;> rcases (hseen1 w).mp hw with h2 | h2
    · exact h1.trans h2.symm
    · subst h1
      rw [hidxu, hidxOfne w (fun he => hunseen (he ▸ h2))] at heq
      exact absurd heq.symm (Nat.ne_of_lt (inv.idx_lt w h2))
    · subst h2
      rw [hidxu, hidxOfne v (fun he => hunseen (he ▸ h1))] at heq
      exact absurd heq (Nat.ne_of_lt (inv.idx_lt v h1))
    · rw [hidxOfne v (fun he => hunseen (he ▸ h1)),
        hidxOfne w (fun he => hunseen (he ▸ h2))] at heq
      exact inv.idx_inj v w h1 h2 heq
  · show (u :: st.stack).Nodup
    rw [List.nodup_cons]
    exact ⟨fun h => (hsu u h) rfl, inv.stack_nodup⟩
  · intro v
    show v ∈ u :: st.stack ↔ v ∈ sinsert u st.in_stack
    rw [mem_sinsert, List.mem_cons, inv.stack_in]
  · intro v hv
    rcases List.mem_cons.mp hv with h | h
    · exact (hseen1 v).mpr (Or.inl h)
    · exact (hseen1 v).mpr (Or.inr (inv.stack_seen v h))
  · show (u :: st.stack).Pairwise (fun a b => idxOf (pushState st u) b < idxOf (pushState st u) a)
    rw [List.pairwise_cons]
    constructor
    · intro w hw
      rw [hidxu, hidxOfne w (hsu w hw)]
      exact inv.idx_lt w (inv.stack_seen w hw)
    · apply List.Pairwise.imp_of_mem ?_ inv.stack_sorted
      intro a b ha hb hab
      rw [hidxOfne b (hsu b hb), hidxOfne a (hsu a ha)]
      exact hab
  · intro v
    show (alookup st.scc v).isSome ↔ (seen (pushState st u) v ∧ v ∉ u :: st.stack)
    rw [inv.done_iff v, hseen1 v, List.mem_cons]
    constructor
    · rintro ⟨h1, h2⟩
      refine ⟨Or.inr h1, ?_⟩
      rintro (h | h)
      · exact hunseen (h ▸ h1)
      · exact h2 h
    · rintro ⟨h1, h2⟩
      rcases h1 with h | h
      · exact absurd (Or.inl h) h2
      · exact ⟨h, fun hh => h2 (Or.inr hh)⟩
  · exact inv.scc_lt
  · exact inv.sccs_mem
  · exact inv.closure
  · exact inv.comp_reach
  · intro v w hv hw hle
    rcases List.mem_cons.mp hv with h1 | h1 <;> rcases List.mem_cons.mp hw with h2 | h2
    · exact h1 ▸ h2 ▸ Relation.ReflTransGen.refl
    · subst h1
      rw [hidxu, hidxOfne w (hsu w h2)] at hle
      exact absurd hle (by have := inv.idx_lt w (inv.stack_seen w h2); omega)
    · subst h2
      exact hreach v h1
    · rw [hidxOfne v (hsu v h1), hidxOfne w (hsu w h2)] at hle
      exact inv.stack_reach v w h1 h2 hle
  · intro v hv
    rcases List.mem_cons.mp hv with h | h
    · subst h
      rw [hlowu, hidxu]
    · rw [lowOf, lookupD, hlowne v (hsu v h), hidxOfne v (hsu v h)]
      exact inv.low_le v h
  · intro v hv
    rcases List.mem_cons.mp hv with h | h
    · subst h
      exact ⟨v, List.mem_cons_self _ _, by rw [hidxu, hlowu], Relation.ReflTransGen.refl⟩
    · obtain ⟨w, hw, hwidx, hr⟩ := inv.low_wit v h
      refine ⟨w, List.mem_cons_of_mem _ hw, ?_, hr⟩
      rw [hidxOfne w (hsu w hw), lowOf, lookupD, hlowne v (hsu v h)]
      exact hwidx
  · show (sinsert u st.in_stack).Pairwise (fun a b => a < b)
    exact sorted_sinsert u st.in_stack inv.in_sorted

theorem strong_connect_eq (g : Graph) (fuel u : Nat) (st : TarjanScc) :
    TarjanScc.strong_connect g (fuel + 1) u st =
    (let st2 := (g.edges u).foldl (scFold g fuel u) (pushState st u)
     if lookupD st2.lowlinks u = lookupD st2.indices u then TarjanScc.close u st2 else st2) := rfl

theorem CP_def (g : Graph) (st : TarjanScc) (v : Nat) :
    CP g st v ↔ ∀ t, t ∈ g.edges v → CPe g st v t := Iff.rfl

/-- Updating the lowlink of a stacked node to a justified lower value keeps
the invariant. -/
theorem TInv_update_low (g : Graph) (st : TarjanScc) (u L : Nat) (inv : TInv g st)
    (hu : u ∈ st.stack) (hle : L ≤ idxOf st u)
    (hwit : ∃ w, w ∈ st.stack ∧ idxOf st w = L ∧ Reach g u w) :
    TInv g { st with lowlinks := ainsert st.lowlinks u L } := by
  have hlow : ∀ v, v ≠ u →
      alookup (ainsert st.lowlinks u L) v = alookup st.lowlinks v :=
    fun v hv => alookup_ainsert_ne st.lowlinks u v L (fun h => hv h.symm)
  have hlowu : alookup (ainsert st.lowlinks u L) u = some L :=
    alookup_ainsert_self st.lowlinks u L
  refine ⟨inv.dom_nodes, ?_, inv.idx_lt, inv.idx_inj, inv.stack_nodup, inv.stack_in,
    inv.stack_seen, inv.stack_sorted, inv.done_iff, inv.scc_lt, inv.sccs_mem,
    inv.closure, inv.comp_reach, inv.stack_reach, ?_, ?_, inv.in_sorted⟩
  · intro v
    by_cases hv : v = u
    · subst hv
      show seen st v ↔ (alookup (ainsert st.lowlinks v L) v).isSome
      rw [hlowu]
      simp only [Option.isSome_some]
      exact ⟨fun _ => trivial, fun _ => inv.stack_seen v hu⟩
    · show seen st v ↔ (alookup (ainsert st.lowlinks u L) v).isSome
      rw [hlow v hv]
      exact inv.dom_low v
  · intro v hv
    by_cases hvu : v = u
    · subst hvu
      show lookupD (ainsert st.lowlinks v L) v ≤ idxOf st v
      rw [lookupD, hlowu]
      exact hle
    · show lookupD (ainsert st.lowlinks u L) v ≤ idxOf st v
      rw [lookupD, hlow v hvu]
      exact inv.low_le v hv
  · intro v hv
    by_cases hvu : v = u
    · subst hvu
      obtain ⟨w, hw, hwidx, hr⟩ := hwit
      exact ⟨w, hw, by rw [lowOf, lookupD, hlowu]; exact hwidx, hr⟩
    · obtain ⟨w, hw, hwidx, hr⟩ := inv.low_wit v hv
      refine ⟨w, hw, ?_, hr⟩
      rw [lowOf, lookupD, hlow v hvu]
      exact hwidx

theorem seen_of_idx (s : TarjanScc) (w i : Nat) (h : alookup s.indices w = some i) :
    seen s w := by rw [seen, h]; rfl

theorem idxOf_of_idx (s : TarjanScc) (w i : Nat) (h : alookup s.indices w = some i) :
    idxOf s w = i := by rw [idxOf, lookupD, h]; rfl

theorem CPe_transfer (g : Graph) (s s' : TarjanScc) (w t : Nat)
    (hseen : ∀ x, seen s x → seen s' x)
    (hscc : ∀ x k, alookup s.scc x = some k → alookup s'.scc x = some k)
    (hstack : ∀ x, x ∈ s.stack → x ∈ s'.stack)
    (hidx : ∀ x, seen s x → idxOf s' x = idxOf s x)
    (hloww : lowOf s' w ≤ lowOf s w)
    (hcp : CPe g s w t) : CPe g s' w t := by
  obtain ⟨h1, h2⟩ := hcp
  refine ⟨hseen t h1, ?_⟩
  rcases h2 with hd | ⟨hs, hl⟩
  · obtain ⟨k, hk⟩ := Option.isSome_iff_exists.mp hd
    exact Or.inl (Option.isSome_iff_exists.mpr ⟨k, hscc t k hk⟩)
  · refine Or.inr ⟨hstack t hs, ?_⟩
    rw [hidx t h1]
    omega

theorem CP_transfer (g : Graph) (s s' : TarjanScc) (w : Nat)
    (hseen : ∀ x, seen s x → seen s' x)
    (hscc : ∀ x k, alookup s.scc x = some k → alookup s'.scc x = some k)
    (hstack : ∀ x, x ∈ s.stack → x ∈ s'.stack)
    (hidx : ∀ x, seen s x → idxOf s' x = idxOf s x)
    (hloww : lowOf s' w ≤ lowOf s w)
    (hcp : CP g s w) : CP g s' w :=
  fun t ht => CPe_transfer g s s' w t hseen hscc hstack hidx hloww (hcp t ht)

theorem lookupD_ainsert_self (m : List (Nat × Nat)) (k x : Nat) :
    lookupD (ainsert m k x) k = x := by
  rw [lookupD, alookup_ainsert_self]; rfl

theorem lookupD_ainsert_ne (m : List (Nat × Nat)) (k k2 x : Nat) (h : k ≠ k2) :
    lookupD (ainsert m k x) k2 = lookupD m k2 := by
  rw [lookupD, alookup_ainsert_ne m k k2 x h, lookupD]

theorem lowOf_congr (s s' : TarjanScc) (w : Nat)
    (h : alookup s'.lowlinks w = alookup s.lowlinks w) : lowOf s' w = lowOf s w := by
  rw [lowOf, lookupD, h, lowOf, lookupD]

theorem idxOf_congr (s s' : TarjanScc) (w : Nat)
    (h : alookup s'.indices w = alookup s.indices w) : idxOf s' w = idxOf s w := by
  rw [idxOf, lookupD, h, idxOf, lookupD]

theorem contains_iff (l : List Nat) (a : Nat) : l.contains a = true ↔ a ∈ l := by
  induction l with
  | nil => simp [List.contains]
  | cons x xs ih =>
    simp only [List.contains_cons, Bool.or_eq_true, beq_iff_eq, List.mem_cons]
    rw [ih]

theorem MF_update_low (g : Graph) (u : Nat) (st0 s : TarjanScc) (L : Nat)
    (mf : MF g u st0 s) (hne0 : ¬ seen st0 u) (hL : L ≤ lowOf s u)
    (inv2 : TInv g { s with lowlinks := ainsert s.lowlinks u L }) :
    MF g u st0 { s with lowlinks := ainsert s.lowlinks u L } := by
  have hlo : ∀ w, w ≠ u →
      lowOf { s with lowlinks := ainsert s.lowlinks u L } w = lowOf s w := by
    intro w hw
    show lookupD (ainsert s.lowlinks u L) w = lowOf s w
    rw [lookupD_ainsert_ne s.lowlinks u w L (fun h => hw h.symm)]
    rfl
  have hlu : lowOf { s with lowlinks := ainsert s.lowlinks u L } u = L :=
    lookupD_ainsert_self s.lowlinks u L
  refine ⟨inv2, mf.u_stack, mf.u_idx, mf.seen_mono, mf.pres_idx, ?_, mf.pres_scc, mf.idx_gt,
    mf.new_reach, mf.new_idx_ge, mf.stack_shape, ?_, ?_, ?_⟩
  · intro w hw
    have hwne : w ≠ u := fun he => hne0 (he ▸ hw)
    show alookup (ainsert s.lowlinks u L) w = alookup st0.lowlinks w
    rw [alookup_ainsert_ne s.lowlinks u w L (fun h => hwne h.symm)]
    exact mf.pres_low w hw
  · intro w hwst hw0 hwu
    rw [hlo w hwu]
    exact mf.above_low w hwst hw0 hwu
  · intro w hwst hw0 hwu
    refine CP_transfer g s _ w (fun x h => h) (fun x k h => h) (fun x h => h)
      (fun x _ => rfl) ?_ (mf.news_cp w hwst hw0 hwu)
    rw [hlo w hwu]
  · intro w hwst hw0 hwu
    rw [hlu, hlo w hwu]
    exact le_trans hL (mf.news_low_ge w hwst hw0 hwu)

theorem sc_step (g : Graph) (hwf : g.WF) (fuel u : Nat) (st0 : TarjanScc) (inv0 : TInv g st0)
    (hnode : u ∈ g.nodes) (hunseen0 : ¬ seen st0 u)
    (hreach0 : ∀ w, w ∈ st0.stack → Reach g w u)
    (hfuel : unvisited g st0 ≤ fuel + 1)
    (IH : ∀ v2 st, v2 ∈ g.nodes → ¬ seen st v2 → TInv g st →
        (∀ w, w ∈ st.stack → Reach g w v2) → unvisited g st ≤ fuel →
        SCPost g v2 st (TarjanScc.strong_connect g fuel v2 st))
    (s : TarjanScc) (v : Nat) (mf : MF g u st0 s) (hv : v ∈ g.edges u) :
    MF g u st0 (scFold g fuel u s v) ∧ CPe g (scFold g fuel u s v) u v ∧
    (∀ t, CPe g s u t → CPe g (scFold g fuel u s v) u t) := by
  have hu_seen_s : seen s u := seen_of_idx s u st0.index mf.u_idx
  have hidxu_s : idxOf s u = st0.index := idxOf_of_idx s u st0.index mf.u_idx
  obtain ⟨A, hshape, hA⟩ := mf.stack_shape
  by_cases hns : seen s v
  · have hguard : ¬ ((alookup s.indices v).isNone = true) := by
      rw [seen_isNone_false s v hns]
      exact Bool.false_ne_true
    by_cases hin : s.in_stack.contains v = true
    · have hred : scFold g fuel u s v =
          { s with lowlinks := ainsert s.lowlinks u (min (lowOf s u) (idxOf s v)) } := by
        unfold scFold
        rw [if_neg hguard, if_pos hin]
        rfl
      have hvstack : v ∈ s.stack := (mf.inv.stack_in v).mpr ((contains_iff _ _).mp hin)
      have hL : min (lowOf s u) (idxOf s v) ≤ lowOf s u := min_le_left _ _
      have hinv2 : TInv g
          { s with lowlinks := ainsert s.lowlinks u (min (lowOf s u) (idxOf s v)) } := by
        apply TInv_update_low g s u _ mf.inv mf.u_stack
        · exact le_trans hL (mf.inv.low_le u mf.u_stack)
        · rcases le_total (lowOf s u) (idxOf s v) with hc | hc
          · obtain ⟨w, hw, hwidx, hr⟩ := mf.inv.low_wit u mf.u_stack
            exact ⟨w, hw, by rw [min_eq_left hc]; exact hwidx, hr⟩
          · exact ⟨v, hvstack, (min_eq_right hc).symm, Relation.ReflTransGen.single hv⟩
      rw [hred]
      refine ⟨MF_update_low g u st0 s _ mf hunseen0 hL hinv2, ?_, ?_⟩
      · refine ⟨hns, Or.inr ⟨hvstack, ?_⟩⟩
        show lookupD (ainsert s.lowlinks u (min (lowOf s u) (idxOf s v))) u ≤ idxOf s v
        rw [lookupD_ainsert_self]
        exact min_le_right _ _
      · intro t hcpe
        refine CPe_transfer g s _ u t (fun x h => h) (fun x k h => h) (fun x h => h)
          (fun x _ => rfl) ?_ hcpe
        show lookupD (ainsert s.lowlinks u (min (lowOf s u) (idxOf s v))) u ≤ lowOf s u
        rw [lookupD_ainsert_self]
        exact hL
    · have hred : scFold g fuel u s v = s := by
        unfold scFold
        rw [if_neg hguard, if_neg hin]
      rw [hred]
      have hnst : v ∉ s.stack := fun h => hin ((contains_iff _ _).mpr ((mf.inv.stack_in v).mp h))
      exact ⟨mf, ⟨hns, Or.inl ((mf.inv.done_iff v).mpr ⟨hns, hnst⟩)⟩, fun t h => h⟩
  · have hguard : (alookup s.indices v).isNone = true := not_seen_isNone s v hns
    have hvnode : v ∈ g.nodes := (WF_edges g hwf u v hv).2
    have hab : ∀ x, x ∈ s.stack → idxOf s u < idxOf s x → lowOf s x < idxOf s x := by
      intro x hx hlt
      by_cases hxu : x = u
      · rw [hxu] at hlt
        omega
      · by_cases hx0 : seen st0 x
        · have h1 : idxOf s x = idxOf st0 x := idxOf_congr st0 s x (mf.pres_idx x hx0)
          have h2 := inv0.idx_lt x hx0
          omega
        · exact mf.above_low x hx hx0 hxu
    have hreach2 : ∀ w, w ∈ s.stack → Reach g w v := by
      intro w hw
      have hwu : Reach g w u := by
        by_cases hw0 : seen st0 w
        · rw [hshape] at hw
          rcases List.mem_append.mp hw with h1 | h1
          · exact absurd hw0 (hA w h1)
          · rcases List.mem_cons.mp h1 with h2 | h2
            · exact absurd (h2 ▸ hw0) hunseen0
            · exact hreach0 w h2
        · have hge : idxOf s u ≤ idxOf s w := by
            have := mf.new_idx_ge w (mf.inv.stack_seen w hw) hw0
            omega
          exact stack_reach_down g s mf.inv u mf.u_stack hab w hw hge
      exact Relation.ReflTransGen.trans hwu (Relation.ReflTransGen.single hv)
    have hfuel2 : unvisited g s ≤ fuel := by
      have h1 : unvisited g s < unvisited g st0 :=
        unvisited_strict g st0 s u hnode hunseen0 hu_seen_s mf.seen_mono
      omega
    have post := IH v s hvnode hns mf.inv hreach2 hfuel2
    set st' := TarjanScc.strong_connect g fuel v s with hst'
    set L := min (lowOf st' u) (lowOf st' v) with hLdef
    have hred : scFold g fuel u s v = { st' with lowlinks := ainsert st'.lowlinks u L } := by
      unfold scFold
      rw [if_pos hguard]
      rfl
    have hustack2 : u ∈ st'.stack := by
      obtain ⟨news, hn, _⟩ := post.stack_tail
      rw [hn]
      exact List.mem_append_right news mf.u_stack
    have hback : ∀ x, x ∈ st'.stack → seen s x → x ∈ s.stack := by
      obtain ⟨news, hn, hnews⟩ := post.stack_tail
      intro x hx hxs
      rw [hn] at hx
      rcases List.mem_append.mp hx with h1 | h1
      · exact absurd hxs (hnews x h1)
      · exact h1
    have hstack_keep : ∀ x, x ∈ s.stack → x ∈ st'.stack := by
      obtain ⟨news, hn, _⟩ := post.stack_tail
      intro x hx
      rw [hn]
      exact List.mem_append_right news hx
    have hlowpu : lowOf st' u = lowOf s u := lowOf_congr s st' u (post.pres_low u hu_seen_s)
    have hidxpu : alookup st'.indices u = some st0.index := by
      rw [post.pres_idx u hu_seen_s]
      exact mf.u_idx
    have hidxu2 : idxOf st' u = st0.index := idxOf_of_idx st' u st0.index hidxpu
    have hLle : L ≤ lowOf s u := by
      rw [hLdef, ← hlowpu]
      exact min_le_left _ _
    have hseenv2 : seen st' v := seen_of_idx st' v s.index post.u_idx
    have hidxv2 : idxOf st' v = s.index := idxOf_of_idx st' v s.index post.u_idx
    have hvcases := post.u_cases
    have hlowu_lt : lowOf st' u < s.index := by
      have h1 : lowOf s u ≤ idxOf s u := mf.inv.low_le u mf.u_stack
      have h2 : st0.index < s.index := mf.idx_gt
      omega
    have hwit : ∃ w, w ∈ st'.stack ∧ idxOf st' w = L ∧ Reach g u w := by
      rcases le_total (lowOf st' u) (lowOf st' v) with hc | hc
      · obtain ⟨w, hw, hwidx, hr⟩ := post.inv.low_wit u hustack2
        exact ⟨w, hw, by rw [hLdef, min_eq_left hc]; exact hwidx, hr⟩
      · rcases hvcases with ⟨hdone, hnotst, hlowv⟩ | ⟨hvst, hlowv⟩
        · exfalso
          rw [hlowv] at hc
          omega
        · obtain ⟨w, hw, hwidx, hr⟩ := post.inv.low_wit v hvst
          refine ⟨w, hw, by rw [hLdef, min_eq_right hc]; exact hwidx, ?_⟩
          exact Relation.ReflTransGen.trans (Relation.ReflTransGen.single hv) hr
    have hinv2 : TInv g { st' with lowlinks := ainsert st'.lowlinks u L } :=
      TInv_update_low g st' u L post.inv hustack2
        (le_trans (min_le_left _ _) (post.inv.low_le u hustack2)) hwit
    rw [hred]
    set st2 : TarjanScc := { st' with lowlinks := ainsert st'.lowlinks u L } with hst2
    have hlow2ne : ∀ x, x ≠ u → lowOf st2 x = lowOf st' x := by
      intro x hx
      show lookupD (ainsert st'.lowlinks u L) x = lowOf st' x
      rw [lookupD_ainsert_ne st'.lowlinks u x L (fun h => hx h.symm)]
      rfl
    have hlow2u : lowOf st2 u = L := lookupD_ainsert_self st'.lowlinks u L
    refine ⟨⟨hinv2, hustack2, hidxpu, ?_, ?_, ?_, ?_, ?_, ?_, ?_, ?_, ?_, ?_, ?_⟩, ?_, ?_⟩
    · intro w hw
      exact post.seen_mono w (mf.seen_mono w hw)
    · intro w hw
      show alookup st'.indices w = alookup st0.indices w
      rw [post.pres_idx w (mf.seen_mono w hw)]
      exact mf.pres_idx w hw
    · intro w hw
      have hwne : w ≠ u := fun he => hunseen0 (he ▸ hw)
      show alookup (ainsert st'.lowlinks u L) w = alookup st0.lowlinks w
      rw [alookup_ainsert_ne st'.lowlinks u w L (fun h => hwne h.symm),
        post.pres_low w (mf.seen_mono w hw)]
      exact mf.pres_low w hw
    · intro w k hk
      exact post.pres_scc w k (mf.pres_scc w k hk)
    · show st0.index < st'.index
      exact lt_trans mf.idx_gt post.idx_gt
    · intro w hw hw0
      by_cases hws : seen s w
      · exact mf.new_reach w hws hw0
      · exact Relation.ReflTransGen.trans (Relation.ReflTransGen.single hv)
          (post.new_reach w hw hws)
    · intro w hw hw0
      by_cases hws : seen s w
      · have h1 := mf.new_idx_ge w hws hw0
        have h2 : idxOf st' w = idxOf s w := idxOf_congr s st' w (post.pres_idx w hws)
        show st0.index ≤ idxOf st' w
        omega
      · have h1 := post.new_idx_ge w hw hws
        have h2 : st0.index < s.index := mf.idx_gt
        show st0.index ≤ idxOf st' w
        omega
    · obtain ⟨news, hn, hnews⟩ := post.stack_tail
      refine ⟨news ++ A, ?_, ?_⟩
      · show st'.stack = (news ++ A) ++ u :: st0.stack
        rw [hn, hshape, List.append_assoc]
      · intro w hwm
        rcases List.mem_append.mp hwm with h1 | h1
        · exact fun hc => hnews w h1 (mf.seen_mono w hc)
        · exact hA w h1
    · intro w hwst hw0 hwu
      rw [hlow2ne w hwu]
      by_cases hws : seen s w
      · have hwss : w ∈ s.stack := hback w hwst hws
        have hlow_eq : lowOf st' w = lowOf s w := lowOf_congr s st' w (post.pres_low w hws)
        have hidx_eq : idxOf st' w = idxOf s w := idxOf_congr s st' w (post.pres_idx w hws)
        have h3 := mf.above_low w hwss hw0 hwu
        show lowOf st' w < idxOf st' w
        omega
      · by_cases hwv : w = v
        · subst hwv
          rcases hvcases with ⟨hdone, hnotst, hlv⟩ | ⟨hvst, hlv⟩
          · exact absurd (show w ∈ st'.stack from hwst) hnotst
          · show lowOf st' w < idxOf st' w
            rw [hidxv2]
            exact hlv
        · exact post.news_active w hwst hws hwv
    · intro w hwst hw0 hwu
      by_cases hws : seen s w
      · have hwss : w ∈ s.stack := hback w hwst hws
        have hcp1 : CP g s w := mf.news_cp w hwss hw0 hwu
        have hcp2 : CP g st' w := CP_transfer g s st' w post.seen_mono post.pres_scc
          hstack_keep (fun x hx => idxOf_congr s st' x (post.pres_idx x hx))
          (le_of_eq (lowOf_congr s st' w (post.pres_low w hws))) hcp1
        exact CP_transfer g st' st2 w (fun x h => h) (fun x k h => h) (fun x h => h)
          (fun x _ => rfl) (le_of_eq (hlow2ne w hwu)) hcp2
      · exact CP_transfer g st' st2 w (fun x h => h) (fun x k h => h) (fun x h => h)
          (fun x _ => rfl) (le_of_eq (hlow2ne w hwu)) (post.news_cp w hwst hws).1
    · intro w hwst hw0 hwu
      rw [hlow2u, hlow2ne w hwu]
      by_cases hws : seen s w
      · have hwss : w ∈ s.stack := hback w hwst hws
        have h1 := mf.news_low_ge w hwss hw0 hwu
        have h2 : lowOf st' w = lowOf s w := lowOf_congr s st' w (post.pres_low w hws)
        omega
      · have h1 := (post.news_cp w hwst hws).2
        have h2 : L ≤ lowOf st' v := by
          rw [hLdef]
          exact min_le_right _ _
        omega
    · refine ⟨hseenv2, ?_⟩
      rcases hvcases with ⟨hdone, hnotst, hlv⟩ | ⟨hvst, hlv⟩
      · exact Or.inl hdone
      · refine Or.inr ⟨hvst, ?_⟩
        have h2 : L ≤ lowOf st' v := by
          rw [hLdef]
          exact min_le_right _ _
        rw [hlow2u]
        show L ≤ idxOf st' v
        omega
    · intro t hcpe
      refine CPe_transfer g s st2 u t (fun x h => post.seen_mono x h)
        (fun x k h => post.pres_scc x k h) hstack_keep
        (fun x hx => idxOf_congr s st2 x
          (show alookup st2.indices x = alookup s.indices x from post.pres_idx x hx)) ?_ hcpe
      rw [hlow2u]
      exact hLle

theorem sc_fold (g : Graph) (hwf : g.WF) (fuel u : Nat) (st0 : TarjanScc) (inv0 : TInv g st0)
    (hnode : u ∈ g.nodes) (hunseen0 : ¬ seen st0 u)
    (hreach0 : ∀ w, w ∈ st0.stack → Reach g w u)
    (hfuel : unvisited g st0 ≤ fuel + 1)
    (IH : ∀ v2 st, v2 ∈ g.nodes → ¬ seen st v2 → TInv g st →
        (∀ w, w ∈ st.stack → Reach g w v2) → unvisited g st ≤ fuel →
        SCPost g v2 st (TarjanScc.strong_connect g fuel v2 st)) :
    ∀ (l : List Nat) (s : TarjanScc), (∀ t, t ∈ l → t ∈ g.edges u) → MF g u st0 s →
      MF g u st0 (l.foldl (scFold g fuel u) s) ∧
      (∀ t, t ∈ l → CPe g (l.foldl (scFold g fuel u) s) u t) ∧
      (∀ t, CPe g s u t → CPe g (l.foldl (scFold g fuel u) s) u t) := by
  intro l
  induction l with
  | nil =>
    intro s _ mf
    exact ⟨mf, fun t ht => absurd ht (List.not_mem_nil t), fun t h => h⟩
  | cons x xs ih =>
    intro s hsub mf
    have hx : x ∈ g.edges u := hsub x (List.mem_cons_self _ _)
    obtain ⟨mf1, cpe1, pres1⟩ :=
      sc_step g hwf fuel u st0 inv0 hnode hunseen0 hreach0 hfuel IH s x mf hx
    obtain ⟨mf2, cpe2, pres2⟩ :=
      ih (scFold g fuel u s x) (fun t ht => hsub t (List.mem_cons_of_mem _ ht)) mf1
    rw [List.foldl_cons]
    refine ⟨mf2, ?_, fun t h => pres2 t (pres1 t h)⟩
    intro t ht
    rcases List.mem_cons.mp ht with h1 | h1
    · exact h1 ▸ pres2 x cpe1
    · exact cpe2 t h1

theorem sc_close (g : Graph) (u : Nat) (st0 st2 : TarjanScc) (inv0 : TInv g st0)
    (hunseen0 : ¬ seen st0 u)
    (mf : MF g u st0 st2)
    (hcp : ∀ t, t ∈ g.edges u → CPe g st2 u t)
    (hclose : lowOf st2 u = idxOf st2 u) :
    TInv g (TarjanScc.close u st2) ∧
    (TarjanScc.close u st2).stack = st0.stack ∧
    alookup (TarjanScc.close u st2).scc u = some st2.sccs.length ∧
    (∀ w k, alookup st2.scc w = some k → alookup (TarjanScc.close u st2).scc w = some k) := by
  obtain ⟨A2, hshape2, hA2⟩ := mf.stack_shape
  have hnd : st2.stack.Nodup := mf.inv.stack_nodup
  have hndA : (A2 ++ u :: st0.stack).Nodup := by rw [← hshape2]; exact hnd
  have huA : u ∉ A2 := by
    intro hu
    exact ((List.nodup_append.mp hndA).2.2 hu) (List.mem_cons_self u st0.stack)
  have hpop : sccPop u st2.stack = (A2 ++ [u], st0.stack) := by
    rw [hshape2]
    exact sccPop_split u A2 st0.stack huA
  set P := A2 ++ [u] with hPdef
  set K := st2.sccs.length with hKdef
  have hcl : TarjanScc.close u st2 =
      { st2 with
        stack := st0.stack
        in_stack := P.foldl (fun s n => sremove n s) st2.in_stack
        scc := P.foldl (fun m n => ainsert m n K) st2.scc
        sccs := st2.sccs ++ [P] } := by
    unfold TarjanScc.close
    rw [hpop]
  have hPstack : ∀ w, w ∈ P → w ∈ st2.stack := by
    intro w hw
    rw [hshape2]
    rcases List.mem_append.mp hw with h1 | h1
    · exact List.mem_append_left _ h1
    · rcases List.mem_cons.mp h1 with h2 | h2
      · subst h2
        exact List.mem_append_right A2 (List.mem_cons_self _ _)
      · exact absurd h2 (List.not_mem_nil w)
  have hPunseen : ∀ w, w ∈ P → ¬ seen st0 w := by
    intro w hw
    rcases List.mem_append.mp hw with h1 | h1
    · exact hA2 w h1
    · rcases List.mem_cons.mp h1 with h2 | h2
      · exact h2 ▸ hunseen0
      · exact absurd h2 (List.not_mem_nil w)
  have hmemP : ∀ w, w ∈ st2.stack → w ∈ P ∨ w ∈ st0.stack := by
    intro w hw
    rw [hshape2] at hw
    rcases List.mem_append.mp hw with h1 | h1
    · exact Or.inl (List.mem_append_left _ h1)
    · rcases List.mem_cons.mp h1 with h2 | h2
      · exact Or.inl (h2 ▸ List.mem_append_right A2 (List.mem_cons_self u []))
      · exact Or.inr h2
  have huP : u ∈ P := List.mem_append_right A2 (List.mem_cons_self u [])
  have hidxu2 : idxOf st2 u = st0.index := idxOf_of_idx st2 u st0.index mf.u_idx
  have hlowu2 : lowOf st2 u = st0.index := by rw [hclose, hidxu2]
  have hPidx : ∀ w, w ∈ P → st0.index ≤ idxOf st2 w := by
    intro w hw
    exact mf.new_idx_ge w (mf.inv.stack_seen w (hPstack w hw)) (hPunseen w hw)
  have holdidx : ∀ w, w ∈ st0.stack → idxOf st2 w < st0.index := by
    intro w hw
    have h1 : idxOf st2 w = idxOf st0 w :=
      idxOf_congr st0 st2 w (mf.pres_idx w (inv0.stack_seen w hw))
    have h2 := inv0.idx_lt w (inv0.stack_seen w hw)
    omega
  have hdisj : ∀ w, w ∈ P → w ∉ st0.stack := by
    intro w hw hw0
    exact hPunseen w hw (inv0.stack_seen w hw0)
  have hstacknone : ∀ w, w ∈ st2.stack → alookup st2.scc w = none := by
    intro w hw
    cases ho : alookup st2.scc w with
    | none => rfl
    | some k =>
      have hsome : (alookup st2.scc w).isSome := by rw [ho]; rfl
      exact absurd hw ((mf.inv.done_iff w).mp hsome).2
  have hPlow : ∀ w, w ∈ P → st0.index ≤ lowOf st2 w := by
    intro w hw
    by_cases hwu : w = u
    · rw [hwu, hlowu2]
    · have := mf.news_low_ge w (hPstack w hw) (hPunseen w hw) hwu
      omega
  have hPcp : ∀ w, w ∈ P → CP g st2 w := by
    intro w hw
    by_cases hwu : w = u
    · subst hwu
      exact fun t ht => hcp t ht
    · exact mf.news_cp w (hPstack w hw) (hPunseen w hw) hwu
  have hedgeP : ∀ w, w ∈ P → ∀ t, t ∈ g.edges w → (alookup st2.scc t).isSome ∨ t ∈ P := by
    intro w hw t ht
    obtain ⟨hseen_t, hrest⟩ := hPcp w hw t ht
    rcases hrest with hd | ⟨hst, hl⟩
    · exact Or.inl hd
    · right
      have h1 : st0.index ≤ idxOf st2 t := le_trans (hPlow w hw) hl
      rcases hmemP t hst with h2 | h2
      · exact h2
      · exact absurd h1 (by have := holdidx t h2; omega)
  have hreach_u_P : ∀ w, w ∈ P → Reach g u w := by
    intro w hw
    exact mf.new_reach w (mf.inv.stack_seen w (hPstack w hw)) (hPunseen w hw)
  have hhab : ∀ x, x ∈ st2.stack → idxOf st2 u < idxOf st2 x → lowOf st2 x < idxOf st2 x := by
    intro x hx hlt
    by_cases hxu : x = u
    · rw [hxu] at hlt
      omega
    · rcases hmemP x hx with h1 | h1
      · exact mf.above_low x hx (hPunseen x h1) hxu
      · have := holdidx x h1
        omega
  have hreach_P_u : ∀ w, w ∈ P → Reach g w u := by
    intro w hw
    exact stack_reach_down g st2 mf.inv u mf.u_stack hhab w (hPstack w hw)
      (by have := hPidx w hw; omega)
  have hinnd : st2.in_stack.Nodup :=
    List.Pairwise.imp (fun h => Nat.ne_of_lt h) mf.inv.in_sorted
  have holdnd : st0.stack.Nodup :=
    (List.nodup_cons.mp (List.nodup_append.mp hndA).2.1).2
  have hsccP : ∀ w, w ∈ P →
      alookup (P.foldl (fun m n => ainsert m n K) st2.scc) w = some K :=
    fun w hw => fold_ainsert_mem w K P st2.scc hw
  have hsccN : ∀ w, w ∉ P →
      alookup (P.foldl (fun m n => ainsert m n K) st2.scc) w = alookup st2.scc w :=
    fun w hw => fold_ainsert_notmem w K P st2.scc hw
  have hdone_notP : ∀ t, (alookup st2.scc t).isSome → t ∉ P := by
    intro t hd htP
    exact absurd (hPstack t htP) ((mf.inv.done_iff t).mp hd).2
  rw [hcl]
  refine ⟨?_, rfl, ?_, ?_⟩
  case refine_2 =>
    exact hsccP u huP
  case refine_3 =>
    intro w k hk
    have hd : (alookup st2.scc w).isSome := by rw [hk]; rfl
    have hw : w ∉ P := hdone_notP w hd
    show alookup (P.foldl (fun m n => ainsert m n K) st2.scc) w = some k
    rw [hsccN w hw]
    exact hk
  refine ⟨mf.inv.dom_nodes, mf.inv.dom_low, mf.inv.idx_lt, mf.inv.idx_inj, holdnd,
    ?_, ?_, ?_, ?_, ?_, ?_, ?_, ?_, ?_, ?_, ?_, ?_⟩
  · intro v
    show v ∈ st0.stack ↔ v ∈ P.foldl (fun s n => sremove n s) st2.in_stack
    constructor
    · intro hvold
      apply mem_fold_sremove_of_ne v P st2.in_stack
      · exact (mf.inv.stack_in v).mp
          (by rw [hshape2]; exact List.mem_append_right A2 (List.mem_cons_of_mem u hvold))
      · intro x hx he
        exact hdisj x hx (he ▸ hvold)
    · intro hvin
      have h1 : v ∈ st2.in_stack := fold_sremove_subset v P st2.in_stack hvin
      have h2 : v ∈ st2.stack := (mf.inv.stack_in v).mpr h1
      rcases hmemP v h2 with h3 | h3
      · exact absurd hvin (not_mem_fold_sremove v P st2.in_stack hinnd h3)
      · exact h3
  · intro v hv
    exact mf.inv.stack_seen v
      (by rw [hshape2]; exact List.mem_append_right A2 (List.mem_cons_of_mem u hv))
  · have hs := mf.inv.stack_sorted
    rw [hshape2] at hs
    exact (List.pairwise_cons.mp (List.pairwise_append.mp hs).2.1).2
  · intro w
    by_cases hw : w ∈ P
    · apply iff_of_true
      · show (alookup (P.foldl (fun m n => ainsert m n K) st2.scc) w).isSome
        rw [hsccP w hw]
        rfl
      · exact ⟨mf.inv.stack_seen w (hPstack w hw), hdisj w hw⟩
    · show (alookup (P.foldl (fun m n => ainsert m n K) st2.scc) w).isSome ↔
        (seen st2 w ∧ w ∉ st0.stack)
      rw [hsccN w hw, mf.inv.done_iff w]
      constructor
      · rintro ⟨hs, hns⟩
        exact ⟨hs, fun hold => hns
          (by rw [hshape2]; exact List.mem_append_right A2 (List.mem_cons_of_mem u hold))⟩
      · rintro ⟨hs, hnold⟩
        refine ⟨hs, fun hst => ?_⟩
        rcases hmemP w hst with h2 | h2
        · exact hw h2
        · exact hnold h2
  · intro v k hk
    have hk2 : alookup (P.foldl (fun m n => ainsert m n K) st2.scc) v = some k := hk
    show k < (st2.sccs ++ [P]).length
    rw [List.length_append]
    show k < st2.sccs.length + 1
    by_cases hv : v ∈ P
    · have hKk : K = k := by
        rw [hsccP v hv] at hk2
        exact Option.some.inj hk2
      omega
    · have hvk : alookup st2.scc v = some k := by rw [← hsccN v hv]; exact hk2
      have := mf.inv.scc_lt v k hvk
      omega
  · intro k v
    show v ∈ (st2.sccs ++ [P]).getD k [] ↔
      alookup (P.foldl (fun m n => ainsert m n K) st2.scc) v = some k
    rcases Nat.lt_trichotomy k st2.sccs.length with hk | hk | hk
    · rw [getD_append_lt [] st2.sccs [P] k hk, mf.inv.sccs_mem k v]
      by_cases hv : v ∈ P
      · have h0 : alookup st2.scc v = none := hstacknone v (hPstack v hv)
        rw [hsccP v hv, h0]
        constructor
        · intro hc
          exact Option.noConfusion hc
        · intro hc
          exfalso
          have hKk : K = k := Option.some.inj hc
          omega
      · rw [hsccN v hv]
    · subst hk
      rw [getD_append_len [] st2.sccs P]
      constructor
      · intro hv
        rw [hsccP v hv, hKdef]
      · intro hv
        by_cases hvP : v ∈ P
        · exact hvP
        · exfalso
          have h1 : alookup st2.scc v = some st2.sccs.length := by
            rw [← hsccN v hvP]
            exact hv
          have := mf.inv.scc_lt v _ h1
          omega
    · have hlen : (st2.sccs ++ [P]).length ≤ k := by
        rw [List.length_append]
        show st2.sccs.length + 1 ≤ k
        omega
      rw [getD_ge_nil [] (st2.sccs ++ [P]) k hlen]
      constructor
      · intro hv
        exact absurd hv (List.not_mem_nil v)
      · intro hv
        exfalso
        by_cases hvP : v ∈ P
        · rw [hsccP v hvP] at hv
          have hKk : K = k := Option.some.inj hv
          omega
        · have h1 : alookup st2.scc v = some k := by
            rw [← hsccN v hvP]
            exact hv
          have := mf.inv.scc_lt v k h1
          omega
  · intro v k hk t ht
    have hk2 : alookup (P.foldl (fun m n => ainsert m n K) st2.scc) v = some k := hk
    by_cases hv : v ∈ P
    · have hKk : K = k := by
        rw [hsccP v hv] at hk2
        exact Option.some.inj hk2
      rcases hedgeP v hv t ht with hd | htP
      · obtain ⟨k2, hk2t⟩ := Option.isSome_iff_exists.mp hd
        have htnP : t ∉ P := hdone_notP t hd
        refine ⟨k2, ?_, ?_⟩
        · show alookup (P.foldl (fun m n => ainsert m n K) st2.scc) t = some k2
          rw [hsccN t htnP]
          exact hk2t
        · have := mf.inv.scc_lt t k2 hk2t
          omega
      · refine ⟨K, ?_, le_of_eq hKk⟩
        show alookup (P.foldl (fun m n => ainsert m n K) st2.scc) t = some K
        exact hsccP t htP
    · have hvk : alookup st2.scc v = some k := by rw [← hsccN v hv]; exact hk2
      obtain ⟨k2, hk2t, hle⟩ := mf.inv.closure v k hvk t ht
      have htd : (alookup st2.scc t).isSome := by rw [hk2t]; rfl
      have htnP : t ∉ P := hdone_notP t htd
      refine ⟨k2, ?_, hle⟩
      show alookup (P.foldl (fun m n => ainsert m n K) st2.scc) t = some k2
      rw [hsccN t htnP]
      exact hk2t
  · intro k v w hv hw
    have hv2 : v ∈ (st2.sccs ++ [P]).getD k [] := hv
    have hw2 : w ∈ (st2.sccs ++ [P]).getD k [] := hw
    rcases Nat.lt_trichotomy k st2.sccs.length with hk | hk | hk
    · rw [getD_append_lt [] st2.sccs [P] k hk] at hv2 hw2
      exact mf.inv.comp_reach k v w hv2 hw2
    · subst hk
      rw [getD_append_len [] st2.sccs P] at hv2 hw2
      exact Relation.ReflTransGen.trans (hreach_P_u v hv2) (hreach_u_P w hw2)
    · have hlen : (st2.sccs ++ [P]).length ≤ k := by
        rw [List.length_append]
        show st2.sccs.length + 1 ≤ k
        omega
      rw [getD_ge_nil [] (st2.sccs ++ [P]) k hlen] at hv2
      exact absurd hv2 (List.not_mem_nil v)
  · intro v w hv hw hle
    have hv2 : v ∈ st2.stack := by
      rw [hshape2]
      exact List.mem_append_right A2 (List.mem_cons_of_mem u hv)
    have hw2 : w ∈ st2.stack := by
      rw [hshape2]
      exact List.mem_append_right A2 (List.mem_cons_of_mem u hw)
    exact mf.inv.stack_reach v w hv2 hw2 hle
  · intro v hv
    exact mf.inv.low_le v
      (by rw [hshape2]; exact List.mem_append_right A2 (List.mem_cons_of_mem u hv))
  · intro v hv
    have hv2 : v ∈ st2.stack := by
      rw [hshape2]
      exact List.mem_append_right A2 (List.mem_cons_of_mem u hv)
    obtain ⟨w, hw, hwidx, hr⟩ := mf.inv.low_wit v hv2
    refine ⟨w, ?_, hwidx, hr⟩
    rcases hmemP w hw with h1 | h1
    · exfalso
      have h2 := hPidx w h1
      have h3 := mf.inv.low_le v hv2
      have h4 := holdidx v hv
      omega
    · exact h1
  · show (P.foldl (fun s n => sremove n s) st2.in_stack).Pairwise (fun a b => a < b)
    exact List.Pairwise.sublist (fold_sremove_sublist P st2.in_stack) mf.inv.in_sorted

theorem MF_push (g : Graph) (u : Nat) (st0 : TarjanScc) (inv0 : TInv g st0)
    (hnode : u ∈ g.nodes) (hns : ¬ seen st0 u)
    (hreach : ∀ w, w ∈ st0.stack → Reach g w u) :
    MF g u st0 (pushState st0 u) := by
  have inv1 := push_TInv g st0 u inv0 hnode hns hreach
  have hseen : ∀ w, seen (pushState st0 u) w → w = u ∨ seen st0 w := by
    intro w hw
    by_cases hwu : w = u
    · exact Or.inl hwu
    · right
      have : alookup (pushState st0 u).indices w = alookup st0.indices w := by
        show alookup (ainsert st0.indices u st0.index) w = _
        exact alookup_ainsert_ne st0.indices u w st0.index (fun h => hwu h.symm)
      rw [seen, ← this]
      exact hw
  refine ⟨inv1, List.mem_cons_self u st0.stack, ?_, ?_, ?_, ?_, fun w k h => h, ?_,
    ?_, ?_, ?_, ?_, ?_, ?_⟩
  · show alookup (ainsert st0.indices u st0.index) u = some st0.index
    exact alookup_ainsert_self st0.indices u st0.index
  · intro w hw
    show (alookup (ainsert st0.indices u st0.index) w).isSome
    by_cases hwu : w = u
    · subst hwu
      rw [alookup_ainsert_self]
      rfl
    · rw [alookup_ainsert_ne st0.indices u w st0.index (fun h => hwu h.symm)]
      exact hw
  · intro w hw
    have hwu : w ≠ u := fun he => hns (he ▸ hw)
    show alookup (ainsert st0.indices u st0.index) w = alookup st0.indices w
    exact alookup_ainsert_ne st0.indices u w st0.index (fun h => hwu h.symm)
  · intro w hw
    have hwu : w ≠ u := fun he => hns (he ▸ hw)
    show alookup (ainsert st0.lowlinks u st0.index) w = alookup st0.lowlinks w
    exact alookup_ainsert_ne st0.lowlinks u w st0.index (fun h => hwu h.symm)
  · show st0.index < st0.index + 1
    omega
  · intro w hw hw0
    rcases hseen w hw with h | h
    · subst h
      exact Relation.ReflTransGen.refl
    · exact absurd h hw0
  · intro w hw hw0
    rcases hseen w hw with h | h
    · subst h
      show st0.index ≤ idxOf (pushState st0 w) w
      rw [idxOf, lookupD]
      show st0.index ≤ (alookup (ainsert st0.indices w st0.index) w).getD 0
      rw [alookup_ainsert_self]
      exact le_refl _
    · exact absurd h hw0
  · exact ⟨[], rfl, fun w hw => absurd hw (List.not_mem_nil w)⟩
  · intro w hwst hw0 hwu
    rcases List.mem_cons.mp hwst with h | h
    · exact absurd h hwu
    · exact absurd (inv0.stack_seen w h) hw0
  · intro w hwst hw0 hwu
    rcases List.mem_cons.mp hwst with h | h
    · exact absurd h hwu
    · exact absurd (inv0.stack_seen w h) hw0
  · intro w hwst hw0 hwu
    rcases List.mem_cons.mp hwst with h | h
    · exact absurd h hwu
    · exact absurd (inv0.stack_seen w h) hw0

theorem sc_spec (g : Graph) (hwf : g.WF) :
    ∀ (fuel u : Nat) (st0 : TarjanScc), u ∈ g.nodes → ¬ seen st0 u → TInv g st0 →
      (∀ w, w ∈ st0.stack → Reach g w u) → unvisited g st0 ≤ fuel →
      SCPost g u st0 (TarjanScc.strong_connect g fuel u st0) := by
  intro fuel
  induction fuel with
  | zero =>
    intro u st0 hu hns inv0 hreach hf
    exfalso
    have hmem : u ∈ g.nodes.filter (fun v => (alookup st0.indices v).isNone) :=
      List.mem_filter.mpr ⟨hu, not_seen_isNone st0 u hns⟩
    have h2 : 0 < unvisited g st0 := List.length_pos_of_mem hmem
    omega
  | succ f IH =>
    intro u st0 hu hns inv0 hreach hf
    have mf0 : MF g u st0 (pushState st0 u) := MF_push g u st0 inv0 hu hns hreach
    obtain ⟨mf2, cpAll, hpresAll⟩ :=
      sc_fold g hwf f u st0 inv0 hu hns hreach hf IH (g.edges u) (pushState st0 u)
        (fun t ht => ht) mf0
    show SCPost g u st0
      (if lookupD ((g.edges u).foldl (scFold g f u) (pushState st0 u)).lowlinks u =
          lookupD ((g.edges u).foldl (scFold g f u) (pushState st0 u)).indices u then
        TarjanScc.close u ((g.edges u).foldl (scFold g f u) (pushState st0 u))
      else ((g.edges u).foldl (scFold g f u) (pushState st0 u)))
    set st2 := (g.edges u).foldl (scFold g f u) (pushState st0 u) with hst2
    have hidxu2 : idxOf st2 u = st0.index := idxOf_of_idx st2 u st0.index mf2.u_idx
    by_cases hcond : lookupD st2.lowlinks u = lookupD st2.indices u
    · rw [if_pos hcond]
      have hclose : lowOf st2 u = idxOf st2 u := hcond
      obtain ⟨inv3, hstack3, hsccu3, hpres3⟩ :=
        sc_close g u st0 st2 inv0 hns mf2 (fun t ht => cpAll t ht) hclose
      have hlowu2 : lowOf st2 u = st0.index := by rw [hclose, hidxu2]
      refine ⟨inv3, mf2.seen_mono, mf2.pres_idx, mf2.pres_low,
        fun w k h => hpres3 w k (mf2.pres_scc w k h), mf2.idx_gt, mf2.u_idx,
        mf2.new_reach, mf2.new_idx_ge, ?_, ?_, ?_, ?_, fun _ => hstack3⟩
      · refine ⟨[], ?_, fun w hw => absurd hw (List.not_mem_nil w)⟩
        rw [hstack3]
        rfl
      · left
        refine ⟨?_, ?_, ?_⟩
        · rw [hsccu3]
          rfl
        · rw [hstack3]
          intro hu0
          exact hns (inv0.stack_seen u hu0)
        · show lowOf st2 u = st0.index
          exact hlowu2
      · intro w hwst hw0 hwu
        rw [hstack3] at hwst
        exact absurd (inv0.stack_seen w hwst) hw0
      · intro w hwst hw0
        rw [hstack3] at hwst
        exact absurd (inv0.stack_seen w hwst) hw0
    · rw [if_neg hcond]
      obtain ⟨A2, hshape2, hA2⟩ := mf2.stack_shape
      have hlt : lowOf st2 u < st0.index := by
        have h1 : lowOf st2 u ≤ idxOf st2 u := mf2.inv.low_le u mf2.u_stack
        have h2 : lowOf st2 u ≠ idxOf st2 u := hcond
        omega
      refine ⟨mf2.inv, mf2.seen_mono, mf2.pres_idx, mf2.pres_low, mf2.pres_scc,
        mf2.idx_gt, mf2.u_idx, mf2.new_reach, mf2.new_idx_ge, ?_, ?_, ?_, ?_,
        fun h => absurd mf2.u_stack h⟩
      · refine ⟨A2 ++ [u], ?_, ?_⟩
        · rw [hshape2, List.append_assoc]
          rfl
        · intro w hw
          rcases List.mem_append.mp hw with h1 | h1
          · exact hA2 w h1
          · rcases List.mem_cons.mp h1 with h2 | h2
            · exact h2 ▸ hns
            · exact absurd h2 (List.not_mem_nil w)
      · exact Or.inr ⟨mf2.u_stack, hlt⟩
      · intro w hwst hw0 hwu
        exact mf2.above_low w hwst hw0 hwu
      · intro w hwst hw0
        by_cases hwu : w = u
        · subst hwu
          exact ⟨fun t ht => cpAll t ht, le_refl _⟩
        · exact ⟨mf2.news_cp w hwst hw0 hwu, mf2.news_low_ge w hwst hw0 hwu⟩

theorem new_spec (g : Graph) (hwf : g.WF) :
    TInv g (TarjanScc.new g) ∧ (TarjanScc.new g).stack = [] ∧
    (∀ v, v ∈ g.nodes → seen (TarjanScc.new g) v) := by
  have main : ∀ (l : List Nat) (st : TarjanScc), (∀ x, x ∈ l → x ∈ g.nodes) →
      TInv g st → st.stack = [] →
      TInv g (l.foldl (fun st u =>
        if (alookup st.indices u).isNone then
          TarjanScc.strong_connect g (g.nodes.length + 1) u st else st) st) ∧
      (l.foldl (fun st u =>
        if (alookup st.indices u).isNone then
          TarjanScc.strong_connect g (g.nodes.length + 1) u st else st) st).stack = [] ∧
      (∀ v, seen st v → seen (l.foldl (fun st u =>
        if (alookup st.indices u).isNone then
          TarjanScc.strong_connect g (g.nodes.length + 1) u st else st) st) v) ∧
      (∀ v, v ∈ l → seen (l.foldl (fun st u =>
        if (alookup st.indices u).isNone then
          TarjanScc.strong_connect g (g.nodes.length + 1) u st else st) st) v) := by
    intro l
    induction l with
    | nil =>
      intro st _ inv hstk
      exact ⟨inv, hstk, fun v h => h, fun v hv => absurd hv (List.not_mem_nil v)⟩
    | cons x xs ih =>
      intro st hsub inv hstk
      rw [List.foldl_cons]
      by_cases hx : (alookup st.indices x).isNone = true
      · rw [if_pos hx]
        have hns : ¬ seen st x := by
          rw [seen]
          cases ho : alookup st.indices x with
          | none => intro hc; exact Bool.noConfusion hc
          | some i => rw [ho] at hx; exact absurd hx (by simp)
        have hxnode : x ∈ g.nodes := hsub x (List.mem_cons_self _ _)
        have hreach : ∀ w, w ∈ st.stack → Reach g w x := by
          intro w hw
          rw [hstk] at hw
          exact absurd hw (List.not_mem_nil w)
        have hfuel : unvisited g st ≤ g.nodes.length + 1 := by
          have := List.length_filter_le (fun v => (alookup st.indices v).isNone) g.nodes
          show (g.nodes.filter (fun v => (alookup st.indices v).isNone)).length ≤
            g.nodes.length + 1
          omega
        have post := sc_spec g hwf (g.nodes.length + 1) x st hxnode hns inv hreach hfuel
        have hstk2 : (TarjanScc.strong_connect g (g.nodes.length + 1) x st).stack = [] := by
          rcases post.u_cases with ⟨hdone, hnst, hlow⟩ | ⟨hust, hlow⟩
          · rw [post.closed_stack hnst]
            exact hstk
          · exfalso
            obtain ⟨w, hw, hwidx, _⟩ := post.inv.low_wit x hust
            obtain ⟨news, hn, hnews⟩ := post.stack_tail
            have hwn : w ∈ news := by
              rw [hn, hstk, List.append_nil] at hw
              exact hw
            have hwge := post.new_idx_ge w
              (post.inv.stack_seen w hw) (hnews w hwn)
            omega
        refine ⟨(ih _ (fun y hy => hsub y (List.mem_cons_of_mem _ hy)) post.inv hstk2).1,
          (ih _ (fun y hy => hsub y (List.mem_cons_of_mem _ hy)) post.inv hstk2).2.1, ?_, ?_⟩
        · intro v hv
          exact (ih _ (fun y hy => hsub y (List.mem_cons_of_mem _ hy)) post.inv hstk2).2.2.1
            v (post.seen_mono v hv)
        · intro v hv
          rcases List.mem_cons.mp hv with h1 | h1
          · subst h1
            exact (ih _ (fun y hy => hsub y (List.mem_cons_of_mem _ hy)) post.inv hstk2).2.2.1
              v (seen_of_idx _ v st.index post.u_idx)
          · exact (ih _ (fun y hy => hsub y (List.mem_cons_of_mem _ hy)) post.inv hstk2).2.2.2
              v h1
      · rw [if_neg hx]
        have hseenx : seen st x := by
          rw [seen]
          cases ho : alookup st.indices x with
          | none => rw [ho] at hx; exact absurd rfl hx
          | some i => rfl
        obtain ⟨h1, h2, h3, h4⟩ := ih st (fun y hy => hsub y (List.mem_cons_of_mem _ hy)) inv hstk
        refine ⟨h1, h2, h3, ?_⟩
        intro v hv
        rcases List.mem_cons.mp hv with hh | hh
        · subst hh
          exact h3 v hseenx
        · exact h4 v hh
  obtain ⟨h1, h2, h3, h4⟩ := main g.nodes TarjanScc.empty (fun x h => h) (TInv_empty g) rfl
  exact ⟨h1, h2, h4⟩

theorem reach_scc_le (g : Graph) (st : TarjanScc) (inv : TInv g st) :
    ∀ u v, Reach g u v → ∀ k, alookup st.scc u = some k →
      ∃ k2, alookup st.scc v = some k2 ∧ k2 ≤ k := by
  intro u v hr
  induction hr using Relation.ReflTransGen.head_induction_on with
  | refl =>
    intro k hk
    exact ⟨k, hk, le_refl k⟩
  | head hstep hrest ih =>
    intro k hk
    obtain ⟨k2, hk2, hle⟩ := inv.closure _ k hk _ hstep
    obtain ⟨k3, hk3, hle2⟩ := ih k2 hk2
    exact ⟨k3, hk3, le_trans hle2 hle⟩

theorem mem_ainsert {α : Type} : ∀ (m : List (Nat × α)) (k : Nat) (val : α) (p : Nat × α),
    p ∈ ainsert m k val → p = (k, val) ∨ p ∈ m := by
  intro m
  induction m with
  | nil =>
    intro k val p hp
    rw [ainsert] at hp
    rcases List.mem_cons.mp hp with h | h
    · exact Or.inl h
    · exact absurd h (List.not_mem_nil p)
  | cons q rest ih =>
    intro k val p hp
    obtain ⟨k2, w⟩ := q
    rw [ainsert] at hp
    by_cases h1 : k = k2
    · rw [if_pos h1] at hp
      rcases List.mem_cons.mp hp with h | h
      · exact Or.inl h
      · exact Or.inr (List.mem_cons_of_mem _ h)
    · rw [if_neg h1] at hp
      by_cases h2 : k < k2
      · rw [if_pos h2] at hp
        rcases List.mem_cons.mp hp with h | h
        · exact Or.inl h
        · exact Or.inr h
      · rw [if_neg h2] at hp
        rcases List.mem_cons.mp hp with h | h
        · exact Or.inr (h ▸ List.mem_cons_self _ _)
        · rcases ih k val p h with h3 | h3
          · exact Or.inl h3
          · exact Or.inr (List.mem_cons_of_mem _ h3)

theorem WF_new : Graph.new.WF := by
  intro p hp
  exact absurd hp (List.not_mem_nil p)

theorem WF_add_edge (g : Graph) (h : g.WF) (u v : Nat) : (g.add_edge u v).WF := by
  intro p hp
  have hnodes : ∀ x, x ∈ g.nodes → x ∈ (g.add_edge u v).nodes := by
    intro x hx
    show x ∈ sinsert v (sinsert u g.nodes)
    rw [mem_sinsert, mem_sinsert]
    exact Or.inr (Or.inr hx)
  have hu : u ∈ (g.add_edge u v).nodes := by
    show u ∈ sinsert v (sinsert u g.nodes)
    rw [mem_sinsert, mem_sinsert]
    exact Or.inr (Or.inl rfl)
  have hv : v ∈ (g.add_edge u v).nodes := by
    show v ∈ sinsert v (sinsert u g.nodes)
    rw [mem_sinsert]
    exact Or.inl rfl
  have hp2 : p ∈ ainsert g.graph u (sinsert v ((alookup g.graph u).getD [])) := hp
  rcases mem_ainsert g.graph u _ p hp2 with h1 | h1
  · subst h1
    refine ⟨hu, ?_⟩
    intro x hx
    rcases (mem_sinsert x v _).mp hx with h2 | h2
    · exact h2 ▸ hv
    · cases ho : alookup g.graph u with
      | none =>
        rw [ho] at h2
        exact absurd h2 (List.not_mem_nil x)
      | some l =>
        rw [ho] at h2
        exact hnodes x ((h (u, l) (alookup_mem g.graph u l ho)).2 x h2)
  · obtain ⟨ha, hb⟩ := h p h1
    exact ⟨hnodes p.1 ha, fun x hx => hnodes x (hb x hx)⟩

theorem WF_ensure_node (g : Graph) (h : g.WF) (n : Nat) : (g.ensure_node n).WF := by
  intro p hp
  have hnodes : ∀ x, x ∈ g.nodes → x ∈ (g.ensure_node n).nodes := by
    intro x hx
    show x ∈ sinsert n g.nodes
    rw [mem_sinsert]
    exact Or.inr hx
  obtain ⟨ha, hb⟩ := h p hp
  exact ⟨hnodes p.1 ha, fun x hx => hnodes x (hb x hx)⟩

/-- C2: TarjanScc::new computes a partition of the registered nodes into
components: every registered node lies in exactly one component, nodes of one
component are mutually reachable, and mutually reachable nodes lie in the same
component.  `Graph.WF` is the representation invariant of every Graph value
built through the public constructors (proved by WF_new, WF_add_edge,
WF_ensure_node). -/
theorem C2_scc_partition (g : Graph) (hwf : g.WF) :
    (∀ u, u ∈ g.nodes → ∃! k, u ∈ (TarjanScc.new g).sccs.getD k []) ∧
    (∀ k u v, u ∈ (TarjanScc.new g).sccs.getD k [] →
      v ∈ (TarjanScc.new g).sccs.getD k [] → Reach g u v ∧ Reach g v u) ∧
    (∀ k l u v, u ∈ (TarjanScc.new g).sccs.getD k [] →
      v ∈ (TarjanScc.new g).sccs.getD l [] → Reach g u v → Reach g v u → k = l) := by
  obtain ⟨inv, hstk, hseen⟩ := new_spec g hwf
  refine ⟨?_, ?_, ?_⟩
  · intro u hu
    have hd : (alookup (TarjanScc.new g).scc u).isSome :=
      (inv.done_iff u).mpr ⟨hseen u hu, by rw [hstk]; exact List.not_mem_nil u⟩
    obtain ⟨k, hk⟩ := Option.isSome_iff_exists.mp hd
    refine ⟨k, (inv.sccs_mem k u).mpr hk, ?_⟩
    intro k2 hk2
    have h2 := (inv.sccs_mem k2 u).mp hk2
    rw [hk] at h2
    exact (Option.some.inj h2).symm
  · intro k u v hu hv
    exact ⟨inv.comp_reach k u v hu hv, inv.comp_reach k v u hv hu⟩
  · intro k l u v hu hv huv hvu
    have hku := (inv.sccs_mem k u).mp hu
    have hlv := (inv.sccs_mem l v).mp hv
    obtain ⟨k2, hk2, hle1⟩ := reach_scc_le g _ inv u v huv k hku
    obtain ⟨l2, hl2, hle2⟩ := reach_scc_le g _ inv v u hvu l hlv
    rw [hlv] at hk2
    rw [hku] at hl2
    have e1 : l = k2 := Option.some.inj hk2
    have e2 : k = l2 := Option.some.inj hl2
    omega

theorem c2g_WF : c2g.WF :=
  WF_add_edge _ (WF_add_edge _ (WF_add_edge _ WF_new 0 1) 1 0) 1 2

theorem C2_scc_partition_witness :
    (∀ u, u ∈ c2g.nodes → ∃! k, u ∈ (TarjanScc.new c2g).sccs.getD k []) ∧
    (∀ k u v, u ∈ (TarjanScc.new c2g).sccs.getD k [] →
      v ∈ (TarjanScc.new c2g).sccs.getD k [] → Reach c2g u v ∧ Reach c2g v u) ∧
    (∀ k l u v, u ∈ (TarjanScc.new c2g).sccs.getD k [] →
      v ∈ (TarjanScc.new c2g).sccs.getD l [] → Reach c2g u v → Reach c2g v u → k = l) :=
  C2_scc_partition c2g c2g_WF
